import Mathlib

/-!
# Verification of the `morning_dossier` content pipeline

A shallow embedding of `src/content_processor.py` (the Rule-Based Cleaner,
footnote consolidation, the plain-text fallback, the AI polisher adapter and
the concurrent article assembler), together with theorems settling the
specification claims about them.

HTML documents are modelled as element trees (`Node`).  BeautifulSoup objects
are mutable and carry identity, so every element node carries a numeric id
`nid`; the live heap is a forest (`PState`): the parsed document, the list of
extracted footnote contents (`footnote_items`), and detached-but-alive
subtrees (results of `extract()` / `clear()`).  `decompose()` destroys a
subtree: it disappears from the forest entirely (BeautifulSoup clears the
`__dict__` and contents of every destroyed element, as the source itself notes
at `process_endnotes`: "its attrs might be gone"), so a lookup of a destroyed
node fails, which renders its text as empty and its attributes as missing --
exactly the observations the Python code makes on such husks.  BeautifulSoup
documents that the behaviour of a decomposed element is otherwise undefined;
the one place the source can reach such undefined behaviour (extracting a
footnote target that was itself destroyed as a back-link) is modelled as an
explicit error, which the `try/except` in `clean_html` then catches.
-/

/-! ## String helpers mirroring Python primitives

Core `String` functions use byte-position loops that the kernel cannot
evaluate, so the Python string primitives are implemented here by structural
recursion over character lists. -/

/-- `pre` is a prefix of `l`. -/
def prefixOfL : List Char → List Char → Bool
  | [], _ => true
  | _ :: _, [] => false
  | a :: as, b :: bs => a = b && prefixOfL as bs

/-- `needle` occurs inside `hay`. -/
def infixOfL (needle : List Char) : List Char → Bool
  | [] => prefixOfL needle []
  | c :: t => prefixOfL needle (c :: t) || infixOfL needle t

/-- Python `needle in hay` (substring containment). -/
def strContains (hay needle : String) : Bool :=
  infixOfL needle.toList hay.toList

/-- Python `str.lower()`. -/
def pyLower (s : String) : String := ⟨s.toList.map Char.toLower⟩

/-- Python `str.strip()` (whitespace at both ends). -/
def pyStrip (s : String) : String :=
  ⟨(((s.toList.dropWhile Char.isWhitespace).reverse.dropWhile
      Char.isWhitespace).reverse)⟩

/-- Python `str.isdigit()` restricted to ASCII digits: nonempty and all digits. -/
def isDigitStr (s : String) : Bool :=
  decide (s ≠ "") && s.toList.all Char.isDigit

/-- Numeric value of a digit string (as read by Python `int`). -/
def digitsToNat (s : String) : Nat :=
  s.toList.foldl (fun a c => a * 10 + (c.toNat - 48)) 0

/-- Python `s.startswith('#')`. -/
def startsWithHash (s : String) : Bool :=
  match s.toList with
  | '#' :: _ => true
  | _ => false

/-- Python `s[1:]`. -/
def strTail (s : String) : String := ⟨s.toList.tail⟩

/-- Python `len(s)` (number of characters). -/
def strLen (s : String) : Nat := s.toList.length

/-- Python `s.split("\n\n")` (used by `text_to_html`). -/
def splitNN : List Char → List (List Char)
  | '\n' :: '\n' :: t => [] :: splitNN t
  | c :: t =>
    match splitNN t with
    | [] => [[c]]
    | p :: ps => (c :: p) :: ps
  | [] => [[]]

/-- Python `s.replace("by ", "")` (author-name normalisation, source line 221). -/
def removeByL : List Char → List Char
  | 'b' :: 'y' :: ' ' :: t => removeByL t
  | c :: t => c :: removeByL t
  | [] => []

def removeBy (s : String) : String := ⟨removeByL s.toList⟩

/-! ## The regular expressions of `content_processor.py`, as predicates -/

/-- `re.match(r'^\[?\(?\d+\)?\]?$', text)`: an optionally bracketed /
parenthesized number (footnote-reference text, source line 76). -/
def isNumberRef (s : String) : Bool :=
  let cs := s.toList
  let cs := match cs with | '[' :: r => r | _ => cs
  let cs := match cs with | '(' :: r => r | _ => cs
  let cs := match cs.reverse with | ']' :: r => r.reverse | _ => cs
  let cs := match cs.reverse with | ')' :: r => r.reverse | _ => cs
  decide (cs ≠ []) && cs.all Char.isDigit

/-- `re.match(r'^[\.\s…]+$', text) or text.strip() == "."` (rule 2 of the
boilerplate loop, source line 192). -/
def isDotsOnly (s : String) : Bool :=
  (decide (s ≠ "") && s.toList.all fun c => c = '.' || c.isWhitespace || c = '…')
    || pyStrip s = "."

/-- The character class of the leaf-punctuation sweep,
`re.match(r'^[\.\s…•·∙]+$', text) or text == "."` (source line 331). -/
def isPunctBullet (s : String) : Bool :=
  (decide (s ≠ "") &&
    s.toList.all fun c =>
      c = '.' || c.isWhitespace || c = '…' || c = '•' || c = '·' || c = '∙')
    || s = "."

/-- `re.match(r'^[A-Z][a-z]{2,8}\s+\d{1,2}(?:,\s+\d{4})?$', text.strip())`:
a standalone date such as "Dec 19" or "December 19, 2024" (source line 200). -/
def isDateLike (s : String) : Bool :=
  match s.toList with
  | [] => false
  | c :: rest =>
    c.isUpper &&
    (let lows := rest.takeWhile fun c => 'a' ≤ c && c ≤ 'z'
     let rest2 := rest.drop lows.length
     decide (2 ≤ lows.length) && decide (lows.length ≤ 8) &&
     (let sp := rest2.takeWhile Char.isWhitespace
      let rest3 := rest2.drop sp.length
      decide (1 ≤ sp.length) &&
      (let ds := rest3.takeWhile Char.isDigit
       let rest4 := rest3.drop ds.length
       decide (1 ≤ ds.length) && decide (ds.length ≤ 2) &&
       (decide (rest4 = []) ||
        (match rest4 with
         | ',' :: r5 =>
           let sp2 := r5.takeWhile Char.isWhitespace
           let r6 := r5.drop sp2.length
           decide (1 ≤ sp2.length) && decide (r6.length = 4) && r6.all Char.isDigit
         | _ => false)))))

/-- `re.match(r'^[\.·•]?\s*Paid$', text.strip(), re.IGNORECASE)` (source
line 213). -/
def isPaidMarker (s : String) : Bool :=
  let cs := (pyStrip s).toList
  let cs := match cs with
    | c :: r => if c = '.' || c = '·' || c = '•' then r else c :: r
    | [] => []
  let cs2 := cs.dropWhile Char.isWhitespace
  cs2.map Char.toLower = ['p', 'a', 'i', 'd']

example : isNumberRef "[12]" = true := by decide
example : isNumberRef "(3)" = true := by decide
example : isNumberRef "7" = true := by decide
example : isNumberRef "a7" = false := by decide
example : isNumberRef "" = false := by decide
example : isDotsOnly ". . ." = true := by decide
example : isDotsOnly "a." = false := by decide
example : isDateLike "Dec 19" = true := by decide
example : isDateLike "December 19, 2024" = true := by decide
example : isDateLike "Dec 199" = false := by decide
example : isDateLike "dec 19" = false := by decide
example : isPaidMarker "· Paid" = true := by decide
example : isPaidMarker " paid " = true := by decide
example : isPaidMarker "Paidx" = false := by decide
example : strContains "hello world" "lo wo" = true := by decide
example : strContains "hello" "z" = false := by decide
example : isDigitStr "400" = true := by decide
example : isDigitStr "" = false := by decide
example : isDigitStr "4a" = false := by decide
example : digitsToNat "400" = 400 := by decide
example : splitNN "a\n\n\nb".toList = ["a".toList, "\nb".toList] := by decide
example : removeBy "by matthew by " = "matthew " := by decide
example : pyStrip "  ab c  " = "ab c" := by decide
example : pyLower "By Jane" = "by jane" := by decide

/-! ## The document tree model

BeautifulSoup elements are mutable objects with identity; each element node
carries a model id `nid`.  Text nodes (`NavigableString`) carry no id: the
source never mutates or looks up a text node on its own. -/

inductive Node where
  | elem (nid : Nat) (tag : String) (attrs : List (String × String)) (children : List Node)
  | txt (s : String)

/-- `tag.get(k)` on an attribute list. -/
def getAttr (attrs : List (String × String)) (k : String) : Option String :=
  (attrs.find? fun p => p.1 = k).map Prod.snd

/-- `tag[k] = v`: replace in place or append. -/
def setAttrL (k v : String) : List (String × String) → List (String × String)
  | [] => [(k, v)]
  | (k2, v2) :: r => if k2 = k then (k, v) :: r else (k2, v2) :: setAttrL k v r

def tagOf : Node → String
  | .elem _ tg _ _ => tg
  | .txt _ => ""

def nidOf : Node → Nat
  | .elem i _ _ _ => i
  | .txt _ => 0

def isElemN : Node → Bool
  | .elem _ _ _ _ => true
  | .txt _ => false

mutual

/-- All text-node strings of a subtree, in document order (the stream
BeautifulSoup's `get_text` joins). -/
def nodeStrings : Node → List String
  | .txt s => [s]
  | .elem _ _ _ cs => forestStrings cs

def forestStrings : List Node → List String
  | [] => []
  | c :: cs => nodeStrings c ++ forestStrings cs

end

/-- `get_text()` -- concatenation of all strings. -/
def getTextRaw (n : Node) : String := String.join (nodeStrings n)

def joinSep (sep : String) : List String → String
  | [] => ""
  | [x] => x
  | x :: y :: xs => x ++ sep ++ joinSep sep (y :: xs)

/-- `get_text(" ", strip=True)` -- strings stripped, empties dropped, joined
with a space. -/
def getTextSepStrip (n : Node) : String :=
  joinSep " " (((nodeStrings n).map pyStrip).filter fun s => decide (s ≠ ""))

/-- `get_text(strip=True)` -- strings stripped, empties dropped, concatenated. -/
def getTextStrip (n : Node) : String :=
  String.join (((nodeStrings n).map pyStrip).filter fun s => decide (s ≠ ""))

mutual

/-- `find_all`: ids of elements satisfying `p`, in document (preorder) order.
A fresh id list is returned, so this models the snapshot semantics of
BeautifulSoup's `find_all` under later mutation. -/
def findNidsN (p : String → List (String × String) → Bool) : Node → List Nat
  | .txt _ => []
  | .elem j tg a cs => (if p tg a then [j] else []) ++ findNidsL p cs

def findNidsL (p : String → List (String × String) → Bool) : List Node → List Nat
  | [] => []
  | c :: rest => findNidsN p c ++ findNidsL p rest

end

mutual

/-- Is there an element with tag in `ts` in the subtree (self included)? -/
def anyTagN (ts : List String) : Node → Bool
  | .txt _ => false
  | .elem _ tg _ cs => ts.contains tg || anyTagL ts cs

def anyTagL (ts : List String) : List Node → Bool
  | [] => false
  | c :: rest => anyTagN ts c || anyTagL ts rest

end

/-- `element.find([...]) is not None`: searches descendants only. -/
def hasDescTags (ts : List String) : Node → Bool
  | .txt _ => false
  | .elem _ _ _ cs => anyTagL ts cs

/-- `element.find(True) is not None`: some element descendant exists (any
element descendant implies an element child, so one level suffices). -/
def hasElemDesc : Node → Bool
  | .txt _ => false
  | .elem _ _ _ cs => cs.any isElemN

mutual

/-- Find the (live) element with id `i` in a subtree (self included). -/
def lookupN (i : Nat) : Node → Option Node
  | .txt _ => none
  | .elem j tg a cs =>
    if j = i then some (.elem j tg a cs) else lookupL i cs

def lookupL (i : Nat) : List Node → Option Node
  | [] => none
  | c :: rest =>
    match lookupN i c with
    | some r => some r
    | none => lookupL i rest

end

mutual

/-- Remove the element with id `i` from a subtree (`element.extract()` /
`element.decompose()` seen from the tree it leaves; ids are unique, they
model object identity). -/
def removeN (i : Nat) : Node → Node
  | .txt s => .txt s
  | .elem j tg a cs => .elem j tg a (removeL i cs)

def removeL (i : Nat) : List Node → List Node
  | [] => []
  | c :: rest =>
    if nidOf c = i && isElemN c then rest
    else removeN i c :: removeL i rest

end

mutual

/-- Replace the children of element `i` (`tag.clear()` + appends; the caller
keeps the detached old children alive). -/
def setChildrenN (i : Nat) (newCs : List Node) : Node → Node
  | .txt s => .txt s
  | .elem j tg a cs =>
    if j = i then .elem j tg a newCs
    else .elem j tg a (setChildrenL i newCs cs)

def setChildrenL (i : Nat) (newCs : List Node) : List Node → List Node
  | [] => []
  | c :: rest => setChildrenN i newCs c :: setChildrenL i newCs rest

end

mutual

/-- `parent.append(child)` by parent id. -/
def appendChildN (i : Nat) (child : Node) : Node → Node
  | .txt s => .txt s
  | .elem j tg a cs =>
    if j = i then .elem j tg a (cs ++ [child])
    else .elem j tg a (appendChildL i child cs)

def appendChildL (i : Nat) (child : Node) : List Node → List Node
  | [] => []
  | c :: rest => appendChildN i child c :: appendChildL i child rest

end

mutual

/-- First element with the given tag, preorder (`soup.find(t)` / `soup.body`). -/
def findTagN (t : String) : Node → Option Node
  | .txt _ => none
  | .elem j tg a cs =>
    if tg = t then some (.elem j tg a cs) else findTagL t cs

def findTagL (t : String) : List Node → Option Node
  | [] => none
  | c :: rest =>
    match findTagN t c with
    | some r => some r
    | none => findTagL t rest

end

mutual

/-- All element ids of a subtree (used for freshness bookkeeping and
disjointness statements). -/
def elemNidsN : Node → List Nat
  | .txt _ => []
  | .elem j _ _ cs => j :: elemNidsL cs

def elemNidsL : List Node → List Nat
  | [] => []
  | c :: rest => elemNidsN c ++ elemNidsL rest

end

def maxNidF (f : List Node) : Nat := (elemNidsL f).foldl max 0

def renderAttrs : List (String × String) → String
  | [] => ""
  | (k, v) :: r => " " ++ k ++ "=\x22" ++ v ++ "\x22" ++ renderAttrs r

mutual

/-- Serialisation (`str(tag)`); used to compare outputs, which in Python are
strings. -/
def renderN : Node → String
  | .txt s => s
  | .elem _ tg a cs => "<" ++ tg ++ renderAttrs a ++ ">" ++ renderL cs ++ "</" ++ tg ++ ">"

def renderL : List Node → String
  | [] => ""
  | c :: rest => renderN c ++ renderL rest

end

example :
    renderN (.elem 1 "div" [("class", "x")] [.txt "hi", .elem 2 "p" [] []]) =
      "<div class=\x22x\x22>hi<p></p></div>" := by decide
example :
    lookupL 2 [Node.elem 1 "div" [] [.elem 2 "p" [] [.txt "y"]]] =
      some (.elem 2 "p" [] [.txt "y"]) := by rfl
example :
    removeL 2 [Node.elem 1 "div" [] [.elem 2 "p" [] [.txt "y"], .txt "z"]] =
      [Node.elem 1 "div" [] [.txt "z"]] := by rfl
example :
    getTextSepStrip (.elem 1 "p" [] [.txt " a ", .elem 2 "b" [] [.txt "c"], .txt ""]) =
      "a c" := by decide
example :
    findNidsL (fun tg _ => tg = "a") [Node.elem 1 "div" [] [.elem 2 "a" [] [], .elem 3 "a" [] []]] =
      [2, 3] := by rfl

/-! ## The live heap

`doc` is the parsed document (the soup's top-level contents), `pool` the
`footnote_items` collected so far (in collection order), `orphans` the
detached-but-alive subtrees (from `extract()` and `clear()`).  `fresh`
supplies ids for nodes created by `new_tag`.  A destroyed (`decompose`d)
subtree is simply absent from all three regions. -/

structure PState where
  doc : List Node
  pool : List Node
  orphans : List Node
  fresh : Nat

def initPState (soup : List Node) : PState :=
  ⟨soup, [], [], maxNidF soup + 1⟩

/-- Find a live object anywhere on the heap (a Python reference stays usable
wherever the object has been moved to). -/
def lookupSt (i : Nat) : PState → Option Node
  | ⟨d, p, o, _⟩ =>
    match lookupL i d with
    | some r => some r
    | none =>
      match lookupL i p with
      | some r => some r
      | none => lookupL i o

/-- Detach / destroy the subtree `i`, wherever it lives (ids occur in at most
one region, so blanket removal is the identity elsewhere). -/
def removeSt (i : Nat) : PState → PState
  | ⟨d, p, o, f⟩ => ⟨removeL i d, removeL i p, removeL i o, f⟩

/-- `element.decompose()` on the heap: the subtree vanishes. -/
def decomposeSt (i : Nat) (st : PState) : PState := removeSt i st

/-- `anchor.string = ""` followed by `anchor.append(sup)` (source lines
83-87): the old children `old` are detached alive, the new children are an
empty string and a fresh `<sup>` wrapping the old visible text. -/
def supWrapSt (i : Nat) (anchor_text : String) (old : List Node) : PState → PState
  | ⟨d, p, o, f⟩ =>
    let newCs : List Node := [.txt "", .elem f "sup" [] [.txt anchor_text]]
    ⟨setChildrenL i newCs d, setChildrenL i newCs p,
      setChildrenL i newCs o ++ old, f + 1⟩

/-! ## `process_endnotes` (source lines 47-131) -/

mutual

/-- The static id map `ids` of source line 53 (a dict comprehension over
`soup.find_all(id=True)`): `(value, nid)` pairs in document order; a later
pair overwrites an earlier one with the same id value. -/
def idPairsN : Node → List (String × Nat)
  | .txt _ => []
  | .elem j _ a cs =>
    (match getAttr a "id" with
     | some v => [(v, j)]
     | none => []) ++ idPairsL cs

def idPairsL : List Node → List (String × Nat)
  | [] => []
  | c :: rest => idPairsN c ++ idPairsL rest

end

def idLookup (ps : List (String × Nat)) (k : String) : Option Nat :=
  (ps.reverse.find? fun p => p.1 = k).map Prod.snd

/-- The anchors snapshot `soup.find_all('a', href=True)`. -/
def anchorsWithHref (f : List Node) : List Nat :=
  findNidsL (fun tg a => tg = "a" && (getAttr a "href").isSome) f

/-- Does this back-link get decomposed (source lines 99-102)? -/
def backLinkOffender (n : Node) : Bool :=
  match n with
  | .txt _ => false
  | .elem _ _ a _ =>
    startsWithHash ((getAttr a "href").getD "") &&
      (decide (strLen (pyStrip (getTextRaw n)) < 3) ||
        strContains (pyLower (getTextRaw n)) "return")

/-- The back-link cleanup inside an extracted footnote content (source lines
96-102): snapshot the nested `<a>` elements, decompose the offenders.  A
snapshot link destroyed by an earlier decompose in the same sweep (it was
nested inside a removed back-link) has had its attrs cleared, so
`link.get('href', '')` on it raises AttributeError and the sweep aborts; the
error carries the partially-cleaned content the exception abandons. -/
def backLinkStep (acc : Except Node Node) (nid : Nat) : Except Node Node :=
  match acc with
  | .error e => .error e
  | .ok c =>
    match (match c with
           | .elem _ _ _ cs => lookupL nid cs
           | .txt _ => none) with
    | none => .error c
    | some link => if backLinkOffender link then .ok (removeN nid c) else .ok c

def cleanBackLinks (content : Node) : Except Node Node :=
  let snapshot :=
    match content with
    | .elem _ _ _ cs => findNidsL (fun tg _ => tg = "a") cs
    | .txt _ => []
  snapshot.foldl backLinkStep (.ok content)

/-- `note_content['class'] = note_content.get('class', []) + ['endnote-item']`
(source line 110), with the multi-valued class attribute carried as its
space-joined serialisation. -/
def appendEndnoteClass : Node → Node
  | .txt s => .txt s
  | .elem j tg a cs =>
    let cls :=
      match getAttr a "class" with
      | some v => if v = "" then "endnote-item" else v ++ " " ++ "endnote-item"
      | none => "endnote-item"
    .elem j tg (setAttrL "class" cls a) cs

/-- Accumulator of the anchor loop: the heap (whose `pool` is
`footnote_items`) and `processed_ids` in first-occurrence order (a Python
`set` tested by membership; the order mirror is the `footnote_items` order). -/
structure EndAcc where
  st : PState
  processed : List String

def poolToOrphans : PState → PState
  | ⟨d, p, o, f⟩ => ⟨d, [], o ++ p, f⟩

/-- Push a collected footnote item. -/
def pushPool (item : Node) : PState → PState
  | ⟨d, p, o, f⟩ => ⟨d, p ++ [item], o, f⟩

/-- A detached object the escaping exception abandons. -/
def pushOrphan (item : Node) : PState → PState
  | ⟨d, p, o, f⟩ => ⟨d, p, o ++ [item], f⟩

def bumpFresh : PState → PState
  | ⟨d, p, o, f⟩ => ⟨d, p, o, f + 1⟩

def freshOf : PState → Nat
  | ⟨_, _, _, f⟩ => f

/-- One iteration of the anchor loop of `process_endnotes` (source lines
61-111).  A target destroyed earlier (decomposed as a back-link) survives in
the `ids` map as a cleared husk: `extract()` on it returns it without
raising, its nested-link sweep sees nothing, its name is gone so it is
wrapped in a fresh div and consolidated.  The error case is the back-link
sweep itself: reading the `href` of a nested link destroyed earlier in the
same sweep raises AttributeError (its attrs are gone, as the code's own
guard comment records); the exception escapes the loop, abandoning the
partially-cleaned content and the collected `footnote_items` as detached
objects. -/
def endnoteStep (idsMap : List (String × Nat)) (acc : EndAcc) (nid : Nat) :
    Except EndAcc EndAcc :=
  match acc with
  | ⟨st, processed⟩ =>
    match lookupSt nid st with
    | none => .ok ⟨st, processed⟩
    | some anchor =>
      match getAttr (match anchor with | .elem _ _ a _ => a | .txt _ => []) "href" with
      | none => .ok ⟨st, processed⟩
      | some href =>
        if ¬ startsWithHash href then .ok ⟨st, processed⟩
        else
          let target_id := strTail href
          match idLookup idsMap target_id with
          | none => .ok ⟨st, processed⟩
          | some tnid =>
            let text := pyStrip (getTextRaw anchor)
            let is_number := isNumberRef text
            let is_footnote_id :=
              strContains (pyLower target_id) "footnote" ||
                strContains (pyLower target_id) "fn" ||
                strContains (pyLower target_id) "ref"
            if ¬ (is_number || is_footnote_id) then .ok ⟨st, processed⟩
            else
              let st1 :=
                if hasDescTags ["sup"] anchor then st
                else
                  supWrapSt nid (getTextRaw anchor)
                    (match anchor with | .elem _ _ _ cs => cs | .txt _ => []) st
              if target_id ∈ processed then .ok ⟨st1, processed⟩
              else
                match lookupSt tnid st1 with
                | none =>
                  .ok ⟨pushPool
                        (appendEndnoteClass
                          (.elem (freshOf st1) "div" [] [.elem tnid "" [] []]))
                        (bumpFresh st1),
                       processed ++ [target_id]⟩
                | some target_div =>
                  let st2 := removeSt tnid st1
                  match cleanBackLinks target_div with
                  | .error stuck =>
                    .error ⟨pushOrphan stuck (poolToOrphans st2), processed⟩
                  | .ok note1 =>
                    if tagOf note1 ∈ ["div", "p", "li"] then
                      .ok ⟨pushPool (appendEndnoteClass note1) st2,
                           processed ++ [target_id]⟩
                    else
                      .ok ⟨pushPool
                            (appendEndnoteClass
                              (.elem (freshOf st2) "div" [] [note1]))
                            (bumpFresh st2),
                           processed ++ [target_id]⟩

/-- Append the endnotes container (source lines 114-131): to the body when
one exists, else at the end of the document. -/
def appendEndnotesContainer : PState → PState
  | ⟨d, p, o, f⟩ =>
    if p.isEmpty then ⟨d, p, o, f⟩
    else
      let container : Node :=
        .elem f "div" [("class", "endnotes")] (.elem (f + 1) "h3" [] [.txt "Notes"] :: p)
      match findTagL "body" d with
      | some b => ⟨appendChildL (nidOf b) container d, [], o, f + 2⟩
      | none => ⟨d ++ [container], [], o, f + 2⟩

/-- `process_endnotes(soup)`.  Returns the heap and the processed target ids
in first-reference order; an error carries the partially-mutated heap the
exception leaves behind. -/
def process_endnotes (st : PState) : Except PState (PState × List String) :=
  match st with
  | ⟨d, p, o, f⟩ =>
    let idsMap := idPairsL d
    let anchors := anchorsWithHref d
    match anchors.foldl
        (fun acc nid =>
          match acc with
          | .error e => .error e
          | .ok a => endnoteStep idsMap a nid)
        (Except.ok ⟨⟨d, p, o, f⟩, []⟩ : Except EndAcc EndAcc) with
    | .error e => .error e.st
    | .ok a => .ok (appendEndnotesContainer a.st, a.processed)

/-! ## `clean_html` (source lines 133-354) -/

/-- Step 1 (source lines 144-145): `for script in soup([...]): script.extract()`.
`extract` detaches alive, it does not destroy. -/
def stripOneTag (s : PState) (nid : Nat) : PState :=
  match lookupSt nid s with
  | none => s
  | some x =>
    match removeSt nid s with
    | ⟨d, p, o, f⟩ => ⟨d, p, o ++ [x], f⟩

def stripNonContent (st : PState) : PState :=
  match st with
  | ⟨d, p, o, f⟩ =>
    let snapshot :=
      findNidsL (fun tg _ => tg ∈ ["script", "style", "meta", "link", "noscript"]) d
    snapshot.foldl stripOneTag ⟨d, p, o, f⟩

def docOf : PState → List Node
  | ⟨d, _, _, _⟩ => d

/-- The title-dedup step (source lines 154-174): inspect at most the first
two `h1`/`h2` headings, remove the first match, then stop. -/
def titleMatch (target_title header_text : String) : Bool :=
  decide (header_text ≠ "") &&
    (header_text = target_title ||
      (decide (strLen target_title > 10) && strContains header_text target_title) ||
      (decide (strLen header_text > 10) && strContains target_title header_text))

def titleStep (target_title : String) (p : PState × Bool) (nid : Nat) : PState × Bool :=
  match p with
  | (st, found) =>
    if found then (st, found)
    else
      match lookupL nid (docOf st) with
      | none => (st, found)
      | some h =>
        if titleMatch target_title (pyLower (pyStrip (getTextRaw h))) then
          (decomposeSt nid st, true)
        else (st, found)

def titleDedup (remove_title : String) (st : PState) : PState :=
  if remove_title = "" then st
  else
    match st with
    | ⟨d, p, o, f⟩ =>
      let target_title := pyLower (pyStrip remove_title)
      let headers := (findNidsL (fun tg _ => tg = "h1" || tg = "h2") d).take 2
      (headers.foldl (titleStep target_title) (⟨d, p, o, f⟩, false)).1

/-- One element of the enhanced boilerplate loop (source lines 178-229).
A destroyed element reads an empty text and empty attributes, on which every
rule is a no-op (rule 4's decompose of a husk does not change the heap), so
the husk case is a skip. -/
def boilerplateStep (author_name : String) (st : PState) (nid : Nat) : PState :=
  match lookupL nid (docOf st) with
  | none => st
  | some el =>
    let text := getTextSepStrip el
    let text_lower := pyLower text
    if decide (strLen text < 300) && strContains text_lower "forwarded this email" &&
        strContains text_lower "subscribe" then
      decomposeSt nid st
    else if isDotsOnly text then decomposeSt nid st
    else if decide (strLen text < 25) && isDateLike (pyStrip text) then
      decomposeSt nid st
    else if decide (text = "") && ! hasDescTags ["img", "iframe"] el then
      decomposeSt nid st
    else if isPaidMarker text then decomposeSt nid st
    else if author_name ≠ "" then
      let clean_author := pyStrip (removeBy (pyLower author_name))
      let clean_text := pyStrip (removeBy text_lower)
      if decide (strLen clean_text < strLen clean_author + 50) &&
          decide (clean_author ≠ "") && decide (clean_text ≠ "") &&
          (decide (clean_author = clean_text) || strContains clean_text clean_author) &&
          (hasDescTags ["a"] el || decide (tagOf el = "a")) then
        decomposeSt nid st
      else st
    else st

def boilerplatePass (author_name : String) (st : PState) : PState :=
  let snapshot :=
    findNidsL (fun tg _ => tg ∈ ["p", "div", "span", "h3", "h4", "blockquote"]) (docOf st)
  snapshot.foldl (boilerplateStep author_name) st

/-- Whitespace-separated class tokens of a `class` attribute value. -/
def splitWsGo (cur : List Char) : List Char → List (List Char)
  | [] => if cur.isEmpty then [] else [cur.reverse]
  | c :: t =>
    if c.isWhitespace then
      if cur.isEmpty then splitWsGo [] t else cur.reverse :: splitWsGo [] t
    else splitWsGo (c :: cur) t

def classTokens (v : String) : List String := (splitWsGo [] v.toList).map fun l => ⟨l⟩

/-- The newsletter-platform boilerplate classes (source lines 233-248). -/
def substackClasses : List String :=
  ["subscription-widget-wrap", "post-footer", "footer", "comments-section",
   "share-dialog", "subscribe-footer", "simple-text-box", "preview",
   "email-ufi-2-bottom", "email-ufi-2-top", "post-meta",
   "email-button-outline", "email-button-text", "email-icon-button"]

def hasClassIn (cls : List String) (attrs : List (String × String)) : Bool :=
  match getAttr attrs "class" with
  | none => false
  | some v => (classTokens v).any fun t => t ∈ cls

/-- Step 5 (source lines 233-249): remove elements carrying a known
boilerplate class. -/
def classPass (st : PState) : PState :=
  let snapshot := findNidsL (fun _ a => hasClassIn substackClasses a) (docOf st)
  snapshot.foldl (fun s nid => decomposeSt nid s) st

def ad_markers : List String :=
  ["ads powered by", "adchoices", "sponsored by", "advertisement"]

def footer_markers : List String :=
  ["share", "comment", "subscribe", "unsubscribe",
   "update your preferences", "view in browser",
   "manage your email settings",
   "privacy policy", "terms of service", "california notices",
   "connect with us on", "all rights reserved",
   "received this email because", "stop receiving",
   "thanks for reading", "we’ll see you",
   "we\x27d like your feedback", "need help? review our",
   "the new york times company",
   "get the new york times app"]

/-- One element of the ad/footer marker loop (source lines 273-302). -/
def markerStep (st : PState) (nid : Nat) : PState :=
  match lookupL nid (docOf st) with
  | none => st
  | some el =>
    let text := pyLower (getTextSepStrip el)
    if (ad_markers.any fun m => strContains text m) &&
        (decide (strLen text < 200) || strContains text "ads powered by liveintent") then
      decomposeSt nid st
    else if decide (strLen text < 500) && (footer_markers.any fun m => strContains text m) then
      decomposeSt nid st
    else if decide (strLen text < 500) && strContains text "@" &&
        (strContains text "editor" || strContains text "reporter") &&
        decide (strLen text < 200) then
      decomposeSt nid st
    else if strContains text "read in app" && decide (strLen text < 50) then
      decomposeSt nid st
    else st

def markerPass (st : PState) : PState :=
  let snapshot :=
    findNidsL
      (fun tg _ => tg ∈ ["p", "div", "span", "a", "h3", "h4", "table", "td", "tr"])
      (docOf st)
  snapshot.foldl markerStep st

/-- Is this width/height attribute value an explicit small integer
(`v and str(v).isdigit() and int(v) <= 50`)? -/
def smallDim (v : Option String) : Bool :=
  match v with
  | some w => isDigitStr w && decide (digitsToNat w ≤ 50)
  | none => false

/-- One image of the tiny-image removal (source lines 305-317). -/
def tinyImgStep (st : PState) (nid : Nat) : PState :=
  match lookupL nid (docOf st) with
  | none => st
  | some el =>
    match el with
    | .txt _ => st
    | .elem _ _ a _ =>
      if smallDim (getAttr a "width") then decomposeSt nid st
      else if smallDim (getAttr a "height") then decomposeSt nid st
      else st

def tinyImagesPass (st : PState) : PState :=
  let snapshot := findNidsL (fun tg _ => tg = "img") (docOf st)
  snapshot.foldl tinyImgStep st

/-- The tags skipped by the leaf-punctuation sweep (source line 323). -/
def voidishTags : List String :=
  ["img", "br", "hr", "iframe", "source", "track", "area", "col", "input",
   "meta", "link"]

/-- One element of the leaf punctuation sweep (source lines 321-332). -/
def leafPunctStep (st : PState) (nid : Nat) : PState :=
  match lookupL nid (docOf st) with
  | none => st
  | some el =>
    if tagOf el ∈ voidishTags then st
    else if hasElemDesc el then st
    else
      let text := getTextStrip el
      if decide (text ≠ "") && isPunctBullet text then decomposeSt nid st else st

def leafPunctPass (st : PState) : PState :=
  let snapshot := findNidsL (fun _ _ => true) (docOf st)
  snapshot.foldl leafPunctStep st

/-- One element of the final empty-element sweep (source lines 335-339). -/
def finalEmptyStep (st : PState) (nid : Nat) : PState :=
  match lookupL nid (docOf st) with
  | none => st
  | some el =>
    if decide (getTextStrip el = "") &&
        ! hasDescTags ["img", "iframe", "hr", "br", "input"] el then
      decomposeSt nid st
    else st

def finalEmptyPass (st : PState) : PState :=
  let snapshot :=
    findNidsL
      (fun tg _ =>
        tg ∈ ["div", "p", "span", "h3", "h4", "blockquote", "table", "tr", "td"])
      (docOf st)
  snapshot.foldl finalEmptyStep st

mutual

/-- Step 10 (source lines 342-344): delete every `style` attribute. -/
def stripStylesN : Node → Node
  | .txt s => .txt s
  | .elem j tg a cs =>
    .elem j tg (a.filter fun p => decide (p.1 ≠ "style")) (stripStylesL cs)

def stripStylesL : List Node → List Node
  | [] => []
  | c :: rest => stripStylesN c :: stripStylesL rest

end

/-- Step 11 (source lines 347-354): the body renamed to `div`, or the whole
document wrapped in a `div`. -/
def extractBody (doc : List Node) : String :=
  match findTagL "body" doc with
  | some (.elem j _ a cs) => renderN (.elem j "div" a cs)
  | _ => "<div>" ++ renderL doc ++ "</div>"

/-- The pipeline that follows the footnote sub-step (steps 3-11 of the
Cleaner), continued from whatever heap that sub-step left behind. -/
def cleanHtmlTail (remove_title author_name : String) (st : PState) : String :=
  extractBody (stripStylesL (docOf
    (finalEmptyPass (leafPunctPass (tinyImagesPass (markerPass (classPass
      (boilerplatePass author_name (titleDedup remove_title st)))))))))

/-- `clean_html(html_content, remove_title, author_name)` on a parsed
document.  `""` plays the role of `None` for the optional arguments (both are
falsy and the parameters are only used through their truthiness and value).
The `try/except` around `process_endnotes` keeps the partially-mutated heap
on failure and continues. -/
def clean_html (soup : List Node) (remove_title author_name : String) : String :=
  cleanHtmlTail remove_title author_name
    (match process_endnotes (stripNonContent (initPState soup)) with
     | .ok (s, _) => s
     | .error s => s)

/-- The final document tree of a cleaning run, before serialisation: the body
renamed to `div` (when a body exists).  Feeding this node back to
`clean_html` models re-parsing the returned string. -/
def cleanOutputNode (soup : List Node) (remove_title author_name : String) :
    Option Node :=
  match findTagL "body" (stripStylesL (docOf
      (finalEmptyPass (leafPunctPass (tinyImagesPass (markerPass (classPass
        (boilerplatePass author_name (titleDedup remove_title
          (match process_endnotes (stripNonContent (initPState soup)) with
           | .ok (s, _) => s
           | .error s => s)))))))))) with
  | some (.elem j _ a cs) => some (.elem j "div" a cs)
  | _ => none

/-! ## `text_to_html`, `clean_with_ai` and the Article Assembler -/

/-- `text_to_html(text)` (source lines 356-365). -/
def text_to_html (text : String) : String :=
  (splitNN text.toList).foldl
    (fun html p =>
      if pyStrip ⟨p⟩ ≠ "" then html ++ "<p>" ++ pyStrip ⟨p⟩ ++ "</p>" else html)
    ""

/-- `clean_with_ai(html_content, title)` (source lines 10-45).  `api_key` is
`os.getenv("OPENAI_API_KEY")`; `chatCompletion` stands for the remote
text-generation call `client.chat.completions.create(...)` together with the
access `response.choices[0].message.content` -- `.ok` carries the returned
content, `.error` any exception raised inside the `try` block (network or
service failure, or a `None` content whose `.strip()` raises). -/
def clean_with_ai (api_key : Option String) (chatCompletion : Except String String)
    (html_content _title : String) : String :=
  match api_key with
  | none => html_content
  | some _ =>
    match chatCompletion with
    | .ok content => pyStrip content
    | .error _ => html_content

/-- A fetched message (`email` dict of `process_single_email`); `html_body`
is `none` when the message has no (or an empty) HTML body, and is carried
already parsed. -/
structure Email where
  subject : String
  sender : String
  date : String
  body : String
  html_body : Option (List Node)
  images : List String

structure Article where
  original_subject : String
  title : String
  author : String
  date : String
  summary : String
  content : String
  images : List String
deriving DecidableEq

/-- `sender.split('<')[0]`. -/
def takeUntilLt (s : String) : String := ⟨s.toList.takeWhile fun c => c ≠ '<'⟩

/-- `process_single_email(email)` (source lines 367-405). -/
def process_single_email (api_key : Option String)
    (chatCompletion : Except String String) (email : Email) : Article :=
  let sender_name :=
    if strContains email.sender "<" then pyStrip (takeUntilLt email.sender)
    else email.sender
  let clean_body :=
    match email.html_body with
    | some raw_html =>
      let pre_cleaned := clean_html raw_html email.subject sender_name
      match api_key with
      | some _ => clean_with_ai api_key chatCompletion pre_cleaned email.subject
      | none => pre_cleaned
    | none => text_to_html email.body
  { original_subject := email.subject
    title := email.subject
    author := sender_name
    date := email.date
    summary := ""
    content := clean_body
    images := email.images }

/-- The sort key of the reordering step (source line 438):
`email_subjects.index(x['original_subject']) if ... else 999`. -/
def sortKey (email_subjects : List String) (x : Article) : Nat :=
  if x.original_subject ∈ email_subjects then
    email_subjects.indexOf x.original_subject
  else 999

/-- The reassembly of `process_emails` (source lines 407-440).  The thread
pool's `as_completed` collection order is scheduler-chosen, so it enters the
model as the parameter `collected`: the list of per-message results in
completion order (a message whose processing raised is absent, caught at
source lines 420-422).  The final `processed_articles.sort(key=...)` is
Python's stable ascending sort, here `List.insertionSort` with the same key. -/
def process_emails (emails_data : List Email) (collected : List Article) :
    List Article :=
  let email_subjects := emails_data.map Email.subject
  List.insertionSort
    (fun a b => sortKey email_subjects a ≤ sortKey email_subjects b) collected

/-! ## Claim-side definitions

These definitions follow the wording of the specification claims; the
theorems below compare them with the implementation functions above. -/

def attrsOf : Node → List (String × String)
  | .elem _ _ a _ => a
  | .txt _ => []

/-- The title-matching criterion exactly as the claim words it: the heading's
trimmed, case-folded text equals the (normalised) title, or either is a
>10-character substring of the other -- with no further requirement. -/
def titleMatchClaim (target_title header_text : String) : Bool :=
  header_text = target_title ||
    (decide (strLen target_title > 10) && strContains header_text target_title) ||
    (decide (strLen header_text > 10) && strContains target_title header_text)

/-- Declarative title dedup: inspect only the first two `h1`/`h2` headings in
document order and remove the first one the matcher accepts; no other element
changes. -/
def titleDedupSpec (matcher : String → String → Bool) (remove_title : String)
    (st : PState) : PState :=
  if remove_title = "" then st
  else
    let target_title := pyLower (pyStrip remove_title)
    let headers := (findNidsL (fun tg _ => tg = "h1" || tg = "h2") (docOf st)).take 2
    match headers.find?
        (fun nid =>
          match lookupL nid (docOf st) with
          | some h => matcher target_title (pyLower (pyStrip (getTextRaw h)))
          | none => false) with
    | some nid => decomposeSt nid st
    | none => st

mutual

/-- Drop exactly the elements satisfying `q` (with their subtrees), keep
everything else in place: the declarative form of a removal rule. -/
def dropElemsN (q : Node → Bool) : Node → List Node
  | .txt s => [.txt s]
  | .elem j tg a cs =>
    if q (.elem j tg a cs) then [] else [.elem j tg a (dropElemsL q cs)]

def dropElemsL (q : Node → Bool) : List Node → List Node
  | [] => []
  | c :: rest => dropElemsN q c ++ dropElemsL q rest

end

mutual

/-- Ids of the elements satisfying a (whole-node) predicate, preorder. -/
def qNidsN (q : Node → Bool) : Node → List Nat
  | .txt s => (if q (.txt s) then [] else [])
  | .elem j tg a cs =>
    (if q (.elem j tg a cs) then [j] else []) ++ qNidsL q cs

def qNidsL (q : Node → Bool) : List Node → List Nat
  | [] => []
  | c :: rest => qNidsN q c ++ qNidsL q rest

end

/-- An image with an explicit small (≤ 50) width or height attribute -- the
claim's removal criterion for the tiny-image rule. -/
def isSmallImg (n : Node) : Bool :=
  tagOf n = "img" &&
    (smallDim (getAttr (attrsOf n) "width") || smallDim (getAttr (attrsOf n) "height"))

/-- An in-document back-link the cleanup removes: an anchor whose `href`
starts with `#` and whose text is shorter than 3 characters or contains
"return". -/
def isOffenderAnchor (n : Node) : Bool :=
  tagOf n = "a" && backLinkOffender n

mutual

/-- No anchor element strictly contains another anchor element. -/
def nestedFreeN : Node → Bool
  | .txt _ => true
  | .elem _ tg _ cs =>
    (if tg = "a" then ! anyTagL ["a"] cs else true) && nestedFreeL cs

def nestedFreeL : List Node → Bool
  | [] => true
  | c :: rest => nestedFreeN c && nestedFreeL rest

end

/-- A statically qualifying footnote reference, as the claim words it: an
in-document anchor whose target exists and whose visible text is a bracketed
/ parenthesized number or whose target id contains a footnote-like token.
Returns the target id. -/
def staticQualify (idsMap : List (String × Nat)) (d : List Node) (nid : Nat) :
    Option String :=
  match lookupL nid d with
  | none => none
  | some anchor =>
    match getAttr (attrsOf anchor) "href" with
    | none => none
    | some href =>
      if ¬ startsWithHash href then none
      else
        let target_id := strTail href
        match idLookup idsMap target_id with
        | none => none
        | some _ =>
          if isNumberRef (pyStrip (getTextRaw anchor)) ||
              (strContains (pyLower target_id) "footnote" ||
                strContains (pyLower target_id) "fn" ||
                strContains (pyLower target_id) "ref") then
            some target_id
          else none

/-- The target ids of the statically qualifying references, in reference
(document) order, with repetitions. -/
def qualifyingIds (d : List Node) : List String :=
  (anchorsWithHref d).filterMap (staticQualify (idPairsL d) d)

/-- First-occurrence deduplication (the order in which `process_endnotes`
first meets each target id). -/
def firstDedupGo (seen : List String) : List String → List String
  | [] => []
  | x :: xs =>
    if x ∈ seen then firstDedupGo seen xs
    else x :: firstDedupGo (x :: seen) xs

def firstDedup (l : List String) : List String := firstDedupGo [] l

mutual

/-- No element of the forest carries an `id` attribute. -/
def noIdsN : Node → Bool
  | .txt _ => true
  | .elem _ _ a cs => (getAttr a "id").isNone && noIdsL cs

def noIdsL : List Node → Bool
  | [] => true
  | c :: rest => noIdsN c && noIdsL rest

end

mutual

/-- The separation discipline of the amended footnote claim: no anchor
carries an id or contains another anchor or an id-bearing element, and no
id-bearing element contains an anchor or another id-bearing element. -/
def sepOkN : Node → Bool
  | .txt _ => true
  | .elem _ tg a cs =>
    (if tg = "a" then
      (getAttr a "id").isNone && ! anyTagL ["a"] cs && noIdsL cs
     else if (getAttr a "id").isSome then ! anyTagL ["a"] cs && noIdsL cs
     else true) && sepOkL cs

def sepOkL : List Node → Bool
  | [] => true
  | c :: rest => sepOkN c && sepOkL rest

end

/-! ## Concrete documents used by the counterexamples -/

/-- A one-footnote document (used against the idempotence claim). -/
def exC2 : List Node :=
  [.elem 1 "body" []
    [.elem 2 "p" [] [.elem 3 "a" [("href", "#fn1")] [.txt "1"], .txt " Main point."],
     .elem 4 "div" [("id", "fn1")] [.txt "A note."]]]

/-- Two footnote targets; the only reference to `fn2` is a short back-link
sitting inside the content of `fn1`, which the cleanup destroys before the
loop reaches it. -/
def exC3 : List Node :=
  [.elem 1 "body" []
    [.elem 2 "p" [] [.elem 3 "a" [("href", "#fn1")] [.txt "1"], .txt " Claim one."],
     .elem 4 "div" [("id", "fn1")]
       [.txt "First note ", .elem 5 "a" [("href", "#fn2")] [.txt "^"]],
     .elem 6 "div" [("id", "fn2")] [.txt "Second note."]]]

/-- A separated two-footnote document: two qualifying references with
distinct targets, no anchor or id-bearing element nested in another. -/
def exC3w : List Node :=
  [.elem 1 "body" []
    [.elem 2 "p" [] [.elem 3 "a" [("href", "#fn1")] [.txt "1"], .txt " One."],
     .elem 4 "div" [("id", "fn1")] [.txt "Note one."],
     .elem 5 "p" [] [.elem 6 "a" [("href", "#fn2")] [.txt "2"]],
     .elem 7 "div" [("id", "fn2")] [.txt "Note two."]]]

/-- A removable back-link inside `fn1`'s content nests another snapshot
link; the cleanup decomposes the back-link, then reads the destroyed nested
link's href -- AttributeError -- so the footnote sub-step fails after having
mutated the document. -/
def exC4 : List Node :=
  [.elem 1 "body" []
    [.elem 2 "p" [] [.elem 3 "a" [("href", "#fn1")] [.txt "1"], .txt " Claim."],
     .elem 4 "div" [("id", "fn1")]
       [.txt "Note one ",
        .elem 5 "a" [("href", "#top")]
          [.txt "^", .elem 6 "a" [("href", "#x")] [.txt "y"]]]]]

/-- A first heading whose text is whitespace only. -/
def exC7 : List Node :=
  [.elem 1 "body" [] [.elem 2 "h1" [] [.txt "   "], .elem 3 "p" [] [.txt "Body text."]]]

/-- A large image inside a paragraph that the footer-marker rule removes. -/
def exC8 : List Node :=
  [.elem 1 "body" []
    [.elem 2 "p" [] [.txt "unsubscribe", .elem 3 "img" [("width", "400")] []],
     .elem 4 "p" [] [.txt "Real content stays."]]]

/-- A footnote content holding a removable back-link that itself contains an
outbound (non-`#`) hyperlink. -/
def exC10 : Node :=
  .elem 1 "div" []
    [.txt "note ",
     .elem 2 "a" [("href", "#top")]
       [.txt "return ", .elem 3 "a" [("href", "http://e.com")] [.txt "x"]]]

/-- A plain-text message with the given subject (no HTML body). -/
def plainEmail (s : String) : Email :=
  { subject := s, sender := "Sender", date := "date", body := "", html_body := none,
    images := [] }

/-- The article produced for `plainEmail s`. -/
def plainArticle (s : String) : Article :=
  process_single_email none (Except.error "") (plainEmail s)

/-- One iteration of a removal sweep, seen on a bare forest: look the
snapshot element up in the current document; if the removal rule `r` fires on
the current node, remove it.  The per-pass step functions of `clean_html`
reduce to this on their `doc` component. -/
def stepR (r : Node → Bool) (d : List Node) (nid : Nat) : List Node :=
  match lookupL nid d with
  | none => d
  | some el => if r el then removeL nid d else d

/-! # Claim theorems -/

/-! ### C5 -- the AI Polisher falls back to its input on any error -/

/-- C5: for every HTML input and title, `clean_with_ai` returns its input
unchanged on any error -- a missing credential, or any failure of the remote
text-generation call (the `chatCompletion` oracle, which also covers a `None`
response content whose `.strip()` raises inside the `try`); being a total
function of its oracle, it never raises to its caller. -/
theorem C5_polisher_error_fallback (api_key : Option String)
    (chatCompletion : Except String String) (html_content title : String)
    (h : api_key = none ∨ ∃ e, chatCompletion = Except.error e) :
    clean_with_ai api_key chatCompletion html_content title = html_content := by
  rcases h with h | ⟨e, he⟩
  · subst h; rfl
  · subst he; cases api_key <;> rfl

/-- Witness for C5: a concrete failing remote call. -/
theorem C5_witness :
    clean_with_ai (some "key") (Except.error "connection reset") "<p>x</p>" "T" =
      "<p>x</p>" :=
  C5_polisher_error_fallback (some "key") (Except.error "connection reset")
    "<p>x</p>" "T" (Or.inr ⟨"connection reset", rfl⟩)

/-! ### C9 -- the plain-text fallback -/

theorem strFoldlAppend (xs : List String) (a : String) :
    xs.foldl (· ++ ·) a = a ++ xs.foldl (· ++ ·) "" := by
  induction xs generalizing a with
  | nil => simp
  | cons x xs ih =>
    simp only [List.foldl]
    rw [ih (a ++ x), ih ("" ++ x)]
    simp [String.append_assoc]

theorem strJoin_cons (x : String) (xs : List String) :
    String.join (x :: xs) = x ++ String.join xs := by
  simp only [String.join, List.foldl]
  rw [strFoldlAppend xs ("" ++ x)]
  simp

theorem text_to_html_foldl (l : List (List Char)) (acc : String) :
    l.foldl
        (fun html p =>
          if pyStrip ⟨p⟩ ≠ "" then html ++ "<p>" ++ pyStrip ⟨p⟩ ++ "</p>" else html)
        acc =
      acc ++ String.join (l.filterMap fun p =>
        if pyStrip ⟨p⟩ = "" then none else some ("<p>" ++ pyStrip ⟨p⟩ ++ "</p>")) := by
  induction l generalizing acc with
  | nil => simp [String.join]
  | cons p ps ih =>
    rw [List.foldl_cons, List.filterMap_cons]
    by_cases h : pyStrip ⟨p⟩ = ""
    · rw [if_neg fun hc => hc h, if_pos h, ih]
    · rw [if_pos h, if_neg h, ih, strJoin_cons]
      simp [String.append_assoc]

theorem filterMapIfEq (l : List (List Char)) :
    (l.filterMap fun p =>
        if pyStrip ⟨p⟩ = "" then none else some ("<p>" ++ pyStrip ⟨p⟩ ++ "</p>")) =
      (l.filter fun p => decide (pyStrip ⟨p⟩ ≠ "")).map
        fun p => "<p>" ++ pyStrip ⟨p⟩ ++ "</p>" := by
  induction l with
  | nil => rfl
  | cons p ps ih =>
    by_cases h : pyStrip ⟨p⟩ = "" <;>
      simp [List.filterMap_cons, List.filter_cons, h, ih]

/-- C9: a message with no HTML body is converted by `text_to_html`, which
splits the plain-text body on blank lines (`"\n\n"`), wraps each non-blank
block, trimmed, in a `<p>` element in order, and drops blank blocks; a body
with exactly two non-blank blocks yields exactly the two paragraph elements
in order. -/
theorem C9_plain_text_fallback :
    (∀ (api_key : Option String) (cc : Except String String) (email : Email),
        email.html_body = none →
          (process_single_email api_key cc email).content = text_to_html email.body) ∧
    (∀ s : String,
        text_to_html s =
          String.join ((splitNN s.toList).filterMap fun p =>
            if pyStrip ⟨p⟩ = "" then none else some ("<p>" ++ pyStrip ⟨p⟩ ++ "</p>"))) ∧
    (∀ (s : String) (b1 b2 : List Char),
        ((splitNN s.toList).filter fun p => decide (pyStrip ⟨p⟩ ≠ "")) = [b1, b2] →
          text_to_html s =
            String.join ["<p>" ++ pyStrip ⟨b1⟩ ++ "</p>",
                         "<p>" ++ pyStrip ⟨b2⟩ ++ "</p>"]) := by
  have h2 : ∀ s : String,
      text_to_html s =
        String.join ((splitNN s.toList).filterMap fun p =>
          if pyStrip ⟨p⟩ = "" then none else some ("<p>" ++ pyStrip ⟨p⟩ ++ "</p>")) := by
    intro s
    have := text_to_html_foldl (splitNN s.toList) ""
    simpa [text_to_html] using this
  refine ⟨?_, h2, ?_⟩
  · intro api_key cc email h
    simp [process_single_email, h]
  · intro s b1 b2 hf
    rw [h2 s, filterMapIfEq, hf, List.map_cons, List.map_cons, List.map_nil]

/-- Witness for C9: a no-HTML message goes through `text_to_html`, and a
two-block body gives exactly two paragraphs. -/
theorem C9_witness :
    (process_single_email none (Except.error "") (plainEmail "s")).content =
        text_to_html "" ∧
    text_to_html "hello\n\n\nworld " =
      String.join ["<p>" ++ pyStrip "hello" ++ "</p>", "<p>" ++ pyStrip "\nworld " ++ "</p>"] ∧
    text_to_html "hello\n\n\nworld " = "<p>hello</p><p>world</p>" := by
  refine ⟨?_, ?_, by decide⟩
  · exact C9_plain_text_fallback.1 none (Except.error "") (plainEmail "s") rfl
  · exact C9_plain_text_fallback.2.2 "hello\n\n\nworld " "hello".toList "\nworld ".toList
      (by decide)

/-! ### C2 -- the Cleaner is not idempotent on its own output -/

set_option maxHeartbeats 1000000 in
/-- C2: on a document with one footnote, running `clean_html` a second time
on its own output does not return it unchanged.  The superscript guard does
hold (the reference is not re-wrapped), but the consolidation re-extracts the
already-consolidated entry out of the existing "Notes" container, appends its
marker class a second time, and builds a second "Notes" container, leaving
the first one behind with a bare heading. -/
theorem C2_second_run_differs :
    clean_html exC2 "" "" =
      "<div><p><a href=\x22#fn1\x22><sup>1</sup></a> Main point.</p><div class=\x22endnotes\x22><h3>Notes</h3><div id=\x22fn1\x22 class=\x22endnote-item\x22>A note.</div></div></div>" ∧
    ((cleanOutputNode exC2 "" "").map fun t1 => clean_html [t1] "" "") =
      some "<div><div><p><a href=\x22#fn1\x22><sup>1</sup></a> Main point.</p><div class=\x22endnotes\x22><h3>Notes</h3></div></div><div class=\x22endnotes\x22><h3>Notes</h3><div id=\x22fn1\x22 class=\x22endnote-item endnote-item\x22>A note.</div></div></div>" ∧
    ((cleanOutputNode exC2 "" "").map fun t1 => clean_html [t1] "" "") ≠
      some (clean_html exC2 "" "") := by
  have h1 : clean_html exC2 "" "" =
      "<div><p><a href=\x22#fn1\x22><sup>1</sup></a> Main point.</p><div class=\x22endnotes\x22><h3>Notes</h3><div id=\x22fn1\x22 class=\x22endnote-item\x22>A note.</div></div></div>" := by
    rfl
  have h2 : ((cleanOutputNode exC2 "" "").map fun t1 => clean_html [t1] "" "") =
      some "<div><div><p><a href=\x22#fn1\x22><sup>1</sup></a> Main point.</p><div class=\x22endnotes\x22><h3>Notes</h3></div></div><div class=\x22endnotes\x22><h3>Notes</h3><div id=\x22fn1\x22 class=\x22endnote-item endnote-item\x22>A note.</div></div></div>" := by
    rfl
  refine ⟨h1, h2, ?_⟩
  rw [h1, h2]
  decide

/-! ### C4 -- the footnote sub-step's failure is caught, but nothing is rolled back -/

/-- C4 (amended): any failure of the footnote sub-step is caught and
`clean_html` returns normally, continuing with the document in its
then-current, partially-mutated state (on success, with the consolidated
state).  The pre-footnote tree is not restored. -/
theorem C4_endnote_failure_caught (soup : List Node) (remove_title author_name : String) :
    (∀ s ids, process_endnotes (stripNonContent (initPState soup)) = .ok (s, ids) →
        clean_html soup remove_title author_name =
          cleanHtmlTail remove_title author_name s) ∧
    (∀ e, process_endnotes (stripNonContent (initPState soup)) = .error e →
        clean_html soup remove_title author_name =
          cleanHtmlTail remove_title author_name e) := by
  constructor
  · intro s ids h; unfold clean_html; rw [h]
  · intro e h; unfold clean_html; rw [h]

set_option maxHeartbeats 1000000 in
theorem C4_witness :
    clean_html exC4 "" "" =
      cleanHtmlTail "" ""
        (match process_endnotes (stripNonContent (initPState exC4)) with
         | .ok (s, _) => s
         | .error e => e) :=
  (C4_endnote_failure_caught exC4 "" "").2 _ (by rfl)

set_option maxHeartbeats 1000000 in
/-- C4 counterexample: on `exC4` the footnote sub-step fails midway -- the
reference is superscripted, `fn1` is extracted, and its back-link cleanup
then reads a nested link it has just destroyed, raising AttributeError; the
extracted, partially-cleaned content is abandoned, and the pipeline's output
differs from what continuing with the pre-footnote document would produce,
refuting "continues with the document in its pre-footnote state". -/
theorem C4_counterexample :
    (match process_endnotes (stripNonContent (initPState exC4)) with
     | .ok _ => false
     | .error _ => true) = true ∧
    clean_html exC4 "" "" ≠
      cleanHtmlTail "" "" (stripNonContent (initPState exC4)) := by
  exact ⟨by rfl, by decide⟩

/-! ### C7 -- title dedup -/

theorem titleStep_found (T : String) (hs : List Nat) (st : PState) :
    hs.foldl (titleStep T) (st, true) = (st, true) := by
  induction hs with
  | nil => rfl
  | cons h t ih => rw [List.foldl_cons]; exact ih

theorem titleFold_spec (T : String) (hs : List Nat) (st : PState) :
    (hs.foldl (titleStep T) (st, false)).1 =
      match hs.find? (fun nid =>
          match lookupL nid (docOf st) with
          | some h => titleMatch T (pyLower (pyStrip (getTextRaw h)))
          | none => false) with
      | some nid => decomposeSt nid st
      | none => st := by
  induction hs generalizing st with
  | nil => rfl
  | cons h t ih =>
    rw [List.foldl_cons]
    cases hl : lookupL h (docOf st) with
    | none =>
      have hstep : titleStep T (st, false) h = (st, false) := by
        simp [titleStep, hl]
      rw [hstep, ih, List.find?_cons_of_neg _ (by simp [hl])]
    | some hd =>
      by_cases hm : titleMatch T (pyLower (pyStrip (getTextRaw hd))) = true
      · have hstep : titleStep T (st, false) h = (decomposeSt h st, true) := by
          simp [titleStep, hl, hm]
        rw [hstep, titleStep_found, List.find?_cons_of_pos _ (by simp [hl, hm])]
      · have hm2 : titleMatch T (pyLower (pyStrip (getTextRaw hd))) = false := by
          revert hm; cases titleMatch T (pyLower (pyStrip (getTextRaw hd))) <;> simp
        have hstep : titleStep T (st, false) h = (st, false) := by
          simp [titleStep, hl, hm2]
        rw [hstep, ih, List.find?_cons_of_neg _ (by simp [hl, hm2])]

/-- C7 (amended): the title-dedup step of `clean_html` equals the declarative
rule: among only the first two headings of level 1 or 2, in document order,
remove the first one whose trimmed, case-folded text is nonempty and equals
the normalised title or is a >10-character substring of it (or vice versa);
nothing else changes.  In particular scanning stops after two headings and
after the first removal, and when no heading matches, nothing is removed. -/
theorem C7_title_dedup (remove_title : String) (st : PState) :
    titleDedup remove_title st = titleDedupSpec titleMatch remove_title st := by
  unfold titleDedup titleDedupSpec
  by_cases h : remove_title = ""
  · simp [h]
  · simp only [h, if_false]
    cases st with
    | mk d p o f =>
      exact titleFold_spec (pyLower (pyStrip remove_title)) _ ⟨d, p, o, f⟩

/-- C7 counterexample: with the whitespace-only title `"   "` (supplied and
truthy in Python), the first heading's trimmed case-folded text `""` equals
the normalised title, so the claim's criterion accepts it and prescribes
removal; the code removes nothing.  The criterion as claimed (`titleMatchClaim`)
accepts, the code (`titleDedup`) leaves the document unchanged, while the
claimed behaviour (`titleDedupSpec titleMatchClaim`) would remove the heading. -/
theorem C7_counterexample :
    titleMatchClaim (pyLower (pyStrip "   ")) (pyLower (pyStrip "   ")) = true ∧
    renderL (docOf (titleDedup "   " (initPState exC7))) =
      renderL (docOf (initPState exC7)) ∧
    renderL (docOf (titleDedupSpec titleMatchClaim "   " (initPState exC7))) ≠
      renderL (docOf (initPState exC7)) := by
  exact ⟨by decide, by decide, by decide⟩

/-! ### C1 / C6 -- the Assembler's reordering -/

/-- C1 (amended): when the input messages have pairwise-distinct subjects,
the reordering step restores the original input order from any completion
order: since Python's `list.sort` is stable and ascending, and the sort key
of every produced article is the index of its subject in the input, the
sorted sequence of subjects equals the input sequence of subjects. -/
theorem C1_order_restored (emails : List Email) (api_key : Option String)
    (cc : Except String String)
    (hnd : (emails.map Email.subject).Nodup) (collected : List Article)
    (hp : List.Perm collected (emails.map (process_single_email api_key cc))) :
    (process_emails emails collected).map Article.original_subject =
      emails.map Email.subject := by
  set subjects := emails.map Email.subject with hsub
  set key : Article → Nat := sortKey subjects with hkey
  set as : List Article := emails.map (process_single_email api_key cc) with has
  have horig : as.map Article.original_subject = subjects := by
    rw [has, hsub, List.map_map]
    rfl
  have hlen : as.length = subjects.length := by rw [has, hsub]; simp
  have hkeyAt : ∀ i (h : i < as.length), key (as[i]) = i := by
    intro i h
    have h2 : i < subjects.length := hlen ▸ h
    have ho : (as[i]).original_subject = subjects[i] := by
      have := congrArg (fun l => l[i]?) horig
      simpa [List.getElem?_eq_getElem, h, h2] using this
    have hmem : subjects[i] ∈ subjects := List.getElem_mem h2
    rw [hkey, sortKey, ho, if_pos hmem]
    exact List.indexOf_getElem hnd i h2
  letI rle : Article → Article → Prop := fun a b => key a ≤ key b
  letI rlt : Article → Article → Prop := fun a b => key a < key b
  haveI : IsTotal Article rle := ⟨fun a b => Nat.le_total _ _⟩
  haveI : IsTrans Article rle := ⟨fun a b c => Nat.le_trans⟩
  haveI : IsAntisymm Article rlt :=
    ⟨fun a b h1 h2 => absurd (Nat.lt_trans h1 h2) (Nat.lt_irrefl _)⟩
  have hperm : List.Perm (List.insertionSort rle collected) as :=
    (List.perm_insertionSort rle collected).trans hp
  have hstrictAs : as.Pairwise rlt := by
    rw [List.pairwise_iff_getElem]
    intro i j hi hj hij
    show key _ < key _
    rw [hkeyAt i hi, hkeyAt j hj]
    exact hij
  have hnodupKeyAs : (as.map key).Nodup := by
    rw [List.nodup_iff_injective_getElem]
    intro ⟨i, hi⟩ ⟨j, hj⟩ hij
    simp only [List.getElem_map] at hij
    simp only [List.length_map] at hi hj
    rw [hkeyAt i hi, hkeyAt j hj] at hij
    simpa using hij
  have hnodupKeyRes : ((List.insertionSort rle collected).map key).Nodup :=
    ((hperm.map key).nodup_iff).mpr hnodupKeyAs
  have hsorted : (List.insertionSort rle collected).Pairwise rle :=
    List.sorted_insertionSort rle collected
  have hneq : (List.insertionSort rle collected).Pairwise
      (fun a b => key a ≠ key b) := by
    rw [← List.pairwise_map (f := key)]
    exact hnodupKeyRes
  have hstrictRes : (List.insertionSort rle collected).Pairwise rlt :=
    (hsorted.and hneq).imp fun h => Nat.lt_of_le_of_ne h.1 h.2
  have heq : List.insertionSort rle collected = as :=
    List.eq_of_perm_of_sorted hperm hstrictRes hstrictAs
  show (List.insertionSort rle collected).map Article.original_subject = subjects
  rw [heq, horig]

/-- Witness for C1 at a concrete batch with distinct subjects and a reversed
completion order. -/
theorem C1_witness :
    (process_emails [plainEmail "A", plainEmail "B"]
        [plainArticle "B", plainArticle "A"]).map Article.original_subject =
      ["A", "B"] :=
  C1_order_restored [plainEmail "A", plainEmail "B"] none (Except.error "")
    (by decide) [plainArticle "B", plainArticle "A"] (by decide)

/-- C1 counterexample: with duplicate subjects ["A", "B", "A"], even the
identity completion order (the per-message results exactly in input order)
is reordered to subjects ["A", "A", "B"]: the sort key of both "A" articles
is the index of the first "A", and the stable sort pulls the second "A"
before "B". -/
theorem C1_counterexample :
    [plainEmail "A", plainEmail "B", plainEmail "A"].map Email.subject =
      ["A", "B", "A"] ∧
    [plainArticle "A", plainArticle "B", plainArticle "A"] =
      [plainEmail "A", plainEmail "B", plainEmail "A"].map
        (process_single_email none (Except.error "")) ∧
    (process_emails [plainEmail "A", plainEmail "B", plainEmail "A"]
        [plainArticle "A", plainArticle "B", plainArticle "A"]).map
      Article.original_subject = ["A", "A", "B"] := by
  exact ⟨rfl, rfl, by decide⟩

/-- C6: a message whose processing raised is merely absent from the collected
results; the reassembled output is a permutation of the successfully
processed articles -- the other messages are all present (none is lost and
the batch is not aborted), and every non-failed message's article is in the
output. -/
theorem C6_failures_dropped (emails : List Email) (api_key : Option String)
    (cc : Except String String) (failed : Email → Bool) (collected : List Article)
    (hp : List.Perm collected
      ((emails.filter fun e => ! failed e).map (process_single_email api_key cc))) :
    List.Perm (process_emails emails collected)
      ((emails.filter fun e => ! failed e).map (process_single_email api_key cc)) ∧
    ∀ e ∈ emails, failed e = false →
      process_single_email api_key cc e ∈ process_emails emails collected := by
  have h1 : List.Perm (process_emails emails collected)
      ((emails.filter fun e => ! failed e).map (process_single_email api_key cc)) :=
    (List.perm_insertionSort _ collected).trans hp
  refine ⟨h1, ?_⟩
  intro e he hf
  refine h1.mem_iff.mpr ?_
  exact List.mem_map_of_mem _ (List.mem_filter.mpr ⟨he, by simp [hf]⟩)

/-- Witness for C6: the middle message fails; the other two are reassembled
in input order, the failed one is absent. -/
theorem C6_witness :
    List.Perm
      (process_emails [plainEmail "A", plainEmail "B", plainEmail "C"]
        [plainArticle "C", plainArticle "A"])
      [plainArticle "A", plainArticle "C"] ∧
    plainArticle "A" ∈ process_emails [plainEmail "A", plainEmail "B", plainEmail "C"]
      [plainArticle "C", plainArticle "A"] := by
  have h := C6_failures_dropped [plainEmail "A", plainEmail "B", plainEmail "C"]
    none (Except.error "") (fun e => e.subject = "B")
    [plainArticle "C", plainArticle "A"] (by decide)
  exact ⟨h.1, h.2 (plainEmail "A") (List.mem_cons_self _ _) (by decide)⟩

/-! ### Tree lemmas for the removal-sweep proofs -/

mutual

theorem lookupN_none_of_not_mem (i : Nat) :
    ∀ n : Node, i ∉ elemNidsN n → lookupN i n = none := by
  intro n h
  cases n with
  | txt s => rfl
  | elem j tg a cs =>
    rw [elemNidsN] at h
    rw [lookupN, if_neg (by intro hj; exact h (hj ▸ List.mem_cons_self _ _)),
      lookupL_none_of_not_mem i cs fun hm => h (List.mem_cons_of_mem _ hm)]

theorem lookupL_none_of_not_mem (i : Nat) :
    ∀ d : List Node, i ∉ elemNidsL d → lookupL i d = none := by
  intro d h
  cases d with
  | nil => rfl
  | cons c rest =>
    rw [elemNidsL] at h
    rw [List.mem_append] at h
    push_neg at h
    rw [lookupL, lookupN_none_of_not_mem i c h.1,
      lookupL_none_of_not_mem i rest h.2]

end

mutual

theorem removeN_not_mem (i : Nat) :
    ∀ n : Node, i ∉ elemNidsN n → removeN i n = n := by
  intro n h
  cases n with
  | txt s => rfl
  | elem j tg a cs =>
    rw [elemNidsN] at h
    rw [removeN, removeL_not_mem i cs fun hm => h (List.mem_cons_of_mem _ hm)]

theorem removeL_not_mem (i : Nat) :
    ∀ d : List Node, i ∉ elemNidsL d → removeL i d = d := by
  intro d h
  cases d with
  | nil => rfl
  | cons c rest =>
    rw [elemNidsL] at h
    rw [List.mem_append] at h
    push_neg at h
    have hc : ¬(nidOf c = i ∧ isElemN c = true) := by
      rintro ⟨h1, h2⟩
      cases c with
      | txt s => simp [isElemN] at h2
      | elem j tg a cs => exact h.1 (by rw [elemNidsN]; exact h1 ▸ List.mem_cons_self _ _)
    rw [removeL, if_neg (by simpa [Bool.and_eq_true, decide_eq_true_iff] using hc),
      removeN_not_mem i c h.1, removeL_not_mem i rest h.2]

end

mutual

theorem elemNids_removeN_sublist (i : Nat) :
    ∀ n : Node, (elemNidsN (removeN i n)).Sublist (elemNidsN n) := by
  intro n
  cases n with
  | txt s => simp [removeN]
  | elem j tg a cs =>
    rw [removeN, elemNidsN, elemNidsN]
    exact List.Sublist.cons₂ j (elemNids_removeL_sublist i cs)

theorem elemNids_removeL_sublist (i : Nat) :
    ∀ d : List Node, (elemNidsL (removeL i d)).Sublist (elemNidsL d) := by
  intro d
  cases d with
  | nil => simp [removeL]
  | cons c rest =>
    rw [removeL]
    by_cases hc : nidOf c = i && isElemN c
    · rw [if_pos hc, elemNidsL]
      exact (List.sublist_append_right _ _).trans (List.Sublist.refl _)
    · rw [if_neg hc, elemNidsL, elemNidsL]
      exact (elemNids_removeN_sublist i c).append (elemNids_removeL_sublist i rest)

end

mutual

theorem findNids_sublist_elemNidsN (p : String → List (String × String) → Bool) :
    ∀ n : Node, (findNidsN p n).Sublist (elemNidsN n) := by
  intro n
  cases n with
  | txt s => simp [findNidsN, elemNidsN]
  | elem j tg a cs =>
    rw [findNidsN, elemNidsN]
    by_cases hp : p tg a
    · rw [if_pos hp]
      exact List.Sublist.cons₂ j (findNids_sublist_elemNidsL p cs)
    · rw [if_neg hp]
      exact (findNids_sublist_elemNidsL p cs).trans (List.sublist_cons_self _ _)

theorem findNids_sublist_elemNidsL (p : String → List (String × String) → Bool) :
    ∀ d : List Node, (findNidsL p d).Sublist (elemNidsL d) := by
  intro d
  cases d with
  | nil => simp [findNidsL, elemNidsL]
  | cons c rest =>
    rw [findNidsL, elemNidsL]
    exact (findNids_sublist_elemNidsN p c).append (findNids_sublist_elemNidsL p rest)

end

theorem lookupL_append (i : Nat) (l1 l2 : List Node) :
    lookupL i (l1 ++ l2) =
      match lookupL i l1 with
      | some r => some r
      | none => lookupL i l2 := by
  induction l1 with
  | nil => simp [lookupL]
  | cons c rest ih =>
    rw [List.cons_append, lookupL, lookupL]
    cases lookupN i c with
    | some r => rfl
    | none => rw [ih]

mutual

theorem mem_of_lookupN_isSome (i : Nat) :
    ∀ n : Node, (lookupN i n).isSome → i ∈ elemNidsN n := by
  intro n h
  cases n with
  | txt s => simp [lookupN] at h
  | elem j tg a cs =>
    rw [lookupN] at h
    rw [elemNidsN]
    by_cases hj : j = i
    · exact hj ▸ List.mem_cons_self _ _
    · rw [if_neg hj] at h
      exact List.mem_cons_of_mem _ (mem_of_lookupL_isSome i cs h)

theorem mem_of_lookupL_isSome (i : Nat) :
    ∀ d : List Node, (lookupL i d).isSome → i ∈ elemNidsL d := by
  intro d h
  cases d with
  | nil => simp [lookupL] at h
  | cons c rest =>
    rw [lookupL] at h
    rw [elemNidsL, List.mem_append]
    cases hc : lookupN i c with
    | some r => exact Or.inl (mem_of_lookupN_isSome i c (by rw [hc]; rfl))
    | none => rw [hc] at h; exact Or.inr (mem_of_lookupL_isSome i rest h)

end

theorem elemNidsL_append (l1 l2 : List Node) :
    elemNidsL (l1 ++ l2) = elemNidsL l1 ++ elemNidsL l2 := by
  induction l1 with
  | nil => rfl
  | cons c rest ih => rw [List.cons_append, elemNidsL, elemNidsL, ih, List.append_assoc]

mutual

theorem elemNids_dropElemsN_sublist (q : Node → Bool) :
    ∀ n : Node, (elemNidsL (dropElemsN q n)).Sublist (elemNidsN n) := by
  intro n
  cases n with
  | txt s => simp [dropElemsN, elemNidsL, elemNidsN]
  | elem j tg a cs =>
    rw [dropElemsN]
    by_cases hq : q (.elem j tg a cs)
    · rw [if_pos hq]; simp [elemNidsL, elemNidsN]
    · rw [if_neg hq]
      show (elemNidsL [Node.elem j tg a (dropElemsL q cs)]).Sublist _
      rw [elemNidsL, elemNidsN, elemNidsL, elemNidsN]
      simpa using List.Sublist.cons₂ j (elemNids_dropElemsL_sublist q cs)

theorem elemNids_dropElemsL_sublist (q : Node → Bool) :
    ∀ d : List Node, (elemNidsL (dropElemsL q d)).Sublist (elemNidsL d) := by
  intro d
  cases d with
  | nil => simp [dropElemsL]
  | cons c rest =>
    rw [dropElemsL, elemNidsL]
    have h1 : (elemNidsL (dropElemsN q c ++ dropElemsL q rest)) =
        elemNidsL (dropElemsN q c) ++ elemNidsL (dropElemsL q rest) := by
      rw [elemNidsL_append]
    rw [h1]
    exact (elemNids_dropElemsN_sublist q c).append (elemNids_dropElemsL_sublist q rest)

end

theorem stepR_cons_inner (r : Node → Bool) (j : Nat) (tg : String)
    (a : List (String × String)) (cs rest : List Node) (nid : Nat)
    (hj : nid ≠ j) (hrest : nid ∉ elemNidsL rest) :
    stepR r (Node.elem j tg a cs :: rest) nid =
      Node.elem j tg a (stepR r cs nid) :: rest := by
  unfold stepR
  rw [lookupL, lookupN, if_neg fun h => hj h.symm]
  cases hcs : lookupL nid cs with
  | none => rw [lookupL_none_of_not_mem nid rest hrest]
  | some el =>
    dsimp only
    by_cases hr : r el
    · rw [if_pos hr, if_pos hr, removeL,
        if_neg (by
          simp only [Bool.and_eq_true, decide_eq_true_eq]
          rintro ⟨h1, -⟩
          exact hj h1.symm),
        removeN, removeL_not_mem nid rest hrest]
    · rw [if_neg hr, if_neg hr]

theorem foldR_cons_inner (r : Node → Bool) (ns : List Nat) (j : Nat) (tg : String)
    (a : List (String × String)) :
    ∀ (cs rest : List Node), (∀ nid ∈ ns, nid ≠ j ∧ nid ∉ elemNidsL rest) →
      ns.foldl (stepR r) (Node.elem j tg a cs :: rest) =
        Node.elem j tg a (ns.foldl (stepR r) cs) :: rest := by
  induction ns with
  | nil => intro cs rest _; rfl
  | cons n ns ih =>
    intro cs rest h
    rw [List.foldl_cons, List.foldl_cons,
      stepR_cons_inner r j tg a cs rest n (h n (List.mem_cons_self _ _)).1
        (h n (List.mem_cons_self _ _)).2]
    exact ih (stepR r cs n) rest fun nid hm => h nid (List.mem_cons_of_mem _ hm)

theorem stepR_cons_right (r : Node → Bool) (c : Node) (rest : List Node) (nid : Nat)
    (hc : nid ∉ elemNidsN c) :
    stepR r (c :: rest) nid = c :: stepR r rest nid := by
  unfold stepR
  rw [lookupL, lookupN_none_of_not_mem nid c hc]
  cases hr2 : lookupL nid rest with
  | none => rfl
  | some el =>
    dsimp only
    by_cases hr : r el
    · rw [if_pos hr, removeL,
        if_neg (by
          intro hx
          rw [Bool.and_eq_true, decide_eq_true_iff] at hx
          apply hc
          cases c with
          | txt s => simp [isElemN] at hx
          | elem j2 t2 a2 c2 =>
            rw [elemNidsN]
            exact hx.1 ▸ List.mem_cons_self _ _),
        removeN_not_mem nid c hc, if_pos hr]
    · rw [if_neg hr, if_neg hr]

theorem foldR_cons_right (r : Node → Bool) (ns : List Nat) (c : Node) :
    ∀ rest : List Node, (∀ nid ∈ ns, nid ∉ elemNidsN c) →
      ns.foldl (stepR r) (c :: rest) = c :: ns.foldl (stepR r) rest := by
  induction ns with
  | nil => intro rest _; rfl
  | cons n ns ih =>
    intro rest h
    rw [List.foldl_cons, List.foldl_cons,
      stepR_cons_right r c rest n (h n (List.mem_cons_self _ _))]
    exact ih (stepR r rest n) fun nid hm => h nid (List.mem_cons_of_mem _ hm)

theorem foldR_gone (r : Node → Bool) (ns : List Nat) :
    ∀ d : List Node, (∀ nid ∈ ns, nid ∉ elemNidsL d) →
      ns.foldl (stepR r) d = d := by
  induction ns with
  | nil => intro d _; rfl
  | cons n ns ih =>
    intro d h
    have hstep : stepR r d n = d := by
      unfold stepR
      rw [lookupL_none_of_not_mem n d (h n (List.mem_cons_self _ _))]
    rw [List.foldl_cons, hstep]
    exact ih d fun nid hm => h nid (List.mem_cons_of_mem _ hm)

/-- A removal sweep -- fold a look-up-and-maybe-remove step over the snapshot
of elements matched by tag/attribute predicate `pt`, removing those on which
rule `r` fires -- equals the declarative top-down filter `dropElemsL`: each
snapshot element is judged before anything below it is removed (preorder),
and an element destroyed by an earlier removal is skipped. -/
theorem sweep_eq_dropElems (pt : String → List (String × String) → Bool)
    (r : Node → Bool) :
    ∀ d : List Node, (elemNidsL d).Nodup →
      (findNidsL pt d).foldl (stepR r) d =
        dropElemsL (fun n => pt (tagOf n) (attrsOf n) && r n) d
  | [], _ => rfl
  | Node.txt s :: rest, hnd => by
    have hndr : (elemNidsL rest).Nodup := by simpa [elemNidsL, elemNidsN] using hnd
    rw [findNidsL, findNidsN, dropElemsL, dropElemsN, List.nil_append,
      foldR_cons_right r _ _ _ (by intro nid _; simp [elemNidsN]),
      sweep_eq_dropElems pt r rest hndr, List.singleton_append]
  | Node.elem j tg a cs :: rest, hnd => by
    have hnd' : ((j :: elemNidsL cs) ++ elemNidsL rest).Nodup := by
      simpa [elemNidsL, elemNidsN] using hnd
    rw [List.nodup_append] at hnd'
    obtain ⟨hndc, hndrest, hdisj⟩ := hnd'
    rw [List.nodup_cons] at hndc
    obtain ⟨hjcs, hndcs⟩ := hndc
    have hjrest : j ∉ elemNidsL rest := fun hm => hdisj (List.mem_cons_self _ _) hm
    have hcsrest : ∀ x ∈ elemNidsL cs, x ∉ elemNidsL rest :=
      fun x hx hm => hdisj (List.mem_cons_of_mem _ hx) hm
    have ihcs := sweep_eq_dropElems pt r cs hndcs
    have ihrest := sweep_eq_dropElems pt r rest hndrest
    have hinner : ∀ nid ∈ findNidsL pt cs, nid ≠ j ∧ nid ∉ elemNidsL rest := by
      intro nid hm
      have hmem : nid ∈ elemNidsL cs := (findNids_sublist_elemNidsL pt cs).subset hm
      exact ⟨fun he => hjcs (he ▸ hmem), hcsrest nid hmem⟩
    have hright : ∀ c2 : Node, elemNidsN c2 = j :: elemNidsL (dropElemsL (fun n => pt (tagOf n) (attrsOf n) && r n) cs) →
        ∀ nid ∈ findNidsL pt rest, nid ∉ elemNidsN c2 := by
      intro c2 hc2 nid hm
      have hmem : nid ∈ elemNidsL rest := (findNids_sublist_elemNidsL pt rest).subset hm
      rw [hc2]
      intro hin
      rcases List.mem_cons.mp hin with h | h
      · exact hjrest (h ▸ hmem)
      · exact hcsrest nid
          ((elemNids_dropElemsL_sublist _ cs).subset h) hmem
    rw [findNidsL, findNidsN, dropElemsL, dropElemsN]
    by_cases hpt : pt tg a
    · rw [if_pos hpt]
      have hstep : stepR r (Node.elem j tg a cs :: rest) j =
          if r (Node.elem j tg a cs) then rest else Node.elem j tg a cs :: rest := by
        unfold stepR
        rw [lookupL, lookupN, if_pos rfl]
        dsimp only
        by_cases hr : r (Node.elem j tg a cs)
        · rw [if_pos hr, if_pos hr, removeL, if_pos (by simp [nidOf, isElemN])]
        · rw [if_neg hr, if_neg hr]
      by_cases hr : r (Node.elem j tg a cs)
      · rw [if_pos (show (pt (tagOf (Node.elem j tg a cs)) (attrsOf (Node.elem j tg a cs)) &&
            r (Node.elem j tg a cs)) = true by simp [tagOf, attrsOf, hpt, hr])]
        rw [List.foldl_append, List.cons_append, List.nil_append, List.foldl_cons,
          hstep, if_pos hr,
          foldR_gone r _ rest (by
            intro nid hm
            exact hcsrest nid ((findNids_sublist_elemNidsL pt cs).subset hm)),
          ihrest, List.nil_append]
      · rw [if_neg (show ¬(pt (tagOf (Node.elem j tg a cs)) (attrsOf (Node.elem j tg a cs)) &&
            r (Node.elem j tg a cs)) = true by simp [tagOf, attrsOf, hpt, hr])]
        rw [List.foldl_append, List.cons_append, List.nil_append, List.foldl_cons,
          hstep, if_neg hr,
          foldR_cons_inner r _ j tg a cs rest hinner, ihcs,
          foldR_cons_right r _ _ rest (hright _ (by rw [elemNidsN])),
          ihrest, List.singleton_append]
    · rw [if_neg hpt]
      rw [if_neg (show ¬(pt (tagOf (Node.elem j tg a cs)) (attrsOf (Node.elem j tg a cs)) &&
          r (Node.elem j tg a cs)) = true by simp [tagOf, attrsOf, hpt])]
      rw [List.nil_append, List.foldl_append,
        foldR_cons_inner r _ j tg a cs rest hinner, ihcs,
        foldR_cons_right r _ _ rest (hright _ (by rw [elemNidsN])),
        ihrest, List.singleton_append]

theorem docOf_foldl (f : PState → Nat → PState) (g : List Node → Nat → List Node)
    (hfg : ∀ s nid, docOf (f s nid) = g (docOf s) nid) (ns : List Nat) :
    ∀ st : PState, docOf (ns.foldl f st) = ns.foldl g (docOf st) := by
  induction ns with
  | nil => intro st; rfl
  | cons n ns ih =>
    intro st
    rw [List.foldl_cons, List.foldl_cons, ih, hfg]

/-! ### C8 -- tiny-image removal -/

/-- C8 (amended): the tiny-image step removes exactly the images whose
explicit `width` or `height` attribute is a digit string of value ≤ 50 --
every other element, in particular every image with larger explicit
dimensions or with no explicit dimensions, is retained by this step (other
rules of `clean_html` may still remove it with a removed ancestor). -/
theorem C8_tiny_images (st : PState) (hnd : (elemNidsL (docOf st)).Nodup) :
    docOf (tinyImagesPass st) = dropElemsL isSmallImg (docOf st) := by
  have hstep : ∀ (s : PState) (nid : Nat),
      docOf (tinyImgStep s nid) =
        stepR (fun el => smallDim (getAttr (attrsOf el) "width") ||
          smallDim (getAttr (attrsOf el) "height")) (docOf s) nid := by
    intro s nid
    unfold tinyImgStep stepR
    cases hl : lookupL nid (docOf s) with
    | none => rfl
    | some el =>
      cases el with
      | txt t => rfl
      | elem j2 tg2 a2 cs2 =>
        dsimp only [attrsOf]
        by_cases hw : smallDim (getAttr a2 "width")
        · rw [if_pos hw, if_pos (by simp [hw])]
          cases s with
          | mk d p o f => rfl
        · rw [if_neg hw]
          by_cases hh : smallDim (getAttr a2 "height")
          · rw [if_pos hh, if_pos (by simp [hw, hh])]
            cases s with
            | mk d p o f => rfl
          · rw [if_neg hh, if_neg (by simp [hw, hh])]
  show docOf ((findNidsL (fun tg _ => tg = "img") (docOf st)).foldl tinyImgStep st) = _
  rw [docOf_foldl tinyImgStep _ hstep]
  exact sweep_eq_dropElems (fun tg _ => tg = "img")
    (fun el => smallDim (getAttr (attrsOf el) "width") ||
      smallDim (getAttr (attrsOf el) "height")) (docOf st) hnd

/-- Witness for C8: a small image is dropped, a 400-wide image and one with
no explicit dimensions are retained by the step. -/
theorem C8_witness :
    (elemNidsL (docOf (initPState
        [Node.elem 1 "div" []
          [.elem 2 "img" [("width", "40")] [], .elem 3 "img" [("width", "400")] [],
           .elem 4 "img" [] []]]))).Nodup ∧
    docOf (tinyImagesPass (initPState
        [Node.elem 1 "div" []
          [.elem 2 "img" [("width", "40")] [], .elem 3 "img" [("width", "400")] [],
           .elem 4 "img" [] []]])) =
      dropElemsL isSmallImg
        [Node.elem 1 "div" []
          [.elem 2 "img" [("width", "40")] [], .elem 3 "img" [("width", "400")] [],
           .elem 4 "img" [] []]] :=
  ⟨by decide, C8_tiny_images _ (by decide)⟩

set_option maxHeartbeats 1000000 in
/-- C8 counterexample: at the whole-`clean_html` level, an image with
`width="400"` (not small) is not retained: its paragraph matches the
"unsubscribe" footer marker and is decomposed with the image inside it. -/
theorem C8_counterexample :
    isSmallImg (.elem 3 "img" [("width", "400")] []) = false ∧
    strContains (renderL exC8) "<img" = true ∧
    strContains (clean_html exC8 "" "") "<img" = false ∧
    clean_html exC8 "" "" = "<div><p>Real content stays.</p></div>" := by
  exact ⟨by decide, by decide, by decide, by rfl⟩

/-! ### C10 -- back-link cleanup inside an extracted footnote -/

mutual

theorem lookupN_isSome_of_mem (i : Nat) :
    ∀ n : Node, i ∈ elemNidsN n → (lookupN i n).isSome := by
  intro n h
  cases n with
  | txt s => simp [elemNidsN] at h
  | elem j tg a cs =>
    rw [elemNidsN] at h
    rw [lookupN]
    by_cases hj : j = i
    · rw [if_pos hj]; rfl
    · rw [if_neg hj]
      exact lookupL_isSome_of_mem i cs
        (by rcases List.mem_cons.mp h with h1 | h1; exact absurd h1.symm hj; exact h1)

theorem lookupL_isSome_of_mem (i : Nat) :
    ∀ d : List Node, i ∈ elemNidsL d → (lookupL i d).isSome := by
  intro d h
  cases d with
  | nil => simp [elemNidsL] at h
  | cons c rest =>
    rw [elemNidsL, List.mem_append] at h
    rw [lookupL]
    cases hc : lookupN i c with
    | some r => rfl
    | none =>
      rcases h with h1 | h1
      · have := lookupN_isSome_of_mem i c h1
        rw [hc] at this
        simp at this
      · exact lookupL_isSome_of_mem i rest h1

end

mutual

theorem dropOffenders_id_of_noAnchor :
    ∀ n : Node, anyTagN ["a"] n = false → dropElemsN isOffenderAnchor n = [n] := by
  intro n h
  cases n with
  | txt s => rfl
  | elem j tg a cs =>
    rw [anyTagN] at h
    rw [Bool.or_eq_false_iff] at h
    rw [dropElemsN,
      if_neg (by
        rw [isOffenderAnchor]
        simp only [tagOf]
        intro hx
        rw [Bool.and_eq_true, decide_eq_true_eq] at hx
        have : (["a"].contains tg) = true := by
          simp [hx.1]
        rw [this] at h
        exact absurd h.1 (by simp)),
      dropOffendersL_id_of_noAnchor cs h.2]

theorem dropOffendersL_id_of_noAnchor :
    ∀ d : List Node, anyTagL ["a"] d = false → dropElemsL isOffenderAnchor d = d := by
  intro d h
  cases d with
  | nil => rfl
  | cons c rest =>
    rw [anyTagL, Bool.or_eq_false_iff] at h
    rw [dropElemsL, dropOffenders_id_of_noAnchor c h.1,
      dropOffendersL_id_of_noAnchor rest h.2, List.singleton_append]

end

mutual

theorem anyTag_of_lookupN_anchor (i : Nat) (el : Node) :
    ∀ n : Node, lookupN i n = some el → tagOf el = "a" → anyTagN ["a"] n = true := by
  intro n h ht
  cases n with
  | txt s => simp [lookupN] at h
  | elem j tg a cs =>
    rw [lookupN] at h
    rw [anyTagN]
    by_cases hj : j = i
    · rw [if_pos hj] at h
      have : el = Node.elem j tg a cs := by injection h with h2; exact h2.symm
      subst this
      rw [tagOf] at ht
      simp [ht]
    · rw [if_neg hj] at h
      rw [anyTagL_of_lookup_anchor i el cs h ht, Bool.or_true]

theorem anyTagL_of_lookup_anchor (i : Nat) (el : Node) :
    ∀ d : List Node, lookupL i d = some el → tagOf el = "a" → anyTagL ["a"] d = true := by
  intro d h ht
  cases d with
  | nil => simp [lookupL] at h
  | cons c rest =>
    rw [lookupL] at h
    rw [anyTagL]
    cases hc : lookupN i c with
    | some r =>
      rw [hc] at h
      dsimp only at h
      obtain rfl : r = el := Option.some.inj h
      rw [anyTag_of_lookupN_anchor i r c hc ht, Bool.true_or]
    | none =>
      rw [hc] at h
      rw [anyTagL_of_lookup_anchor i el rest h ht, Bool.or_true]

end

mutual

theorem lookup_dropOffendersN (i : Nat) (el : Node) :
    ∀ n : Node, (elemNidsN n).Nodup → nestedFreeN n = true →
      lookupN i n = some el → tagOf el = "a" →
      startsWithHash ((getAttr (attrsOf el) "href").getD "") = false →
      lookupL i (dropElemsN isOffenderAnchor n) = some el := by
  intro n hnd hnest h ht hh
  cases n with
  | txt s => simp [lookupN] at h
  | elem j tg a cs =>
    rw [nestedFreeN, Bool.and_eq_true] at hnest
    rw [lookupN] at h
    by_cases hj : j = i
    · rw [if_pos hj] at h
      have hel : el = Node.elem j tg a cs := by injection h with h2; exact h2.symm
      have htg : tg = "a" := by rw [hel, tagOf] at ht; exact ht
      have hnoa : anyTagL ["a"] cs = false := by
        have := hnest.1
        rw [if_pos htg] at this
        revert this
        cases anyTagL ["a"] cs <;> simp
      rw [dropElemsN,
        if_neg (by
          rw [isOffenderAnchor, backLinkOffender]
          subst hel
          dsimp only [attrsOf] at hh
          simp [hh]),
        dropOffendersL_id_of_noAnchor cs hnoa]
      rw [lookupL, lookupN, if_pos hj, hel]
    · rw [if_neg hj] at h
      have hq : isOffenderAnchor (Node.elem j tg a cs) = false := by
        by_cases htg : tg = "a"
        · have hnoa : anyTagL ["a"] cs = false := by
            have := hnest.1
            rw [if_pos htg] at this
            revert this
            cases anyTagL ["a"] cs <;> simp
          rw [anyTagL_of_lookup_anchor i el cs h ht] at hnoa
          exact absurd hnoa (by simp)
        · rw [isOffenderAnchor]
          simp [tagOf, htg]
      rw [dropElemsN, if_neg (by rw [hq]; simp)]
      rw [lookupL, lookupN, if_neg hj]
      have hndcs : (elemNidsL cs).Nodup := by
        rw [elemNidsN, List.nodup_cons] at hnd
        exact hnd.2
      rw [lookup_dropOffendersL i el cs hndcs hnest.2 h ht hh]

theorem lookup_dropOffendersL (i : Nat) (el : Node) :
    ∀ d : List Node, (elemNidsL d).Nodup → nestedFreeL d = true →
      lookupL i d = some el → tagOf el = "a" →
      startsWithHash ((getAttr (attrsOf el) "href").getD "") = false →
      lookupL i (dropElemsL isOffenderAnchor d) = some el := by
  intro d hnd hnest h ht hh
  cases d with
  | nil => simp [lookupL] at h
  | cons c rest =>
    rw [nestedFreeL, Bool.and_eq_true] at hnest
    have hnd' : (elemNidsN c).Nodup ∧ (elemNidsL rest).Nodup ∧
        (elemNidsN c).Disjoint (elemNidsL rest) := by
      rw [elemNidsL, List.nodup_append] at hnd
      exact hnd
    rw [lookupL] at h
    rw [dropElemsL, lookupL_append]
    cases hc : lookupN i c with
    | some r =>
      rw [hc] at h
      dsimp only at h
      obtain rfl : r = el := Option.some.inj h
      rw [lookup_dropOffendersN i r c hnd'.1 hnest.1 hc ht hh]
    | none =>
      rw [hc] at h
      have hnotc : i ∉ elemNidsN c := by
        intro hm
        have := lookupN_isSome_of_mem i c hm
        rw [hc] at this
        simp at this
      have hnotd : i ∉ elemNidsL (dropElemsN isOffenderAnchor c) :=
        fun hm => hnotc ((elemNids_dropElemsN_sublist _ c).subset hm)
      rw [lookupL_none_of_not_mem i _ hnotd]
      exact lookup_dropOffendersL i el rest hnd'.2.1 hnest.2 h ht hh

end


/-! ### C3 -- footnote consolidation: counting machinery -/

theorem firstDedupGo_seen_congr :
    ∀ (l : List String) (s1 s2 : List String),
      (∀ x, x ∈ s1 ↔ x ∈ s2) → firstDedupGo s1 l = firstDedupGo s2 l := by
  intro l
  induction l with
  | nil => intro s1 s2 _; rfl
  | cons y t ih =>
    intro s1 s2 h
    rw [firstDedupGo, firstDedupGo]
    by_cases hy : y ∈ s1
    · rw [if_pos hy, if_pos ((h y).mp hy)]
      exact ih s1 s2 h
    · rw [if_neg hy, if_neg fun hc => hy ((h y).mpr hc)]
      refine congrArg _ (ih _ _ fun x => ?_)
      constructor
      · intro hx
        rcases List.mem_cons.mp hx with h1 | h1
        · exact h1 ▸ List.mem_cons_self _ _
        · exact List.mem_cons_of_mem _ ((h x).mp h1)
      · intro hx
        rcases List.mem_cons.mp hx with h1 | h1
        · exact h1 ▸ List.mem_cons_self _ _
        · exact List.mem_cons_of_mem _ ((h x).mpr h1)

mutual

theorem anyTag_false_lookupN (ts : List String) (i : Nat) (el : Node) :
    ∀ n : Node, anyTagN ts n = false → lookupN i n = some el →
      ts.contains (tagOf el) = false := by
  intro n ha h
  cases n with
  | txt s => simp [lookupN] at h
  | elem j tg a cs =>
    rw [anyTagN, Bool.or_eq_false_iff] at ha
    rw [lookupN] at h
    by_cases hj : j = i
    · rw [if_pos hj] at h
      obtain rfl : Node.elem j tg a cs = el := Option.some.inj h
      exact ha.1
    · rw [if_neg hj] at h
      exact anyTag_false_lookupL ts i el cs ha.2 h

theorem anyTag_false_lookupL (ts : List String) (i : Nat) (el : Node) :
    ∀ d : List Node, anyTagL ts d = false → lookupL i d = some el →
      ts.contains (tagOf el) = false := by
  intro d ha h
  cases d with
  | nil => simp [lookupL] at h
  | cons c rest =>
    rw [anyTagL, Bool.or_eq_false_iff] at ha
    rw [lookupL] at h
    cases hc : lookupN i c with
    | some r =>
      rw [hc] at h
      dsimp only at h
      obtain rfl : r = el := Option.some.inj h
      exact anyTag_false_lookupN ts i _ c ha.1 hc
    | none =>
      rw [hc] at h
      exact anyTag_false_lookupL ts i el rest ha.2 h

end

mutual

theorem noIds_lookupN (i : Nat) (el : Node) :
    ∀ n : Node, noIdsN n = true → lookupN i n = some el →
      getAttr (attrsOf el) "id" = none := by
  intro n ha h
  cases n with
  | txt s => simp [lookupN] at h
  | elem j tg a cs =>
    rw [noIdsN, Bool.and_eq_true] at ha
    rw [lookupN] at h
    by_cases hj : j = i
    · rw [if_pos hj] at h
      obtain rfl : Node.elem j tg a cs = el := Option.some.inj h
      dsimp only [attrsOf]
      rcases ho : getAttr a "id" with _ | v
      · rfl
      · rw [ho] at ha; simp at ha
    · rw [if_neg hj] at h
      exact noIds_lookupL i el cs ha.2 h

theorem noIds_lookupL (i : Nat) (el : Node) :
    ∀ d : List Node, noIdsL d = true → lookupL i d = some el →
      getAttr (attrsOf el) "id" = none := by
  intro d ha h
  cases d with
  | nil => simp [lookupL] at h
  | cons c rest =>
    rw [noIdsL, Bool.and_eq_true] at ha
    rw [lookupL] at h
    cases hc : lookupN i c with
    | some r =>
      rw [hc] at h
      dsimp only at h
      obtain rfl : r = el := Option.some.inj h
      exact noIds_lookupN i _ c ha.1 hc
    | none =>
      rw [hc] at h
      exact noIds_lookupL i el rest ha.2 h

end

mutual

theorem findNids_anchor_nilN :
    ∀ n : Node, anyTagN ["a"] n = false →
      findNidsN (fun tg _ => tg = "a") n = [] := by
  intro n ha
  cases n with
  | txt s => rfl
  | elem j tg a cs =>
    rw [anyTagN, Bool.or_eq_false_iff] at ha
    rw [findNidsN,
      if_neg (by
        intro hx
        rw [decide_eq_true_eq] at hx
        have : (["a"].contains tg) = true := by simp [hx]
        rw [this] at ha
        exact absurd ha.1 (by simp)),
      findNids_anchor_nilL cs ha.2, List.nil_append]

theorem findNids_anchor_nilL :
    ∀ d : List Node, anyTagL ["a"] d = false →
      findNidsL (fun tg _ => tg = "a") d = [] := by
  intro d ha
  cases d with
  | nil => rfl
  | cons c rest =>
    rw [anyTagL, Bool.or_eq_false_iff] at ha
    rw [findNidsL, findNids_anchor_nilN c ha.1, findNids_anchor_nilL rest ha.2,
      List.nil_append]

end

mutual

theorem findTagN_mem (t : String) (b : Node) :
    ∀ n : Node, findTagN t n = some b → nidOf b ∈ elemNidsN n := by
  intro n h
  cases n with
  | txt s => simp [findTagN] at h
  | elem j tg a cs =>
    rw [findTagN] at h
    rw [elemNidsN]
    by_cases ht : tg = t
    · rw [if_pos ht] at h
      obtain rfl : Node.elem j tg a cs = b := Option.some.inj h
      exact List.mem_cons_self _ _
    · rw [if_neg ht] at h
      exact List.mem_cons_of_mem _ (findTagL_mem t b cs h)

theorem findTagL_mem (t : String) (b : Node) :
    ∀ d : List Node, findTagL t d = some b → nidOf b ∈ elemNidsL d := by
  intro d h
  cases d with
  | nil => simp [findTagL] at h
  | cons c rest =>
    rw [findTagL] at h
    rw [elemNidsL, List.mem_append]
    cases hc : findTagN t c with
    | some r =>
      rw [hc] at h
      dsimp only at h
      obtain rfl : r = b := Option.some.inj h
      exact Or.inl (findTagN_mem t _ c hc)
    | none =>
      rw [hc] at h
      exact Or.inr (findTagL_mem t b rest h)

end

mutual

theorem sepOk_lookupN (i : Nat) (el : Node) :
    ∀ n : Node, sepOkN n = true → lookupN i n = some el → sepOkN el = true := by
  intro n hs h
  cases n with
  | txt s => simp [lookupN] at h
  | elem j tg a cs =>
    rw [lookupN] at h
    by_cases hj : j = i
    · rw [if_pos hj] at h
      obtain rfl : Node.elem j tg a cs = el := Option.some.inj h
      exact hs
    · rw [if_neg hj] at h
      rw [sepOkN, Bool.and_eq_true] at hs
      exact sepOk_lookupL i el cs hs.2 h

theorem sepOk_lookupL (i : Nat) (el : Node) :
    ∀ d : List Node, sepOkL d = true → lookupL i d = some el → sepOkN el = true := by
  intro d hs h
  cases d with
  | nil => simp [lookupL] at h
  | cons c rest =>
    rw [sepOkL, Bool.and_eq_true] at hs
    rw [lookupL] at h
    cases hc : lookupN i c with
    | some r =>
      rw [hc] at h
      dsimp only at h
      obtain rfl : r = el := Option.some.inj h
      exact sepOk_lookupN i _ c hs.1 hc
    | none =>
      rw [hc] at h
      exact sepOk_lookupL i el rest hs.2 h

end

mutual

theorem findNids_lookupN (p : String → List (String × String) → Bool) (i : Nat) :
    ∀ n : Node, (elemNidsN n).Nodup → i ∈ findNidsN p n →
      ∃ tg a cs, lookupN i n = some (.elem i tg a cs) ∧ p tg a = true := by
  intro n hnd h
  cases n with
  | txt s => simp [findNidsN] at h
  | elem j tg a cs =>
    rw [elemNidsN, List.nodup_cons] at hnd
    rw [findNidsN] at h
    by_cases hj : j = i
    · subst hj
      have hin : j ∉ findNidsL p cs := fun hc =>
        hnd.1 ((findNids_sublist_elemNidsL p cs).mem hc)
      have hp : p tg a = true := by
        rcases hpv : p tg a
        · rw [hpv, if_neg Bool.false_ne_true, List.nil_append] at h
          exact absurd h hin
        · rfl
      refine ⟨tg, a, cs, ?_, hp⟩
      rw [lookupN, if_pos rfl]
    · have h2 : i ∈ findNidsL p cs := by
        rcases List.mem_append.mp h with h1 | h1
        · rcases hpv : p tg a
          · rw [hpv] at h1; simp at h1
          · rw [hpv] at h1
            simp only [if_true, List.mem_singleton] at h1
            exact absurd h1.symm hj
        · exact h1
      rw [lookupN, if_neg hj]
      exact findNids_lookupL p i cs hnd.2 h2

theorem findNids_lookupL (p : String → List (String × String) → Bool) (i : Nat) :
    ∀ d : List Node, (elemNidsL d).Nodup → i ∈ findNidsL p d →
      ∃ tg a cs, lookupL i d = some (.elem i tg a cs) ∧ p tg a = true := by
  intro d hnd h
  cases d with
  | nil => simp [findNidsL] at h
  | cons c rest =>
    rw [elemNidsL, List.nodup_append] at hnd
    rw [findNidsL] at h
    rcases List.mem_append.mp h with h1 | h1
    · obtain ⟨tg, a, cs, hl, hp⟩ := findNids_lookupN p i c hnd.1 h1
      exact ⟨tg, a, cs, by rw [lookupL, hl], hp⟩
    · obtain ⟨tg, a, cs, hl, hp⟩ := findNids_lookupL p i rest hnd.2.1 h1
      have hnc : i ∉ elemNidsN c := fun hc =>
        hnd.2.2 hc ((findNids_sublist_elemNidsL p rest).mem h1)
      refine ⟨tg, a, cs, ?_, hp⟩
      rw [lookupL, lookupN_none_of_not_mem i c hnc, hl]

end

mutual

theorem idPairs_mem_nidsN (t : String) (nn : Nat) :
    ∀ n : Node, (t, nn) ∈ idPairsN n → nn ∈ elemNidsN n := by
  intro n h
  cases n with
  | txt s => simp [idPairsN] at h
  | elem j tg a cs =>
    rw [idPairsN] at h
    rw [elemNidsN]
    rcases List.mem_append.mp h with h1 | h1
    · rcases hid : getAttr a "id" with _ | v
      · rw [hid] at h1; simp at h1
      · rw [hid] at h1
        simp only [List.mem_singleton, Prod.mk.injEq] at h1
        exact h1.2 ▸ List.mem_cons_self _ _
    · exact List.mem_cons_of_mem _ (idPairs_mem_nidsL t nn cs h1)

theorem idPairs_mem_nidsL (t : String) (nn : Nat) :
    ∀ d : List Node, (t, nn) ∈ idPairsL d → nn ∈ elemNidsL d := by
  intro d h
  cases d with
  | nil => simp [idPairsL] at h
  | cons c rest =>
    rw [idPairsL] at h
    rw [elemNidsL, List.mem_append]
    rcases List.mem_append.mp h with h1 | h1
    · exact Or.inl (idPairs_mem_nidsN t nn c h1)
    · exact Or.inr (idPairs_mem_nidsL t nn rest h1)

end

mutual

theorem idPairs_lookupN (tid : String) (tnid : Nat) :
    ∀ n : Node, (elemNidsN n).Nodup → (tid, tnid) ∈ idPairsN n →
      ∃ tg a cs, lookupN tnid n = some (.elem tnid tg a cs) ∧
        getAttr a "id" = some tid := by
  intro n hnd h
  cases n with
  | txt s => simp [idPairsN] at h
  | elem j tg a cs =>
    rw [elemNidsN, List.nodup_cons] at hnd
    rw [idPairsN] at h
    rcases List.mem_append.mp h with h1 | h1
    · rcases hid : getAttr a "id" with _ | v
      · rw [hid] at h1; simp at h1
      · rw [hid] at h1
        simp only [List.mem_singleton, Prod.mk.injEq] at h1
        obtain ⟨rfl, rfl⟩ := h1
        exact ⟨tg, a, cs, by rw [lookupN, if_pos rfl], hid⟩
    · have hne : j ≠ tnid := fun hc =>
        hnd.1 (hc ▸ idPairs_mem_nidsL tid tnid cs h1)
      rw [lookupN, if_neg hne] at *
      exact idPairs_lookupL tid tnid cs hnd.2 h1

theorem idPairs_lookupL (tid : String) (tnid : Nat) :
    ∀ d : List Node, (elemNidsL d).Nodup → (tid, tnid) ∈ idPairsL d →
      ∃ tg a cs, lookupL tnid d = some (.elem tnid tg a cs) ∧
        getAttr a "id" = some tid := by
  intro d hnd h
  cases d with
  | nil => simp [idPairsL] at h
  | cons c rest =>
    rw [elemNidsL, List.nodup_append] at hnd
    rw [idPairsL] at h
    rcases List.mem_append.mp h with h1 | h1
    · obtain ⟨tg, a, cs, hl, hp⟩ := idPairs_lookupN tid tnid c hnd.1 h1
      exact ⟨tg, a, cs, by rw [lookupL, hl], hp⟩
    · obtain ⟨tg, a, cs, hl, hp⟩ := idPairs_lookupL tid tnid rest hnd.2.1 h1
      have hnc : tnid ∉ elemNidsN c := fun hc =>
        hnd.2.2 hc (idPairs_mem_nidsL tid tnid rest h1)
      exact ⟨tg, a, cs, by rw [lookupL, lookupN_none_of_not_mem tnid c hnc, hl], hp⟩

end

theorem idLookup_mem (ps : List (String × Nat)) (tid : String) (tnid : Nat) :
    idLookup ps tid = some tnid → (tid, tnid) ∈ ps := by
  intro h
  rw [idLookup] at h
  rcases hf : ps.reverse.find? fun p => p.1 = tid with _ | pr
  · rw [hf] at h; simp at h
  · rw [hf] at h
    have h2 : pr.2 = tnid := Option.some.inj h
    have hp : pr.1 = tid := by
      have := List.find?_some hf
      exact of_decide_eq_true this
    have hm : pr ∈ ps.reverse := List.mem_of_find?_eq_some hf
    have : pr = (tid, tnid) := by
      rcases pr with ⟨x, y⟩
      simp only at h2 hp
      rw [h2, hp]
    exact this ▸ List.mem_reverse.mp hm

mutual

theorem lookup_nids_subN (i : Nat) (el : Node) :
    ∀ n : Node, lookupN i n = some el → ∀ x ∈ elemNidsN el, x ∈ elemNidsN n := by
  intro n h x hx
  cases n with
  | txt s => simp [lookupN] at h
  | elem j tg a cs =>
    rw [lookupN] at h
    by_cases hj : j = i
    · rw [if_pos hj] at h
      obtain rfl : Node.elem j tg a cs = el := Option.some.inj h
      exact hx
    · rw [if_neg hj] at h
      exact List.mem_cons_of_mem _ (lookup_nids_subL i el cs h x hx)

theorem lookup_nids_subL (i : Nat) (el : Node) :
    ∀ d : List Node, lookupL i d = some el → ∀ x ∈ elemNidsN el, x ∈ elemNidsL d := by
  intro d h x hx
  cases d with
  | nil => simp [lookupL] at h
  | cons c rest =>
    rw [lookupL] at h
    rw [elemNidsL, List.mem_append]
    cases hc : lookupN i c with
    | some r =>
      rw [hc] at h
      dsimp only at h
      obtain rfl : r = el := Option.some.inj h
      exact Or.inl (lookup_nids_subN i _ c hc x hx)
    | none =>
      rw [hc] at h
      exact Or.inr (lookup_nids_subL i el rest h x hx)

end

mutual

theorem setChildren_not_memN (i : Nat) (newCs : List Node) :
    ∀ n : Node, i ∉ elemNidsN n → setChildrenN i newCs n = n := by
  intro n h
  cases n with
  | txt s => rfl
  | elem j tg a cs =>
    rw [elemNidsN, List.mem_cons, not_or] at h
    rw [setChildrenN, if_neg fun hc => h.1 hc.symm,
      setChildren_not_memL i newCs cs h.2]

theorem setChildren_not_memL (i : Nat) (newCs : List Node) :
    ∀ d : List Node, i ∉ elemNidsL d → setChildrenL i newCs d = d := by
  intro d h
  cases d with
  | nil => rfl
  | cons c rest =>
    rw [elemNidsL, List.mem_append, not_or] at h
    rw [setChildrenL, setChildren_not_memN i newCs c h.1,
      setChildren_not_memL i newCs rest h.2]

end

mutual

theorem appendChild_not_memN (i : Nat) (child : Node) :
    ∀ n : Node, i ∉ elemNidsN n → appendChildN i child n = n := by
  intro n h
  cases n with
  | txt s => rfl
  | elem j tg a cs =>
    rw [elemNidsN, List.mem_cons, not_or] at h
    rw [appendChildN, if_neg fun hc => h.1 hc.symm,
      appendChild_not_memL i child cs h.2]

theorem appendChild_not_memL (i : Nat) (child : Node) :
    ∀ d : List Node, i ∉ elemNidsL d → appendChildL i child d = d := by
  intro d h
  cases d with
  | nil => rfl
  | cons c rest =>
    rw [elemNidsL, List.mem_append, not_or] at h
    rw [appendChildL, appendChild_not_memN i child c h.1,
      appendChild_not_memL i child rest h.2]

end

mutual

theorem setChildren_nids_subN (i : Nat) (newCs : List Node) :
    ∀ n : Node, ∀ x ∈ elemNidsN (setChildrenN i newCs n),
      x ∈ elemNidsN n ∨ x ∈ elemNidsL newCs := by
  intro n x hx
  cases n with
  | txt s => exact Or.inl hx
  | elem j tg a cs =>
    rw [setChildrenN] at hx
    by_cases hj : j = i
    · rw [if_pos hj] at hx
      rw [elemNidsN, List.mem_cons] at hx
      rcases hx with h1 | h1
      · exact Or.inl (by rw [elemNidsN]; exact h1 ▸ List.mem_cons_self _ _)
      · exact Or.inr h1
    · rw [if_neg hj] at hx
      rw [elemNidsN, List.mem_cons] at hx
      rcases hx with h1 | h1
      · exact Or.inl (by rw [elemNidsN]; exact h1 ▸ List.mem_cons_self _ _)
      · rcases setChildren_nids_subL i newCs cs x h1 with h2 | h2
        · exact Or.inl (by rw [elemNidsN]; exact List.mem_cons_of_mem _ h2)
        · exact Or.inr h2

theorem setChildren_nids_subL (i : Nat) (newCs : List Node) :
    ∀ d : List Node, ∀ x ∈ elemNidsL (setChildrenL i newCs d),
      x ∈ elemNidsL d ∨ x ∈ elemNidsL newCs := by
  intro d x hx
  cases d with
  | nil => exact Or.inl hx
  | cons c rest =>
    rw [setChildrenL, elemNidsL, List.mem_append] at hx
    rcases hx with h1 | h1
    · rcases setChildren_nids_subN i newCs c x h1 with h2 | h2
      · exact Or.inl (by rw [elemNidsL, List.mem_append]; exact Or.inl h2)
      · exact Or.inr h2
    · rcases setChildren_nids_subL i newCs rest x h1 with h2 | h2
      · exact Or.inl (by rw [elemNidsL, List.mem_append]; exact Or.inr h2)
      · exact Or.inr h2

end

mutual

theorem lookup_localizeN (i m : Nat) (itg : String) (ia : List (String × String))
    (ics : List Node) :
    ∀ n : Node, (elemNidsN n).Nodup → lookupN i n = some (.elem i itg ia ics) →
      m ∈ elemNidsL ics → lookupN m n = lookupL m ics := by
  intro n hnd h hm
  cases n with
  | txt s => simp [lookupN] at h
  | elem j tg a cs =>
    rw [elemNidsN, List.nodup_cons] at hnd
    rw [lookupN] at h
    by_cases hj : j = i
    · rw [if_pos hj] at h
      have hinj := Option.some.inj h
      subst hj
      injection hinj with h1 h2 h3 h4
      subst h2; subst h3; subst h4
      have hmne : m ≠ j := fun hc => hnd.1 (hc ▸ hm)
      rw [lookupN, if_neg fun hc => hmne hc.symm]
    · rw [if_neg hj] at h
      have hmcs : m ∈ elemNidsL cs :=
        lookup_nids_subL i _ cs h m (by rw [elemNidsN]; exact List.mem_cons_of_mem _ hm)
      rw [lookupN, if_neg fun hc => hnd.1 (by rw [hc]; exact hmcs)]
      exact lookup_localizeL i m itg ia ics cs hnd.2 h hm

theorem lookup_localizeL (i m : Nat) (itg : String) (ia : List (String × String))
    (ics : List Node) :
    ∀ d : List Node, (elemNidsL d).Nodup → lookupL i d = some (.elem i itg ia ics) →
      m ∈ elemNidsL ics → lookupL m d = lookupL m ics := by
  intro d hnd h hm
  cases d with
  | nil => simp [lookupL] at h
  | cons c rest =>
    rw [elemNidsL, List.nodup_append] at hnd
    rw [lookupL] at h
    cases hc : lookupN i c with
    | some r =>
      rw [hc] at h
      dsimp only at h
      obtain rfl : r = Node.elem i itg ia ics := Option.some.inj h
      have hrec := lookup_localizeN i m itg ia ics c hnd.1 hc
      have hs : (lookupL m ics).isSome := lookupL_isSome_of_mem m ics hm
      obtain ⟨v, hv⟩ := Option.isSome_iff_exists.mp hs
      rw [lookupL, hrec hm, hv]
    | none =>
      rw [hc] at h
      have hmrest : m ∈ elemNidsL rest :=
        lookup_nids_subL i _ rest h m (by rw [elemNidsN]; exact List.mem_cons_of_mem _ hm)
      have hmc : m ∉ elemNidsN c := fun hcc => hnd.2.2 hcc hmrest
      rw [lookupL, lookupN_none_of_not_mem m c hmc]
      exact lookup_localizeL i m itg ia ics rest hnd.2.1 h hm

end

mutual

theorem setChildren_lookupN (i m : Nat) (newCs : List Node) (mel : Node) :
    ∀ n : Node, (elemNidsN n).Nodup →
      lookupN m n = some mel → i ∉ elemNidsN mel →
      (∀ itg ia ics, lookupN i n = some (.elem i itg ia ics) → m ∉ elemNidsL ics) →
      m ∉ elemNidsL newCs →
      lookupN m (setChildrenN i newCs n) = some mel := by
  intro n hnd hm hinot hsep hnew
  cases n with
  | txt s => simp [lookupN] at hm
  | elem j tg a cs =>
    rw [elemNidsN, List.nodup_cons] at hnd
    by_cases hj : j = i
    · subst hj
      rw [lookupN] at hm
      by_cases hjm : j = m
      · rw [if_pos hjm] at hm
        obtain rfl : Node.elem j tg a cs = mel := Option.some.inj hm
        exact absurd (by rw [elemNidsN]; exact hjm ▸ List.mem_cons_self _ _) hinot
      · rw [if_neg hjm] at hm
        have hmem : m ∈ elemNidsL cs :=
          mem_of_lookupL_isSome m cs (by rw [hm]; rfl)
        exact absurd hmem (hsep tg a cs (by rw [lookupN, if_pos rfl]))
    · rw [setChildrenN, if_neg hj]
      rw [lookupN] at hm ⊢
      by_cases hjm : j = m
      · rw [if_pos hjm] at hm ⊢
        obtain rfl : Node.elem j tg a cs = mel := Option.some.inj hm
        have hics : i ∉ elemNidsL cs := fun hc =>
          hinot (by rw [elemNidsN]; exact List.mem_cons_of_mem _ hc)
        rw [setChildren_not_memL i newCs cs hics]
      · rw [if_neg hjm] at hm ⊢
        exact setChildren_lookupL i m newCs mel cs hnd.2 hm hinot
          (fun itg ia ics hic => hsep itg ia ics (by rw [lookupN, if_neg hj]; exact hic))
          hnew

theorem setChildren_lookupL (i m : Nat) (newCs : List Node) (mel : Node) :
    ∀ d : List Node, (elemNidsL d).Nodup →
      lookupL m d = some mel → i ∉ elemNidsN mel →
      (∀ itg ia ics, lookupL i d = some (.elem i itg ia ics) → m ∉ elemNidsL ics) →
      m ∉ elemNidsL newCs →
      lookupL m (setChildrenL i newCs d) = some mel := by
  intro d hnd hm hinot hsep hnew
  cases d with
  | nil => simp [lookupL] at hm
  | cons c rest =>
    rw [elemNidsL, List.nodup_append] at hnd
    rw [lookupL] at hm
    rw [setChildrenL, lookupL]
    cases hmc : lookupN m c with
    | some r =>
      rw [hmc] at hm
      dsimp only at hm
      obtain rfl : r = mel := Option.some.inj hm
      rw [setChildren_lookupN i m newCs r c hnd.1 hmc hinot
        (fun itg ia ics hic => hsep itg ia ics (by rw [lookupL, hic])) hnew]
    | none =>
      rw [hmc] at hm
      have hmcn : m ∉ elemNidsN c := fun hc => by
        have := lookupN_isSome_of_mem m c hc
        rw [hmc] at this
        exact absurd this (by simp)
      have hset : m ∉ elemNidsN (setChildrenN i newCs c) := fun hc => by
        rcases setChildren_nids_subN i newCs c m hc with h1 | h1
        · exact hmcn h1
        · exact hnew h1
      rw [lookupN_none_of_not_mem m _ hset]
      refine setChildren_lookupL i m newCs mel rest hnd.2.1 hm hinot ?_ hnew
      intro itg ia ics hic
      cases hicc : lookupN i c with
      | some y =>
        have h1 : i ∈ elemNidsN c := mem_of_lookupN_isSome i c (by rw [hicc]; rfl)
        have h2 : i ∈ elemNidsL rest := mem_of_lookupL_isSome i rest (by rw [hic]; rfl)
        exact absurd h2 (hnd.2.2 h1)
      | none =>
        exact hsep itg ia ics (by rw [lookupL, hicc]; exact hic)

end

mutual

theorem remove_lookupN (i m : Nat) (mel : Node) :
    ∀ n : Node, (elemNidsN n).Nodup → lookupN m n = some mel → i ∉ elemNidsN mel →
      (∀ el, lookupN i n = some el → m ∉ elemNidsN el) →
      lookupN m (removeN i n) = some mel := by
  intro n hnd hm hinot hsep
  cases n with
  | txt s => simp [lookupN] at hm
  | elem j tg a cs =>
    rw [elemNidsN, List.nodup_cons] at hnd
    rw [lookupN] at hm
    by_cases hji : j = i
    · subst hji
      have hroot : lookupN j (Node.elem j tg a cs) = some (Node.elem j tg a cs) := by
        rw [lookupN, if_pos rfl]
      have hnotm := hsep _ hroot
      by_cases hjm : j = m
      · rw [if_pos hjm] at hm
        obtain rfl : Node.elem j tg a cs = mel := Option.some.inj hm
        exact absurd (by rw [elemNidsN]; exact hjm ▸ List.mem_cons_self _ _) hnotm
      · rw [if_neg hjm] at hm
        have hmem : m ∈ elemNidsL cs := mem_of_lookupL_isSome m cs (by rw [hm]; rfl)
        exact absurd (by rw [elemNidsN]; exact List.mem_cons_of_mem _ hmem) hnotm
    · rw [removeN, lookupN]
      by_cases hjm : j = m
      · rw [if_pos hjm] at hm ⊢
        obtain rfl : Node.elem j tg a cs = mel := Option.some.inj hm
        have hics : i ∉ elemNidsL cs := fun hc =>
          hinot (by rw [elemNidsN]; exact List.mem_cons_of_mem _ hc)
        rw [removeL_not_mem i cs hics]
      · rw [if_neg hjm] at hm ⊢
        exact remove_lookupL i m mel cs hnd.2 hm hinot
          (fun el hic => hsep el (by rw [lookupN, if_neg hji]; exact hic))

theorem remove_lookupL (i m : Nat) (mel : Node) :
    ∀ d : List Node, (elemNidsL d).Nodup → lookupL m d = some mel → i ∉ elemNidsN mel →
      (∀ el, lookupL i d = some el → m ∉ elemNidsN el) →
      lookupL m (removeL i d) = some mel := by
  intro d hnd hm hinot hsep
  cases d with
  | nil => simp [lookupL] at hm
  | cons c rest =>
    rw [elemNidsL, List.nodup_append] at hnd
    rw [lookupL] at hm
    rcases hrem : (nidOf c = i && isElemN c) with _ | _
    · rw [removeL, if_neg (by rw [hrem]; exact Bool.false_ne_true), lookupL]
      cases hmc : lookupN m c with
      | some r =>
        rw [hmc] at hm
        dsimp only at hm
        obtain rfl : r = mel := Option.some.inj hm
        rw [remove_lookupN i m r c hnd.1 hmc hinot
          (fun el hic => hsep el (by rw [lookupL, hic]))]
      | none =>
        rw [hmc] at hm
        have hmcn : m ∉ elemNidsN c := fun hc => by
          have := lookupN_isSome_of_mem m c hc
          rw [hmc] at this
          exact absurd this (by simp)
        have hrm : m ∉ elemNidsN (removeN i c) := fun hc =>
          hmcn ((elemNids_removeN_sublist i c).mem hc)
        rw [lookupN_none_of_not_mem m _ hrm]
        refine remove_lookupL i m mel rest hnd.2.1 hm hinot ?_
        intro el hic
        cases hicc : lookupN i c with
        | some y =>
          have h1 : i ∈ elemNidsN c := mem_of_lookupN_isSome i c (by rw [hicc]; rfl)
          have h2 : i ∈ elemNidsL rest := mem_of_lookupL_isSome i rest (by rw [hic]; rfl)
          exact absurd h2 (hnd.2.2 h1)
        | none =>
          exact hsep el (by rw [lookupL, hicc]; exact hic)
    · cases c with
      | txt s =>
        rw [nidOf, isElemN] at hrem
        simp at hrem
      | elem jc tgc ac csc =>
        rw [nidOf, isElemN, Bool.and_true, decide_eq_true_eq] at hrem
        subst hrem
        have hroot : lookupN jc (Node.elem jc tgc ac csc) = some (Node.elem jc tgc ac csc) := by
          rw [lookupN, if_pos rfl]
        have hnotm := hsep _ (by rw [lookupL, hroot])
        have hmc : lookupN m (Node.elem jc tgc ac csc) = none :=
          lookupN_none_of_not_mem m _ hnotm
        rw [hmc] at hm
        rw [removeL, if_pos (by rw [nidOf, isElemN, Bool.and_true, decide_eq_true_eq])]
        exact hm

end

mutual

theorem remove_disjointN (i : Nat) (el : Node) :
    ∀ n : Node, (elemNidsN n).Nodup → nidOf n ≠ i → lookupN i n = some el →
      ∀ x ∈ elemNidsN el, x ∉ elemNidsN (removeN i n) := by
  intro n hnd hroot h x hx
  cases n with
  | txt s => simp [lookupN] at h
  | elem j tg a cs =>
    rw [elemNidsN, List.nodup_cons] at hnd
    rw [nidOf] at hroot
    rw [lookupN, if_neg hroot] at h
    rw [removeN, elemNidsN, List.mem_cons, not_or]
    constructor
    · intro hc
      exact hnd.1 (hc ▸ lookup_nids_subL i el cs h x hx)
    · exact remove_disjointL i el cs hnd.2 h x hx

theorem remove_disjointL (i : Nat) (el : Node) :
    ∀ d : List Node, (elemNidsL d).Nodup → lookupL i d = some el →
      ∀ x ∈ elemNidsN el, x ∉ elemNidsL (removeL i d) := by
  intro d hnd h x hx
  cases d with
  | nil => simp [lookupL] at h
  | cons c rest =>
    rw [elemNidsL, List.nodup_append] at hnd
    rw [lookupL] at h
    rcases hrem : (nidOf c = i && isElemN c) with _ | _
    · rw [removeL, if_neg (by rw [hrem]; exact Bool.false_ne_true), elemNidsL,
        List.mem_append, not_or]
      cases hic : lookupN i c with
      | some y =>
        rw [hic] at h
        dsimp only at h
        obtain rfl : y = el := Option.some.inj h
        have hrne : nidOf c ≠ i := by
          cases c with
          | txt s => simp [lookupN] at hic
          | elem jc tgc ac csc =>
            rw [isElemN, Bool.and_true] at hrem
            exact of_decide_eq_false hrem
        constructor
        · exact remove_disjointN i _ c hnd.1 hrne hic x hx
        · intro hc
          exact hnd.2.2 (lookup_nids_subN i _ c hic x hx)
            ((elemNids_removeL_sublist i rest).mem hc)
      | none =>
        rw [hic] at h
        constructor
        · intro hc
          exact hnd.2.2 ((elemNids_removeN_sublist i c).mem hc)
            (lookup_nids_subL i el rest h x hx)
        · exact remove_disjointL i el rest hnd.2.1 h x hx
    · cases c with
      | txt s =>
        rw [nidOf, isElemN] at hrem
        simp at hrem
      | elem jc tgc ac csc =>
        rw [nidOf, isElemN, Bool.and_true, decide_eq_true_eq] at hrem
        subst hrem
        rw [lookupN, if_pos rfl] at h
        dsimp only at h
        obtain rfl : Node.elem jc tgc ac csc = el := Option.some.inj h
        rw [removeL, if_pos (by rw [nidOf, isElemN, Bool.and_true, decide_eq_true_eq])]
        exact fun hc => hnd.2.2 hx hc

end

mutual

theorem setChildren_nodupN (i : Nat) (newCs : List Node) :
    ∀ n : Node, (elemNidsN n).Nodup → (elemNidsL newCs).Nodup →
      (∀ x ∈ elemNidsL newCs, x ∉ elemNidsN n) →
      (elemNidsN (setChildrenN i newCs n)).Nodup := by
  intro n hnd hnew hdisj
  cases n with
  | txt s => exact hnd
  | elem j tg a cs =>
    rw [elemNidsN, List.nodup_cons] at hnd
    rw [setChildrenN]
    by_cases hj : j = i
    · rw [if_pos hj, elemNidsN, List.nodup_cons]
      refine ⟨fun hc => ?_, hnew⟩
      exact hdisj j hc (by rw [elemNidsN]; exact List.mem_cons_self _ _)
    · rw [if_neg hj, elemNidsN, List.nodup_cons]
      constructor
      · intro hc
        rcases setChildren_nids_subL i newCs cs j hc with h1 | h1
        · exact hnd.1 h1
        · exact hdisj j h1 (by rw [elemNidsN]; exact List.mem_cons_self _ _)
      · exact setChildren_nodupL i newCs cs hnd.2 hnew
          (fun x hx hc => hdisj x hx (by rw [elemNidsN]; exact List.mem_cons_of_mem _ hc))

theorem setChildren_nodupL (i : Nat) (newCs : List Node) :
    ∀ d : List Node, (elemNidsL d).Nodup → (elemNidsL newCs).Nodup →
      (∀ x ∈ elemNidsL newCs, x ∉ elemNidsL d) →
      (elemNidsL (setChildrenL i newCs d)).Nodup := by
  intro d hnd hnew hdisj
  cases d with
  | nil => exact hnd
  | cons c rest =>
    rw [elemNidsL, List.nodup_append] at hnd
    rw [setChildrenL, elemNidsL, List.nodup_append]
    have hdc : ∀ x ∈ elemNidsL newCs, x ∉ elemNidsN c := fun x hx hc =>
      hdisj x hx (by rw [elemNidsL, List.mem_append]; exact Or.inl hc)
    have hdr : ∀ x ∈ elemNidsL newCs, x ∉ elemNidsL rest := fun x hx hc =>
      hdisj x hx (by rw [elemNidsL, List.mem_append]; exact Or.inr hc)
    refine ⟨setChildren_nodupN i newCs c hnd.1 hnew hdc,
      setChildren_nodupL i newCs rest hnd.2.1 hnew hdr, ?_⟩
    intro x hx hx2
    by_cases hic : i ∈ elemNidsN c
    · have hirest : i ∉ elemNidsL rest := fun hc => hnd.2.2 hic hc
      rw [setChildren_not_memL i newCs rest hirest] at hx2
      rcases setChildren_nids_subN i newCs c x hx with h1 | h1
      · exact hnd.2.2 h1 hx2
      · exact hdr x h1 hx2
    · rw [setChildren_not_memN i newCs c hic] at hx
      rcases setChildren_nids_subL i newCs rest x hx2 with h2 | h2
      · exact hnd.2.2 hx h2
      · exact hdc x h2 hx

end

mutual

theorem appendChild_lookupN (i k : Nat) (child : Node) :
    ∀ n : Node, lookupN k child = some child → i ∈ elemNidsN n → k ∉ elemNidsN n →
      lookupN k (appendChildN i child n) = some child := by
  intro n hself hi hk
  cases n with
  | txt s => simp [elemNidsN] at hi
  | elem j tg a cs =>
    rw [elemNidsN, List.mem_cons] at hi
    rw [elemNidsN, List.mem_cons, not_or] at hk
    rw [appendChildN]
    by_cases hj : j = i
    · rw [if_pos hj, lookupN, if_neg fun hc => hk.1 hc.symm, lookupL_append,
        lookupL_none_of_not_mem k cs hk.2, lookupL, hself]
    · have hics : i ∈ elemNidsL cs := by
        rcases hi with h1 | h1
        · exact absurd h1.symm hj
        · exact h1
      rw [if_neg hj, lookupN, if_neg fun hc => hk.1 hc.symm]
      exact appendChild_lookupL i k child cs hself hics hk.2

theorem appendChild_lookupL (i k : Nat) (child : Node) :
    ∀ d : List Node, lookupN k child = some child → i ∈ elemNidsL d → k ∉ elemNidsL d →
      lookupL k (appendChildL i child d) = some child := by
  intro d hself hi hk
  cases d with
  | nil => simp [elemNidsL] at hi
  | cons c rest =>
    rw [elemNidsL, List.mem_append] at hi
    rw [elemNidsL, List.mem_append, not_or] at hk
    rw [appendChildL, lookupL]
    by_cases hic : i ∈ elemNidsN c
    · rw [appendChild_lookupN i k child c hself hic hk.1]
    · rw [appendChild_not_memN i child c hic,
        lookupN_none_of_not_mem k c hk.1]
      exact appendChild_lookupL i k child rest hself (hi.resolve_left hic) hk.2

end

theorem bnot_true {b : Bool} (h : (!b) = true) : b = false := by
  cases b
  · rfl
  · simp at h

theorem lookupSt_doc (i : Nat) (sd sp so : List Node) (f : Nat) (r : Node)
    (h : lookupL i sd = some r) : lookupSt i ⟨sd, sp, so, f⟩ = some r := by
  rw [lookupSt, h]

theorem lookup_attr_ne (d' : List Node) (m n : Nat) (mtg ntg : String)
    (ma na : List (String × String)) (mcs ncs : List Node)
    (hm : lookupL m d' = some (.elem m mtg ma mcs))
    (hn : lookupL n d' = some (.elem n ntg na ncs))
    (hne : getAttr ma "id" ≠ getAttr na "id") : m ≠ n := by
  intro hc
  subst hc
  rw [hm] at hn
  injection Option.some.inj hn with h1 h2 h3 h4
  exact hne (by rw [h3])

/-- Separation disjointness: a node that is an anchor or carries an id never
sits inside the children of a node whose subtree is anchor-free and id-free. -/
theorem sep_node_disjoint (sd : List Node) (hnd : (elemNidsL sd).Nodup)
    (i : Nat) (itg : String) (ia : List (String × String)) (ics : List Node)
    (hi : lookupL i sd = some (.elem i itg ia ics))
    (hics_a : anyTagL ["a"] ics = false) (hics_id : noIdsL ics = true)
    (m : Nat) (mtg : String) (ma : List (String × String)) (mcs : List Node)
    (hm : lookupL m sd = some (.elem m mtg ma mcs))
    (hQ : mtg = "a" ∨ (getAttr ma "id").isSome = true) :
    m ∉ elemNidsL ics := by
  intro hmem
  have hloc := lookup_localizeL i m itg ia ics sd hnd hi hmem
  rw [hm] at hloc
  rcases hQ with hq | hq
  · have := anyTag_false_lookupL ["a"] m _ ics hics_a hloc.symm
    rw [tagOf, hq] at this
    simp at this
  · have := noIds_lookupL m _ ics hics_id hloc.symm
    rw [attrsOf] at this
    rw [this] at hq
    simp at hq

/-- A `setChildrenL` at a separated node leaves the lookup of every other
separated node unchanged. -/
theorem wrap_lookup_preserved (sd : List Node) (hnd : (elemNidsL sd).Nodup)
    (nid : Nat) (ntg : String) (aa : List (String × String)) (acs : List Node)
    (hnid : lookupL nid sd = some (.elem nid ntg aa acs))
    (hacs_a : anyTagL ["a"] acs = false) (hacs_id : noIdsL acs = true)
    (newCs : List Node)
    (m : Nat) (mtg : String) (ma : List (String × String)) (mcs : List Node)
    (hm : lookupL m sd = some (.elem m mtg ma mcs)) (hmne : m ≠ nid)
    (hmcs_a : anyTagL ["a"] mcs = false) (hmcs_id : noIdsL mcs = true)
    (hQn : ntg = "a" ∨ (getAttr aa "id").isSome = true)
    (hQ : mtg = "a" ∨ (getAttr ma "id").isSome = true)
    (hnew : m ∉ elemNidsL newCs) :
    lookupL m (setChildrenL nid newCs sd) = some (.elem m mtg ma mcs) := by
  refine setChildren_lookupL nid m newCs _ sd hnd hm ?_ ?_ hnew
  · rw [elemNidsN, List.mem_cons, not_or]
    refine ⟨fun hc => hmne hc.symm, ?_⟩
    exact sep_node_disjoint sd hnd m mtg ma mcs hm hmcs_a hmcs_id nid ntg aa acs hnid hQn
  · intro itg ia ics hic
    rw [hnid] at hic
    injection Option.some.inj hic.symm with h1 h2 h3 h4
    subst h4
    exact sep_node_disjoint sd hnd nid ntg aa ics hnid hacs_a hacs_id m mtg ma mcs hm hQ

/-- A `removeL` of a separated node leaves the lookup of every other
separated node unchanged. -/
theorem remove_lookup_preserved (sd : List Node) (hnd : (elemNidsL sd).Nodup)
    (tnid : Nat) (ttg : String) (ta : List (String × String)) (tcs : List Node)
    (htnid : lookupL tnid sd = some (.elem tnid ttg ta tcs))
    (htcs_a : anyTagL ["a"] tcs = false) (htcs_id : noIdsL tcs = true)
    (m : Nat) (mtg : String) (ma : List (String × String)) (mcs : List Node)
    (hm : lookupL m sd = some (.elem m mtg ma mcs)) (hmne : m ≠ tnid)
    (hmcs_a : anyTagL ["a"] mcs = false) (hmcs_id : noIdsL mcs = true)
    (hQt : ttg = "a" ∨ (getAttr ta "id").isSome = true)
    (hQ : mtg = "a" ∨ (getAttr ma "id").isSome = true) :
    lookupL m (removeL tnid sd) = some (.elem m mtg ma mcs) := by
  refine remove_lookupL tnid m _ sd hnd hm ?_ ?_
  · rw [elemNidsN, List.mem_cons, not_or]
    refine ⟨fun hc => hmne hc.symm, ?_⟩
    exact sep_node_disjoint sd hnd m mtg ma mcs hm hmcs_a hmcs_id tnid ttg ta tcs htnid hQt
  · intro el hic
    rw [htnid] at hic
    obtain rfl : Node.elem tnid ttg ta tcs = el := Option.some.inj hic
    rw [elemNidsN, List.mem_cons, not_or]
    refine ⟨hmne, ?_⟩
    exact sep_node_disjoint sd hnd tnid ttg ta tcs htnid htcs_a htcs_id m mtg ma mcs hm hQ

/-- Shape of a snapshot anchor. -/
theorem anchor_shape (d : List Node) (hnd : (elemNidsL d).Nodup) (nid : Nat)
    (h : nid ∈ anchorsWithHref d) :
    ∃ aa acs, lookupL nid d = some (.elem nid "a" aa acs) ∧
      (getAttr aa "href").isSome = true := by
  obtain ⟨tg, a, cs, hl, hp⟩ := findNids_lookupL _ nid d hnd h
  rw [Bool.and_eq_true, decide_eq_true_eq] at hp
  exact ⟨a, cs, hp.1 ▸ hl, hp.2⟩

/-- What the separation discipline gives at an anchor. -/
theorem sep_anchor (d : List Node) (hsep : sepOkL d = true) (m : Nat)
    (ma : List (String × String)) (mcs : List Node)
    (h : lookupL m d = some (.elem m "a" ma mcs)) :
    getAttr ma "id" = none ∧ anyTagL ["a"] mcs = false ∧ noIdsL mcs = true := by
  have hs := sepOk_lookupL m _ d hsep h
  rw [sepOkN, if_pos rfl, Bool.and_eq_true, Bool.and_eq_true, Bool.and_eq_true] at hs
  obtain ⟨⟨⟨h1, h2⟩, h3⟩, _⟩ := hs
  exact ⟨Option.isNone_iff_eq_none.mp h1, bnot_true h2, h3⟩

/-- What the separation discipline gives at an id-bearing element. -/
theorem sep_target (d : List Node) (hsep : sepOkL d = true) (t : Nat)
    (ttg : String) (ta : List (String × String)) (tcs : List Node)
    (h : lookupL t d = some (.elem t ttg ta tcs))
    (hid : (getAttr ta "id").isSome = true) :
    ttg ≠ "a" ∧ anyTagL ["a"] tcs = false ∧ noIdsL tcs = true := by
  have hs := sepOk_lookupL t _ d hsep h
  rw [sepOkN, Bool.and_eq_true] at hs
  have hne : ttg ≠ "a" := by
    intro hc
    rw [if_pos hc] at hs
    rcases hs.1 with h1
    rw [Bool.and_eq_true, Bool.and_eq_true] at h1
    rw [Option.isSome_iff_exists] at hid
    obtain ⟨v, hv⟩ := hid
    rw [hv] at h1
    exact absurd h1.1.1 (by simp [Option.isNone])
  rw [if_neg hne, if_pos hid, Bool.and_eq_true] at hs
  exact ⟨hne, bnot_true hs.1.1, hs.1.2⟩

/-- Resolve a target id through the static id map. -/
theorem target_of (d : List Node) (hnd : (elemNidsL d).Nodup) (tid : String)
    (tnid : Nat) (h : idLookup (idPairsL d) tid = some tnid) :
    ∃ ttg ta tcs, lookupL tnid d = some (.elem tnid ttg ta tcs) ∧
      getAttr ta "id" = some tid :=
  idPairs_lookupL tid tnid d hnd (idLookup_mem _ tid tnid h)

theorem anchors_nodup (d : List Node) (hnd : (elemNidsL d).Nodup) :
    (anchorsWithHref d).Nodup :=
  (findNids_sublist_elemNidsL _ d).nodup hnd

theorem foldl_max_le : ∀ (l : List Nat) (a : Nat), a ≤ l.foldl max a := by
  intro l
  induction l with
  | nil => intro a; exact Nat.le_refl a
  | cons y t ih =>
    intro a
    rw [List.foldl_cons]
    exact Nat.le_trans (Nat.le_max_left a y) (ih (max a y))

theorem mem_le_foldl_max : ∀ (l : List Nat) (a x : Nat), x ∈ l → x ≤ l.foldl max a := by
  intro l
  induction l with
  | nil => intro a x hx; exact absurd hx (List.not_mem_nil x)
  | cons y t ih =>
    intro a x hx
    rw [List.foldl_cons]
    rcases List.mem_cons.mp hx with h1 | h1
    · exact Nat.le_trans (h1 ▸ Nat.le_max_right a y) (foldl_max_le t (max a y))
    · exact ih (max a y) x h1

theorem maxNidF_bound (d : List Node) : ∀ x ∈ elemNidsL d, x < maxNidF d + 1 :=
  fun x hx => Nat.lt_succ_of_le (mem_le_foldl_max (elemNidsL d) 0 x hx)

/-! ### C10 -- the back-link cleanup (revisited with husk semantics) -/

mutual

theorem nestedFree_lookupN (i : Nat) (tg2 : String) (a2 : List (String × String))
    (cs2 : List Node) :
    ∀ n : Node, nestedFreeN n = true → lookupN i n = some (.elem i tg2 a2 cs2) →
      tg2 = "a" → anyTagL ["a"] cs2 = false := by
  intro n hnf h ht
  cases n with
  | txt s => simp [lookupN] at h
  | elem j tgj aj csj =>
    rw [nestedFreeN, Bool.and_eq_true] at hnf
    rw [lookupN] at h
    by_cases hj : j = i
    · rw [if_pos hj] at h
      injection Option.some.inj h with e1 e2 e3 e4
      subst e2
      subst ht
      rw [if_pos rfl] at hnf
      rw [← e4]
      exact bnot_true hnf.1
    · rw [if_neg hj] at h
      exact nestedFree_lookupL i tg2 a2 cs2 csj hnf.2 h ht

theorem nestedFree_lookupL (i : Nat) (tg2 : String) (a2 : List (String × String))
    (cs2 : List Node) :
    ∀ d : List Node, nestedFreeL d = true → lookupL i d = some (.elem i tg2 a2 cs2) →
      tg2 = "a" → anyTagL ["a"] cs2 = false := by
  intro d hnf h ht
  cases d with
  | nil => simp [lookupL] at h
  | cons c rest =>
    rw [nestedFreeL, Bool.and_eq_true] at hnf
    rw [lookupL] at h
    cases hc : lookupN i c with
    | some r =>
      rw [hc] at h
      dsimp only at h
      obtain rfl : r = Node.elem i tg2 a2 cs2 := Option.some.inj h
      exact nestedFree_lookupN i tg2 a2 cs2 c hnf.1 hc ht
    | none =>
      rw [hc] at h
      exact nestedFree_lookupL i tg2 a2 cs2 rest hnf.2 h ht

end

/-- On a content none of whose snapshot anchors nests another, the fallible
back-link sweep never reads a destroyed link: it succeeds and equals the pure
lookup-and-remove sweep on the children. -/
theorem backLinkFold_ok (ns : List Nat) :
    ∀ cs : List Node, (elemNidsL cs).Nodup → ns.Nodup →
      (∀ m ∈ ns, ∃ ma mcs, lookupL m cs = some (.elem m "a" ma mcs) ∧
        anyTagL ["a"] mcs = false) →
      ∀ (j : Nat) (tg : String) (a : List (String × String)),
        ns.foldl backLinkStep (Except.ok (.elem j tg a cs)) =
          .ok (.elem j tg a (ns.foldl (stepR backLinkOffender) cs)) := by
  induction ns with
  | nil => intro cs _ _ _ j tg a; rfl
  | cons n ns' ih =>
    intro cs hnd hnsnd hm j tg a
    obtain ⟨na, ncs, hn, hncs⟩ := hm n (List.mem_cons_self _ _)
    have hnsnd' := List.nodup_cons.mp hnsnd
    rw [List.foldl_cons, List.foldl_cons]
    have hstep1 : backLinkStep (Except.ok (Node.elem j tg a cs)) n =
        Except.ok (Node.elem j tg a (stepR backLinkOffender cs n)) := by
      unfold backLinkStep stepR
      dsimp only
      rw [hn]
      dsimp only
      by_cases hb : backLinkOffender (Node.elem n "a" na ncs) = true
      · rw [if_pos hb, if_pos hb, removeN]
      · rw [if_neg hb, if_neg hb]
    rw [hstep1]
    have hstepr : stepR backLinkOffender cs n =
        (if backLinkOffender (Node.elem n "a" na ncs) then removeL n cs else cs) := by
      rw [stepR, hn]
    by_cases hb : backLinkOffender (Node.elem n "a" na ncs) = true
    · rw [hstepr, if_pos hb]
      refine ih (removeL n cs) ((elemNids_removeL_sublist n cs).nodup hnd)
        hnsnd'.2 ?_ j tg a
      intro m hmem
      obtain ⟨ma, mcs, hmm, hmcs⟩ := hm m (List.mem_cons_of_mem _ hmem)
      have hmne : m ≠ n := fun hc => hnsnd'.1 (hc ▸ hmem)
      refine ⟨ma, mcs, ?_, hmcs⟩
      refine remove_lookupL n m _ cs hnd hmm ?_ ?_
      · rw [elemNidsN, List.mem_cons, not_or]
        refine ⟨fun hc => hmne hc.symm, ?_⟩
        intro hc
        have hloc := lookup_localizeL m n "a" ma mcs cs hnd hmm hc
        rw [hn] at hloc
        have := anyTag_false_lookupL ["a"] n _ mcs hmcs hloc.symm
        rw [tagOf] at this
        simp at this
      · intro el hel
        rw [hn] at hel
        obtain rfl : Node.elem n "a" na ncs = el := Option.some.inj hel
        rw [elemNidsN, List.mem_cons, not_or]
        refine ⟨hmne, ?_⟩
        intro hc
        have hloc := lookup_localizeL n m "a" na ncs cs hnd hn hc
        rw [hmm] at hloc
        have := anyTag_false_lookupL ["a"] m _ ncs hncs hloc.symm
        rw [tagOf] at this
        simp at this
    · rw [hstepr, if_neg hb]
      exact ih cs hnd hnsnd'.2 (fun m hmem => hm m (List.mem_cons_of_mem _ hmem)) j tg a

/-- C10 (amended): the back-link cleanup only ever fires its removal test on
hyperlinks whose `href` starts with `#`.  On a footnote content none of
whose anchors nests another anchor, the sweep succeeds, removes exactly the
offender back-links (href starting with `#`, text shorter than 3 characters
or containing "return") with everything nested inside them, and every
hyperlink whose `href` does not start with `#` is retained in the
consolidated entry.  When a removed back-link does nest another snapshot
hyperlink, reading the destroyed link's href raises AttributeError and the
footnote sub-step aborts, so no consolidated entry exists at all
(`C10_counterexample`). -/
theorem C10_backlink_cleanup (j : Nat) (tg : String) (a : List (String × String))
    (cs : List Node) (hnd : (elemNidsL cs).Nodup) (hnest : nestedFreeL cs = true) :
    cleanBackLinks (.elem j tg a cs) =
      .ok (.elem j tg a (dropElemsL isOffenderAnchor cs)) ∧
    (∀ i el, lookupL i cs = some el → tagOf el = "a" →
        startsWithHash ((getAttr (attrsOf el) "href").getD "") = false →
        lookupL i (dropElemsL isOffenderAnchor cs) = some el) := by
  constructor
  · show (findNidsL (fun tg2 _ => tg2 = "a") cs).foldl backLinkStep
      (Except.ok (.elem j tg a cs)) = _
    rw [backLinkFold_ok (findNidsL (fun tg2 _ => tg2 = "a") cs) cs hnd
      ((findNids_sublist_elemNidsL _ cs).nodup hnd) ?_ j tg a]
    · have := sweep_eq_dropElems (fun tg2 _ => tg2 = "a") backLinkOffender cs hnd
      rw [this]
      rfl
    · intro m hmem
      obtain ⟨tg2, a2, cs2, hl, hp⟩ := findNids_lookupL _ m cs hnd hmem
      rw [decide_eq_true_eq] at hp
      subst hp
      exact ⟨a2, cs2, hl, nestedFree_lookupL m "a" a2 cs2 cs hnest hl rfl⟩
  · intro i el h ht hh
    exact lookup_dropOffendersL i el cs hnd hnest h ht hh

/-- Witness for C10 on a concrete footnote content: the sweep succeeds, the
short `#`-back-link is removed, the outbound link is kept. -/
theorem C10_witness :
    (elemNidsL [Node.elem 2 "a" [("href", "#b")] [.txt "^"],
        Node.elem 3 "a" [("href", "http://k.com")] [.txt "keep"]]).Nodup ∧
    nestedFreeL [Node.elem 2 "a" [("href", "#b")] [.txt "^"],
        Node.elem 3 "a" [("href", "http://k.com")] [.txt "keep"]] = true ∧
    cleanBackLinks
        (.elem 1 "div" []
          [.elem 2 "a" [("href", "#b")] [.txt "^"],
           .elem 3 "a" [("href", "http://k.com")] [.txt "keep"]]) =
      .ok (.elem 1 "div" []
        (dropElemsL isOffenderAnchor
          [.elem 2 "a" [("href", "#b")] [.txt "^"],
           .elem 3 "a" [("href", "http://k.com")] [.txt "keep"]])) :=
  ⟨by decide, by decide,
   (C10_backlink_cleanup 1 "div" []
      [.elem 2 "a" [("href", "#b")] [.txt "^"],
       .elem 3 "a" [("href", "http://k.com")] [.txt "keep"]]
      (by decide) (by decide)).1⟩

/-- C10 counterexample: when a hyperlink whose `href` does not start with
`#` is nested inside a removed back-link, the sweep next reads the destroyed
nested link and aborts with the AttributeError, so the link is not retained
in any consolidated entry -- no consolidated entry exists at all. -/
theorem C10_counterexample :
    startsWithHash "http://e.com" = false ∧
    lookupN 3 exC10 = some (.elem 3 "a" [("href", "http://e.com")] [.txt "x"]) ∧
    (match cleanBackLinks exC10 with
      | .error _ => true
      | .ok _ => false) = true := by
  refine ⟨by decide, by rfl, by rfl⟩

mutual

theorem setChildren_disjointN (i : Nat) (newCs : List Node) (itg : String)
    (ia : List (String × String)) (ics : List Node) :
    ∀ n : Node, (elemNidsN n).Nodup → lookupN i n = some (.elem i itg ia ics) →
      ∀ x ∈ elemNidsL ics, x ∉ elemNidsL newCs →
        x ∉ elemNidsN (setChildrenN i newCs n) := by
  intro n hnd h x hx hxnew
  cases n with
  | txt s => simp [lookupN] at h
  | elem j tg a cs =>
    rw [elemNidsN, List.nodup_cons] at hnd
    rw [lookupN] at h
    rw [setChildrenN]
    by_cases hj : j = i
    · rw [if_pos hj] at h ⊢
      injection Option.some.inj h with h1 h2 h3 h4
      rw [elemNidsN, List.mem_cons, not_or]
      refine ⟨fun hc => hnd.1 (by rw [← hc, h4]; exact hx), hxnew⟩
    · rw [if_neg hj] at h ⊢
      rw [elemNidsN, List.mem_cons, not_or]
      have hxcs : x ∈ elemNidsL cs :=
        lookup_nids_subL i _ cs h x (by rw [elemNidsN]; exact List.mem_cons_of_mem _ hx)
      refine ⟨fun hc => hnd.1 (by rw [← hc]; exact hxcs), ?_⟩
      exact setChildren_disjointL i newCs itg ia ics cs hnd.2 h x hx hxnew

theorem setChildren_disjointL (i : Nat) (newCs : List Node) (itg : String)
    (ia : List (String × String)) (ics : List Node) :
    ∀ d : List Node, (elemNidsL d).Nodup → lookupL i d = some (.elem i itg ia ics) →
      ∀ x ∈ elemNidsL ics, x ∉ elemNidsL newCs →
        x ∉ elemNidsL (setChildrenL i newCs d) := by
  intro d hnd h x hx hxnew
  cases d with
  | nil => simp [lookupL] at h
  | cons c rest =>
    rw [elemNidsL, List.nodup_append] at hnd
    rw [lookupL] at h
    rw [setChildrenL, elemNidsL, List.mem_append, not_or]
    cases hic : lookupN i c with
    | some y =>
      rw [hic] at h
      dsimp only at h
      obtain rfl : y = Node.elem i itg ia ics := Option.some.inj h
      have hxc : x ∈ elemNidsN c :=
        lookup_nids_subN i _ c hic x (by rw [elemNidsN]; exact List.mem_cons_of_mem _ hx)
      have hirest : i ∉ elemNidsL rest := fun hc =>
        hnd.2.2 (mem_of_lookupN_isSome i c (by rw [hic]; rfl)) hc
      constructor
      · exact setChildren_disjointN i newCs itg ia ics c hnd.1 hic x hx hxnew
      · rw [setChildren_not_memL i newCs rest hirest]
        exact fun hc => hnd.2.2 hxc hc
    | none =>
      rw [hic] at h
      have hxrest : x ∈ elemNidsL rest :=
        lookup_nids_subL i _ rest h x (by rw [elemNidsN]; exact List.mem_cons_of_mem _ hx)
      constructor
      · intro hc
        rcases setChildren_nids_subN i newCs c x hc with h1 | h1
        · exact hnd.2.2 h1 hxrest
        · exact hxnew h1
      · exact setChildren_disjointL i newCs itg ia ics rest hnd.2.1 h x hx hxnew

end

/-- Transfer of the loop invariants across the superscript wrap of a
separated anchor. -/
theorem wrap_invariants (d : List Node) (hnd0 : (elemNidsL d).Nodup)
    (hsep0 : sepOkL d = true) (nid : Nat)
    (sd sp so : List Node) (sf : Nat) (proc : List String) (suf' : List Nat)
    (hsufm : ∀ m ∈ suf', m ∈ anchorsWithHref d) (hnidn : nid ∉ suf')
    (aa : List (String × String)) (acs : List Node)
    (hanc_d : lookupL nid d = some (.elem nid "a" aa acs))
    (hK1 : ∀ m ∈ suf', lookupL m sd = lookupL m d)
    (hK1nid : lookupL nid sd = some (.elem nid "a" aa acs))
    (hK2 : ∀ tid tnid, idLookup (idPairsL d) tid = some tnid → tid ∉ proc →
      lookupL tnid sd = lookupL tnid d)
    (hM1 : (elemNidsL sd).Nodup)
    (hM2 : ∀ x, x ∈ elemNidsL sp ∨ x ∈ elemNidsL so → x ∉ elemNidsL sd)
    (hB : ∀ x, x ∈ elemNidsL sd ∨ x ∈ elemNidsL sp ∨ x ∈ elemNidsL so → x < sf)
    (atext : String) :
    ∃ sd1, supWrapSt nid atext acs ⟨sd, sp, so, sf⟩ = ⟨sd1, sp, so ++ acs, sf + 1⟩ ∧
      (∀ m ∈ suf', lookupL m sd1 = lookupL m d) ∧
      (∀ tid tnid, idLookup (idPairsL d) tid = some tnid → tid ∉ proc →
        lookupL tnid sd1 = lookupL tnid d) ∧
      (elemNidsL sd1).Nodup ∧
      (∀ x, x ∈ elemNidsL sp ∨ x ∈ elemNidsL (so ++ acs) → x ∉ elemNidsL sd1) ∧
      (∀ x, x ∈ elemNidsL sd1 ∨ x ∈ elemNidsL sp ∨ x ∈ elemNidsL (so ++ acs) →
        x < sf + 1) := by
  obtain ⟨hidn, hacs_a, hacs_id⟩ := sep_anchor d hsep0 nid aa acs hanc_d
  have hnidsd : nid ∈ elemNidsL sd := mem_of_lookupL_isSome nid sd (by rw [hK1nid]; rfl)
  have hspid : setChildrenL nid [.txt "", .elem sf "sup" [] [.txt atext]] sp = sp :=
    setChildren_not_memL _ _ sp (fun hc => hM2 nid (Or.inl hc) hnidsd)
  have hsoid : setChildrenL nid [.txt "", .elem sf "sup" [] [.txt atext]] so = so :=
    setChildren_not_memL _ _ so (fun hc => hM2 nid (Or.inr hc) hnidsd)
  have hnew_nids : elemNidsL [Node.txt "", Node.elem sf "sup" [] [.txt atext]]
      = [sf] := rfl
  have hacs_sub : ∀ x ∈ elemNidsL acs, x ∈ elemNidsL sd := fun x hx =>
    lookup_nids_subL nid _ sd hK1nid x (by rw [elemNidsN]; exact List.mem_cons_of_mem _ hx)
  refine ⟨setChildrenL nid [.txt "", .elem sf "sup" [] [.txt atext]] sd,
    by simp only [supWrapSt]; rw [hspid, hsoid], ?_, ?_, ?_, ?_, ?_⟩
  · intro m hm
    obtain ⟨ma, mcs, hm_d, _⟩ := anchor_shape d hnd0 m (hsufm m hm)
    obtain ⟨hmid, hmcs_a, hmcs_id⟩ := sep_anchor d hsep0 m ma mcs hm_d
    have hm_sd : lookupL m sd = some (Node.elem m "a" ma mcs) := by
      rw [hK1 m hm, hm_d]
    have hmne : m ≠ nid := fun hc => hnidn (hc ▸ hm)
    have hmnew : m ∉ elemNidsL [Node.txt "", Node.elem sf "sup" [] [.txt atext]] := by
      rw [hnew_nids, List.mem_singleton]
      intro hc
      exact absurd (hB m (Or.inl (mem_of_lookupL_isSome m sd (by rw [hm_sd]; rfl))))
        (by rw [hc]; exact Nat.lt_irrefl sf)
    rw [hm_d]
    exact wrap_lookup_preserved sd hM1 nid "a" aa acs hK1nid hacs_a hacs_id _
      m "a" ma mcs hm_sd hmne hmcs_a hmcs_id (Or.inl rfl) (Or.inl rfl) hmnew
  · intro tid tnid hidl hnp
    obtain ⟨ttg, ta, tcs, ht_d, hta⟩ := target_of d hnd0 tid tnid hidl
    obtain ⟨httg, htcs_a, htcs_id⟩ := sep_target d hsep0 tnid ttg ta tcs ht_d
      (by rw [hta]; rfl)
    have ht_sd : lookupL tnid sd = some (Node.elem tnid ttg ta tcs) := by
      rw [hK2 tid tnid hidl hnp, ht_d]
    have htne : tnid ≠ nid :=
      lookup_attr_ne sd tnid nid ttg "a" ta aa tcs acs ht_sd hK1nid
        (by rw [hta, hidn]; simp)
    have htnew : tnid ∉ elemNidsL [Node.txt "", Node.elem sf "sup" [] [.txt atext]] := by
      rw [hnew_nids, List.mem_singleton]
      intro hc
      exact absurd (hB tnid (Or.inl (mem_of_lookupL_isSome tnid sd (by rw [ht_sd]; rfl))))
        (by rw [hc]; exact Nat.lt_irrefl sf)
    rw [ht_d]
    exact wrap_lookup_preserved sd hM1 nid "a" aa acs hK1nid hacs_a hacs_id _
      tnid ttg ta tcs ht_sd htne htcs_a htcs_id (Or.inl rfl)
      (Or.inr (by rw [hta]; rfl)) htnew
  · refine setChildren_nodupL nid _ sd hM1 (by rw [hnew_nids]; exact List.nodup_singleton sf) ?_
    intro x hx hc
    rw [hnew_nids, List.mem_singleton] at hx
    exact absurd (hB x (Or.inl hc)) (by rw [hx]; exact Nat.lt_irrefl sf)
  · intro x hx
    have hxlt : x < sf := by
      rcases hx with h1 | h1
      · exact hB x (Or.inr (Or.inl h1))
      · rw [elemNidsL_append, List.mem_append] at h1
        rcases h1 with h2 | h2
        · exact hB x (Or.inr (Or.inr h2))
        · exact hB x (Or.inl (hacs_sub x h2))
    rcases hx with h1 | h1
    · intro hc
      rcases setChildren_nids_subL nid _ sd x hc with h2 | h2
      · exact hM2 x (Or.inl h1) h2
      · rw [hnew_nids, List.mem_singleton] at h2
        exact absurd hxlt (by rw [h2]; exact Nat.lt_irrefl sf)
    · rw [elemNidsL_append, List.mem_append] at h1
      rcases h1 with h2 | h2
      · intro hc
        rcases setChildren_nids_subL nid _ sd x hc with h3 | h3
        · exact hM2 x (Or.inr h2) h3
        · rw [hnew_nids, List.mem_singleton] at h3
          exact absurd hxlt (by rw [h3]; exact Nat.lt_irrefl sf)
      · exact setChildren_disjointL nid _ "a" aa acs sd hM1 hK1nid x h2
          (by rw [hnew_nids, List.mem_singleton]; intro hc
              exact absurd hxlt (by rw [hc]; exact Nat.lt_irrefl sf))
  · intro x hx
    rcases hx with h1 | h1
    · rcases setChildren_nids_subL nid _ sd x h1 with h2 | h2
      · exact Nat.lt_succ_of_lt (hB x (Or.inl h2))
      · rw [hnew_nids, List.mem_singleton] at h2
        rw [h2]
        exact Nat.lt_succ_self sf
    · rcases h1 with h2 | h2
      · exact Nat.lt_succ_of_lt (hB x (Or.inr (Or.inl h2)))
      · rw [elemNidsL_append, List.mem_append] at h2
        rcases h2 with h3 | h3
        · exact Nat.lt_succ_of_lt (hB x (Or.inr (Or.inr h3)))
        · exact Nat.lt_succ_of_lt (hB x (Or.inl (hacs_sub x h3)))

/-- Transfer of the loop invariants across the extraction of a separated
footnote target and the push of the consolidated entry. -/
theorem remove_push_invariants (d : List Node) (hnd0 : (elemNidsL d).Nodup)
    (hsep0 : sepOkL d = true)
    (sd1 sp so1 : List Node) (sf1 : Nat) (proc : List String) (suf' : List Nat)
    (hsufm : ∀ m ∈ suf', m ∈ anchorsWithHref d)
    (tid : String) (tnid : Nat) (ttg : String) (ta : List (String × String))
    (tcs : List Node)
    (htgt_d : lookupL tnid d = some (.elem tnid ttg ta tcs))
    (hta : getAttr ta "id" = some tid)
    (htcs_a : anyTagL ["a"] tcs = false) (htcs_id : noIdsL tcs = true)
    (ht_sd1 : lookupL tnid sd1 = some (.elem tnid ttg ta tcs))
    (hK1 : ∀ m ∈ suf', lookupL m sd1 = lookupL m d)
    (hK2 : ∀ tid2 tnid2, idLookup (idPairsL d) tid2 = some tnid2 → tid2 ∉ proc →
      lookupL tnid2 sd1 = lookupL tnid2 d)
    (hM1 : (elemNidsL sd1).Nodup)
    (hM2 : ∀ x, x ∈ elemNidsL sp ∨ x ∈ elemNidsL so1 → x ∉ elemNidsL sd1)
    (hB : ∀ x, x ∈ elemNidsL sd1 ∨ x ∈ elemNidsL sp ∨ x ∈ elemNidsL so1 → x < sf1)
    (item : Node) (sf3 : Nat) (hsf3 : sf1 ≤ sf3)
    (hitem : ∀ x ∈ elemNidsN item, x = sf1 ∨ x ∈ elemNidsN (Node.elem tnid ttg ta tcs))
    (hitemB : ∀ x ∈ elemNidsN item, x < sf3) :
    (∀ m ∈ suf', lookupL m (removeL tnid sd1) = lookupL m d) ∧
    (∀ tid2 tnid2, idLookup (idPairsL d) tid2 = some tnid2 → tid2 ∉ proc ++ [tid] →
      lookupL tnid2 (removeL tnid sd1) = lookupL tnid2 d) ∧
    (elemNidsL (removeL tnid sd1)).Nodup ∧
    (∀ x, x ∈ elemNidsL (sp ++ [item]) ∨ x ∈ elemNidsL so1 →
      x ∉ elemNidsL (removeL tnid sd1)) ∧
    (∀ x, x ∈ elemNidsL (removeL tnid sd1) ∨ x ∈ elemNidsL (sp ++ [item]) ∨
      x ∈ elemNidsL so1 → x < sf3) ∧
    removeL tnid sp = sp ∧ removeL tnid so1 = so1 := by
  have htsd1mem : tnid ∈ elemNidsL sd1 :=
    mem_of_lookupL_isSome tnid sd1 (by rw [ht_sd1]; rfl)
  refine ⟨?_, ?_, (elemNids_removeL_sublist tnid sd1).nodup hM1, ?_, ?_,
    removeL_not_mem tnid sp (fun hc => hM2 tnid (Or.inl hc) htsd1mem),
    removeL_not_mem tnid so1 (fun hc => hM2 tnid (Or.inr hc) htsd1mem)⟩
  · intro m hm
    obtain ⟨ma, mcs, hm_d, _⟩ := anchor_shape d hnd0 m (hsufm m hm)
    obtain ⟨hmid, hmcs_a, hmcs_id⟩ := sep_anchor d hsep0 m ma mcs hm_d
    have hm_sd1 : lookupL m sd1 = some (Node.elem m "a" ma mcs) := by
      rw [hK1 m hm, hm_d]
    have hmne : m ≠ tnid :=
      lookup_attr_ne sd1 m tnid "a" ttg ma ta mcs tcs hm_sd1 ht_sd1
        (by rw [hmid, hta]; simp)
    rw [hm_d]
    exact remove_lookup_preserved sd1 hM1 tnid ttg ta tcs ht_sd1 htcs_a htcs_id
      m "a" ma mcs hm_sd1 hmne hmcs_a hmcs_id (Or.inr (by rw [hta]; rfl)) (Or.inl rfl)
  · intro tid2 tnid2 hidl2 hnp2
    have hnp2' : tid2 ∉ proc := fun hc => hnp2 (List.mem_append_left _ hc)
    have htid2ne : tid2 ≠ tid := fun hc =>
      hnp2 (List.mem_append_right _ (by rw [hc]; exact List.mem_singleton.mpr rfl))
    obtain ⟨ttg2, ta2, tcs2, ht2_d, hta2⟩ := target_of d hnd0 tid2 tnid2 hidl2
    obtain ⟨httg2, htcs2_a, htcs2_id⟩ := sep_target d hsep0 tnid2 ttg2 ta2 tcs2 ht2_d
      (by rw [hta2]; rfl)
    have ht2_sd1 : lookupL tnid2 sd1 = some (Node.elem tnid2 ttg2 ta2 tcs2) := by
      rw [hK2 tid2 tnid2 hidl2 hnp2', ht2_d]
    have htne : tnid2 ≠ tnid :=
      lookup_attr_ne sd1 tnid2 tnid ttg2 ttg ta2 ta tcs2 tcs ht2_sd1 ht_sd1
        (by rw [hta2, hta]; intro hc; exact htid2ne (Option.some.inj hc))
    rw [ht2_d]
    exact remove_lookup_preserved sd1 hM1 tnid ttg ta tcs ht_sd1 htcs_a htcs_id
      tnid2 ttg2 ta2 tcs2 ht2_sd1 htne htcs2_a htcs2_id
      (Or.inr (by rw [hta]; rfl)) (Or.inr (by rw [hta2]; rfl))
  · intro x hx
    rw [elemNidsL_append, List.mem_append] at hx
    rcases hx with (h1 | h1) | h1
    · exact fun hc => hM2 x (Or.inl h1) ((elemNids_removeL_sublist tnid sd1).mem hc)
    · simp only [elemNidsL, List.append_nil] at h1
      rcases hitem x h1 with h2 | h2
      · intro hc
        have := hB x (Or.inl ((elemNids_removeL_sublist tnid sd1).mem hc))
        rw [h2] at this
        exact Nat.lt_irrefl sf1 this
      · exact remove_disjointL tnid _ sd1 hM1 ht_sd1 x h2
    · exact fun hc => hM2 x (Or.inr h1) ((elemNids_removeL_sublist tnid sd1).mem hc)
  · intro x hx
    rcases hx with h1 | h1 | h1
    · exact Nat.lt_of_lt_of_le
        (hB x (Or.inl ((elemNids_removeL_sublist tnid sd1).mem h1))) hsf3
    · rw [elemNidsL_append, List.mem_append] at h1
      rcases h1 with h2 | h2
      · exact Nat.lt_of_lt_of_le (hB x (Or.inr (Or.inl h2))) hsf3
      · simp only [elemNidsL, List.append_nil] at h2
        exact hitemB x h2
    · exact Nat.lt_of_lt_of_le (hB x (Or.inr (Or.inr h1))) hsf3

theorem endnoteStep_eval_skip1 (idsMap : List (String × Nat)) (st : PState)
    (proc : List String) (nid : Nat) (tg : String) (aa : List (String × String))
    (acs : List Node) (href : String)
    (hl : lookupSt nid st = some (.elem nid tg aa acs))
    (hh : getAttr aa "href" = some href)
    (hsh : startsWithHash href = false) :
    endnoteStep idsMap ⟨st, proc⟩ nid = .ok ⟨st, proc⟩ := by
  rw [endnoteStep, hl]
  dsimp only
  rw [hh]
  dsimp only
  rw [if_pos (by rw [hsh]; exact Bool.false_ne_true)]

theorem endnoteStep_eval_skip2 (idsMap : List (String × Nat)) (st : PState)
    (proc : List String) (nid : Nat) (tg : String) (aa : List (String × String))
    (acs : List Node) (href : String)
    (hl : lookupSt nid st = some (.elem nid tg aa acs))
    (hh : getAttr aa "href" = some href)
    (hsh : startsWithHash href = true)
    (hid : idLookup idsMap (strTail href) = none) :
    endnoteStep idsMap ⟨st, proc⟩ nid = .ok ⟨st, proc⟩ := by
  rw [endnoteStep, hl]
  dsimp only
  rw [hh]
  dsimp only
  rw [if_neg (not_not_intro hsh)]
  rw [hid]

theorem endnoteStep_eval_skip3 (idsMap : List (String × Nat)) (st : PState)
    (proc : List String) (nid : Nat) (tg : String) (aa : List (String × String))
    (acs : List Node) (href : String) (tnid : Nat)
    (hl : lookupSt nid st = some (.elem nid tg aa acs))
    (hh : getAttr aa "href" = some href)
    (hsh : startsWithHash href = true)
    (hid : idLookup idsMap (strTail href) = some tnid)
    (hqual : (isNumberRef (pyStrip (getTextRaw (.elem nid tg aa acs))) ||
      (strContains (pyLower (strTail href)) "footnote" ||
        strContains (pyLower (strTail href)) "fn" ||
        strContains (pyLower (strTail href)) "ref")) = false) :
    endnoteStep idsMap ⟨st, proc⟩ nid = .ok ⟨st, proc⟩ := by
  rw [endnoteStep, hl]
  dsimp only
  rw [hh]
  dsimp only
  rw [if_neg (not_not_intro hsh)]
  rw [hid]
  dsimp only
  rw [if_pos (by rw [hqual]; exact Bool.false_ne_true)]

theorem endnoteStep_eval_seen (idsMap : List (String × Nat)) (st st1 : PState)
    (proc : List String) (nid : Nat) (tg : String) (aa : List (String × String))
    (acs : List Node) (href : String) (tnid : Nat)
    (hl : lookupSt nid st = some (.elem nid tg aa acs))
    (hh : getAttr aa "href" = some href)
    (hsh : startsWithHash href = true)
    (hid : idLookup idsMap (strTail href) = some tnid)
    (hqual : (isNumberRef (pyStrip (getTextRaw (.elem nid tg aa acs))) ||
      (strContains (pyLower (strTail href)) "footnote" ||
        strContains (pyLower (strTail href)) "fn" ||
        strContains (pyLower (strTail href)) "ref")) = true)
    (hst1 : (if hasDescTags ["sup"] (Node.elem nid tg aa acs) then st
      else supWrapSt nid (getTextRaw (Node.elem nid tg aa acs)) acs st) = st1)
    (hin : strTail href ∈ proc) :
    endnoteStep idsMap ⟨st, proc⟩ nid = .ok ⟨st1, proc⟩ := by
  rw [endnoteStep, hl]
  dsimp only
  rw [hh]
  dsimp only
  rw [if_neg (not_not_intro hsh)]
  rw [hid]
  dsimp only
  rw [if_neg (not_not_intro hqual), hst1, if_pos hin]

theorem endnoteStep_eval_push (idsMap : List (String × Nat)) (st st1 : PState)
    (proc : List String) (nid : Nat) (tg : String) (aa : List (String × String))
    (acs : List Node) (href : String) (tnid : Nat) (tdiv note1 : Node)
    (hl : lookupSt nid st = some (.elem nid tg aa acs))
    (hh : getAttr aa "href" = some href)
    (hsh : startsWithHash href = true)
    (hid : idLookup idsMap (strTail href) = some tnid)
    (hqual : (isNumberRef (pyStrip (getTextRaw (.elem nid tg aa acs))) ||
      (strContains (pyLower (strTail href)) "footnote" ||
        strContains (pyLower (strTail href)) "fn" ||
        strContains (pyLower (strTail href)) "ref")) = true)
    (hst1 : (if hasDescTags ["sup"] (Node.elem nid tg aa acs) then st
      else supWrapSt nid (getTextRaw (Node.elem nid tg aa acs)) acs st) = st1)
    (hnin : strTail href ∉ proc)
    (hlt : lookupSt tnid st1 = some tdiv)
    (hcb : cleanBackLinks tdiv = .ok note1) :
    endnoteStep idsMap ⟨st, proc⟩ nid =
      (if tagOf note1 ∈ ["div", "p", "li"] then
        .ok ⟨pushPool (appendEndnoteClass note1) (removeSt tnid st1),
             proc ++ [strTail href]⟩
       else
        .ok ⟨pushPool
              (appendEndnoteClass
                (.elem (freshOf (removeSt tnid st1)) "div" [] [note1]))
              (bumpFresh (removeSt tnid st1)),
             proc ++ [strTail href]⟩) := by
  rw [endnoteStep, hl]
  dsimp only
  rw [hh]
  dsimp only
  rw [if_neg (not_not_intro hsh)]
  rw [hid]
  dsimp only
  rw [if_neg (not_not_intro hqual), hst1, if_neg hnin, hlt]
  dsimp only
  rw [hcb]

theorem staticQualify_eval_none1 (idsMap : List (String × Nat)) (d : List Node)
    (nid : Nat) (tg : String) (aa : List (String × String)) (acs : List Node)
    (href : String)
    (hl : lookupL nid d = some (.elem nid tg aa acs))
    (hh : getAttr aa "href" = some href)
    (hsh : startsWithHash href = false) :
    staticQualify idsMap d nid = none := by
  rw [staticQualify, hl]
  dsimp only [attrsOf]
  rw [hh]
  dsimp only
  rw [if_pos (by rw [hsh]; exact Bool.false_ne_true)]

theorem staticQualify_eval_none2 (idsMap : List (String × Nat)) (d : List Node)
    (nid : Nat) (tg : String) (aa : List (String × String)) (acs : List Node)
    (href : String)
    (hl : lookupL nid d = some (.elem nid tg aa acs))
    (hh : getAttr aa "href" = some href)
    (hsh : startsWithHash href = true)
    (hid : idLookup idsMap (strTail href) = none) :
    staticQualify idsMap d nid = none := by
  rw [staticQualify, hl]
  dsimp only [attrsOf]
  rw [hh]
  dsimp only
  rw [if_neg (not_not_intro hsh)]
  rw [hid]

theorem staticQualify_eval_none3 (idsMap : List (String × Nat)) (d : List Node)
    (nid : Nat) (tg : String) (aa : List (String × String)) (acs : List Node)
    (href : String) (tnid : Nat)
    (hl : lookupL nid d = some (.elem nid tg aa acs))
    (hh : getAttr aa "href" = some href)
    (hsh : startsWithHash href = true)
    (hid : idLookup idsMap (strTail href) = some tnid)
    (hqual : (isNumberRef (pyStrip (getTextRaw (.elem nid tg aa acs))) ||
      (strContains (pyLower (strTail href)) "footnote" ||
        strContains (pyLower (strTail href)) "fn" ||
        strContains (pyLower (strTail href)) "ref")) = false) :
    staticQualify idsMap d nid = none := by
  rw [staticQualify, hl]
  dsimp only [attrsOf]
  rw [hh]
  dsimp only
  rw [if_neg (not_not_intro hsh)]
  rw [hid]
  dsimp only
  rw [if_neg (by rw [hqual]; exact Bool.false_ne_true)]

theorem staticQualify_eval_some (idsMap : List (String × Nat)) (d : List Node)
    (nid : Nat) (tg : String) (aa : List (String × String)) (acs : List Node)
    (href : String) (tnid : Nat)
    (hl : lookupL nid d = some (.elem nid tg aa acs))
    (hh : getAttr aa "href" = some href)
    (hsh : startsWithHash href = true)
    (hid : idLookup idsMap (strTail href) = some tnid)
    (hqual : (isNumberRef (pyStrip (getTextRaw (.elem nid tg aa acs))) ||
      (strContains (pyLower (strTail href)) "footnote" ||
        strContains (pyLower (strTail href)) "fn" ||
        strContains (pyLower (strTail href)) "ref")) = true) :
    staticQualify idsMap d nid = some (strTail href) := by
  rw [staticQualify, hl]
  dsimp only [attrsOf]
  rw [hh]
  dsimp only
  rw [if_neg (not_not_intro hsh)]
  rw [hid]
  dsimp only
  rw [if_pos hqual]

theorem foldl_congr_init (f : Except EndAcc EndAcc → Nat → Except EndAcc EndAcc)
    (l : List Nat) (x y z : Except EndAcc EndAcc) (h1 : x = y)
    (h2 : List.foldl f y l = z) : List.foldl f x l = z := by
  rw [h1]
  exact h2

set_option maxHeartbeats 1000000 in
/-- The anchor loop of `process_endnotes` on a separated document: the fold
succeeds, processes exactly the statically qualifying references in
first-occurrence order, and keeps one pool entry per processed id. -/
theorem endnote_loop (d : List Node) (hnd0 : (elemNidsL d).Nodup)
    (hsep0 : sepOkL d = true) :
    ∀ (suf : List Nat), suf.Sublist (anchorsWithHref d) →
      ∀ (sd sp so : List Node) (sf : Nat) (proc : List String),
      (∀ m ∈ suf, lookupL m sd = lookupL m d) →
      (∀ tid tnid, idLookup (idPairsL d) tid = some tnid → tid ∉ proc →
        lookupL tnid sd = lookupL tnid d) →
      (elemNidsL sd).Nodup →
      (∀ x, x ∈ elemNidsL sp ∨ x ∈ elemNidsL so → x ∉ elemNidsL sd) →
      (∀ x, x ∈ elemNidsL sd ∨ x ∈ elemNidsL sp ∨ x ∈ elemNidsL so → x < sf) →
      sp.length = proc.length →
      (proc = [] → (⟨sd, sp, so, sf⟩ : PState) = initPState d) →
      ∃ sd2 sp2 so2 sf2 proc2,
        suf.foldl (fun acc nid => match acc with
            | .error e => .error e
            | .ok a => endnoteStep (idPairsL d) a nid)
          (Except.ok ⟨⟨sd, sp, so, sf⟩, proc⟩) = .ok ⟨⟨sd2, sp2, so2, sf2⟩, proc2⟩ ∧
        proc2 = proc ++
          firstDedupGo proc (suf.filterMap (staticQualify (idPairsL d) d)) ∧
        sp2.length = proc2.length ∧
        (∀ x, x ∈ elemNidsL sd2 ∨ x ∈ elemNidsL sp2 ∨ x ∈ elemNidsL so2 → x < sf2) ∧
        (proc2 = [] → (⟨sd2, sp2, so2, sf2⟩ : PState) = initPState d) := by
  intro suf
  induction suf with
  | nil =>
    intro _ sd sp so sf proc hK1 hK2 hM1 hM2 hB hlen hnil
    exact ⟨sd, sp, so, sf, proc, rfl,
      by rw [List.filterMap_nil, firstDedupGo, List.append_nil], hlen, hB, hnil⟩
  | cons nid suf' ih =>
    intro hsub sd sp so sf proc hK1 hK2 hM1 hM2 hB hlen hnil
    have hanch : nid ∈ anchorsWithHref d := hsub.subset (List.mem_cons_self _ _)
    have hsub' : suf'.Sublist (anchorsWithHref d) := List.sublist_of_cons_sublist hsub
    have hnidn : nid ∉ suf' :=
      (List.nodup_cons.mp (hsub.nodup (anchors_nodup d hnd0))).1
    have hsufm : ∀ m ∈ suf', m ∈ anchorsWithHref d := fun m hm => hsub'.subset hm
    have hK1s : ∀ m ∈ suf', lookupL m sd = lookupL m d :=
      fun m hm => hK1 m (List.mem_cons_of_mem _ hm)
    obtain ⟨aa, acs, hanc_d, hhref⟩ := anchor_shape d hnd0 nid hanch
    obtain ⟨hidn, hacs_a, hacs_id⟩ := sep_anchor d hsep0 nid aa acs hanc_d
    have hK1nid : lookupL nid sd = some (Node.elem nid "a" aa acs) := by
      rw [hK1 nid (List.mem_cons_self _ _), hanc_d]
    obtain ⟨href, hhref_eq⟩ := Option.isSome_iff_exists.mp hhref
    have hlookst : lookupSt nid ⟨sd, sp, so, sf⟩ = some (Node.elem nid "a" aa acs) :=
      lookupSt_doc nid sd sp so sf _ hK1nid
    rcases hsh : startsWithHash href with _ | _
    · have hstep := endnoteStep_eval_skip1 (idPairsL d) ⟨sd, sp, so, sf⟩ proc nid
        "a" aa acs href hlookst hhref_eq hsh
      have hq := staticQualify_eval_none1 (idPairsL d) d nid "a" aa acs href
        hanc_d hhref_eq hsh
      rw [List.foldl_cons]
      obtain ⟨sd2, sp2, so2, sf2, proc2, hfold, hproc, hlen2, hB2, hnil2⟩ :=
        ih hsub' sd sp so sf proc hK1s hK2 hM1 hM2 hB hlen hnil
      refine ⟨sd2, sp2, so2, sf2, proc2,
        foldl_congr_init _ suf' _ _ _ hstep hfold, ?_, hlen2, hB2, hnil2⟩
      rw [List.filterMap_cons, hq]
      exact hproc
    · rcases hidl : idLookup (idPairsL d) (strTail href) with _ | tnid
      · have hstep := endnoteStep_eval_skip2 (idPairsL d) ⟨sd, sp, so, sf⟩ proc nid
          "a" aa acs href hlookst hhref_eq hsh hidl
        have hq := staticQualify_eval_none2 (idPairsL d) d nid "a" aa acs href
          hanc_d hhref_eq hsh hidl
        rw [List.foldl_cons]
        obtain ⟨sd2, sp2, so2, sf2, proc2, hfold, hproc, hlen2, hB2, hnil2⟩ :=
          ih hsub' sd sp so sf proc hK1s hK2 hM1 hM2 hB hlen hnil
        refine ⟨sd2, sp2, so2, sf2, proc2,
          foldl_congr_init _ suf' _ _ _ hstep hfold, ?_, hlen2, hB2, hnil2⟩
        rw [List.filterMap_cons, hq]
        exact hproc
      · rcases hqual : (isNumberRef (pyStrip (getTextRaw (Node.elem nid "a" aa acs))) ||
          (strContains (pyLower (strTail href)) "footnote" ||
            strContains (pyLower (strTail href)) "fn" ||
            strContains (pyLower (strTail href)) "ref")) with _ | _
        · have hstep := endnoteStep_eval_skip3 (idPairsL d) ⟨sd, sp, so, sf⟩ proc nid
            "a" aa acs href tnid hlookst hhref_eq hsh hidl hqual
          have hq := staticQualify_eval_none3 (idPairsL d) d nid "a" aa acs href tnid
            hanc_d hhref_eq hsh hidl hqual
          rw [List.foldl_cons]
          obtain ⟨sd2, sp2, so2, sf2, proc2, hfold, hproc, hlen2, hB2, hnil2⟩ :=
            ih hsub' sd sp so sf proc hK1s hK2 hM1 hM2 hB hlen hnil
          refine ⟨sd2, sp2, so2, sf2, proc2,
            foldl_congr_init _ suf' _ _ _ hstep hfold, ?_, hlen2, hB2, hnil2⟩
          rw [List.filterMap_cons, hq]
          exact hproc
        · have hq := staticQualify_eval_some (idPairsL d) d nid "a" aa acs href tnid
            hanc_d hhref_eq hsh hidl hqual
          obtain ⟨sd1, so1, sf1, hst1, hK1', hK2', hM1', hM2', hB'⟩ :
              ∃ sd1 so1 sf1,
                (if hasDescTags ["sup"] (Node.elem nid "a" aa acs)
                  then (⟨sd, sp, so, sf⟩ : PState)
                  else supWrapSt nid (getTextRaw (Node.elem nid "a" aa acs)) acs
                    ⟨sd, sp, so, sf⟩) = ⟨sd1, sp, so1, sf1⟩ ∧
                (∀ m ∈ suf', lookupL m sd1 = lookupL m d) ∧
                (∀ tid2 tnid2, idLookup (idPairsL d) tid2 = some tnid2 →
                  tid2 ∉ proc → lookupL tnid2 sd1 = lookupL tnid2 d) ∧
                (elemNidsL sd1).Nodup ∧
                (∀ x, x ∈ elemNidsL sp ∨ x ∈ elemNidsL so1 → x ∉ elemNidsL sd1) ∧
                (∀ x, x ∈ elemNidsL sd1 ∨ x ∈ elemNidsL sp ∨ x ∈ elemNidsL so1 →
                  x < sf1) := by
            by_cases hsup : hasDescTags ["sup"] (Node.elem nid "a" aa acs) = true
            · exact ⟨sd, so, sf, by rw [if_pos hsup], hK1s, hK2, hM1, hM2, hB⟩
            · obtain ⟨sd1, heq, p1, p2, p3, p4, p5⟩ :=
                wrap_invariants d hnd0 hsep0 nid sd sp so sf proc suf' hsufm hnidn
                  aa acs hanc_d hK1s hK1nid hK2 hM1 hM2 hB
                  (getTextRaw (Node.elem nid "a" aa acs))
              exact ⟨sd1, so ++ acs, sf + 1, by rw [if_neg hsup, heq],
                p1, p2, p3, p4, p5⟩
          by_cases hin : strTail href ∈ proc
          · have hstep := endnoteStep_eval_seen (idPairsL d) ⟨sd, sp, so, sf⟩
              ⟨sd1, sp, so1, sf1⟩ proc nid "a" aa acs href tnid hlookst hhref_eq
              hsh hidl hqual hst1 hin
            rw [List.foldl_cons]
            have hnil' : proc = [] → (⟨sd1, sp, so1, sf1⟩ : PState) = initPState d :=
              fun habs => absurd (habs ▸ hin) (List.not_mem_nil _)
            obtain ⟨sd2, sp2, so2, sf2, proc2, hfold, hproc, hlen2, hB2, hnil2⟩ :=
              ih hsub' sd1 sp so1 sf1 proc hK1' hK2' hM1' hM2' hB' hlen hnil'
            refine ⟨sd2, sp2, so2, sf2, proc2,
              foldl_congr_init _ suf' _ _ _ hstep hfold, ?_, hlen2, hB2, hnil2⟩
            rw [List.filterMap_cons, hq]
            show proc2 = proc ++ firstDedupGo proc (strTail href ::
              List.filterMap (staticQualify (idPairsL d) d) suf')
            rw [firstDedupGo, if_pos hin]
            exact hproc
          · obtain ⟨ttg, ta, tcs, htgt_d, hta⟩ :=
              target_of d hnd0 (strTail href) tnid hidl
            obtain ⟨httg_ne, htcs_a, htcs_id⟩ :=
              sep_target d hsep0 tnid ttg ta tcs htgt_d (by rw [hta]; rfl)
            have ht_sd1 : lookupL tnid sd1 = some (Node.elem tnid ttg ta tcs) := by
              rw [hK2' (strTail href) tnid hidl hin, htgt_d]
            have hlt : lookupSt tnid ⟨sd1, sp, so1, sf1⟩ =
                some (Node.elem tnid ttg ta tcs) :=
              lookupSt_doc tnid sd1 sp so1 sf1 _ ht_sd1
            have hcb : cleanBackLinks (Node.elem tnid ttg ta tcs) =
                .ok (Node.elem tnid ttg ta tcs) := by
              rw [cleanBackLinks]
              rw [findNids_anchor_nilL tcs htcs_a]
              rfl
            have hstep := endnoteStep_eval_push (idPairsL d) ⟨sd, sp, so, sf⟩
              ⟨sd1, sp, so1, sf1⟩ proc nid "a" aa acs href tnid
              (Node.elem tnid ttg ta tcs) (Node.elem tnid ttg ta tcs)
              hlookst hhref_eq hsh hidl hqual hst1 hin hlt hcb
            rw [List.foldl_cons]
            dsimp only [tagOf] at hstep
            have htnids_lt : ∀ x ∈ elemNidsN (Node.elem tnid ttg ta tcs), x < sf1 :=
              fun x hx => hB' x (Or.inl (lookup_nids_subL tnid _ sd1 ht_sd1 x hx))
            have hnil' : proc ++ [strTail href] = [] →
                (⟨removeL tnid sd1, sp ++ [appendEndnoteClass (Node.elem tnid ttg ta tcs)], so1, sf1⟩ : PState) = initPState d :=
              fun habs => absurd habs (by simp)
            by_cases hdiv : ttg ∈ (["div", "p", "li"] : List String)
            · rw [if_pos hdiv] at hstep
              have hitem : ∀ x ∈ elemNidsN (appendEndnoteClass
                  (Node.elem tnid ttg ta tcs)), x = sf1 ∨
                  x ∈ elemNidsN (Node.elem tnid ttg ta tcs) :=
                fun x hx => Or.inr hx
              have hitemB : ∀ x ∈ elemNidsN (appendEndnoteClass
                  (Node.elem tnid ttg ta tcs)), x < sf1 :=
                fun x hx => htnids_lt x hx
              obtain ⟨q1, q2, q3, q4, q5, hsp_rm, hso_rm⟩ :=
                remove_push_invariants d hnd0 hsep0 sd1 sp so1 sf1 proc suf' hsufm
                  (strTail href) tnid ttg ta tcs htgt_d hta htcs_a htcs_id ht_sd1
                  hK1' hK2' hM1' hM2' hB'
                  (appendEndnoteClass (Node.elem tnid ttg ta tcs)) sf1
                  (Nat.le_refl sf1) hitem hitemB
              have hrm : removeSt tnid (⟨sd1, sp, so1, sf1⟩ : PState) =
                  ⟨removeL tnid sd1, sp, so1, sf1⟩ := by
                rw [removeSt, hsp_rm, hso_rm]
              rw [hrm] at hstep
              have hlen' : (sp ++ [appendEndnoteClass (Node.elem tnid ttg ta tcs)]).length
                  = (proc ++ [strTail href]).length := by
                rw [List.length_append, List.length_append, hlen]
                rfl
              obtain ⟨sd2, sp2, so2, sf2, proc2, hfold, hproc, hlen2, hB2, hnil2⟩ :=
                ih hsub' (removeL tnid sd1)
                  (sp ++ [appendEndnoteClass (Node.elem tnid ttg ta tcs)]) so1 sf1
                  (proc ++ [strTail href]) q1 q2 q3 q4 q5 hlen' hnil'
              refine ⟨sd2, sp2, so2, sf2, proc2,
                foldl_congr_init _ suf' _ _ _ hstep hfold, ?_, hlen2, hB2, hnil2⟩
              rw [List.filterMap_cons, hq]
              show proc2 = proc ++ firstDedupGo proc (strTail href ::
                List.filterMap (staticQualify (idPairsL d) d) suf')
              rw [firstDedupGo, if_neg hin, hproc,
                firstDedupGo_seen_congr _ (proc ++ [strTail href]) (strTail href :: proc)
                  (fun x => by simp [List.mem_append, List.mem_cons, or_comm]),
                List.append_assoc]
              rfl
            · rw [if_neg hdiv] at hstep
              have hitem : ∀ x ∈ elemNidsN (appendEndnoteClass
                  (Node.elem sf1 "div" [] [Node.elem tnid ttg ta tcs])), x = sf1 ∨
                  x ∈ elemNidsN (Node.elem tnid ttg ta tcs) := by
                intro x hx
                have hx' : x ∈ sf1 :: (elemNidsN (Node.elem tnid ttg ta tcs) ++
                    elemNidsL ([] : List Node)) := hx
                rcases List.mem_cons.mp hx' with h1 | h1
                · exact Or.inl h1
                · rw [List.mem_append] at h1
                  rcases h1 with h2 | h2
                  · exact Or.inr h2
                  · exact absurd h2 (List.not_mem_nil x)
              have hitemB : ∀ x ∈ elemNidsN (appendEndnoteClass
                  (Node.elem sf1 "div" [] [Node.elem tnid ttg ta tcs])), x < sf1 + 1 := by
                intro x hx
                rcases hitem x hx with h1 | h1
                · rw [h1]; exact Nat.lt_succ_self sf1
                · exact Nat.lt_succ_of_lt (htnids_lt x h1)
              obtain ⟨q1, q2, q3, q4, q5, hsp_rm, hso_rm⟩ :=
                remove_push_invariants d hnd0 hsep0 sd1 sp so1 sf1 proc suf' hsufm
                  (strTail href) tnid ttg ta tcs htgt_d hta htcs_a htcs_id ht_sd1
                  hK1' hK2' hM1' hM2' hB'
                  (appendEndnoteClass (Node.elem sf1 "div" [] [Node.elem tnid ttg ta tcs]))
                  (sf1 + 1) (Nat.le_succ sf1) hitem hitemB
              have hrm : removeSt tnid (⟨sd1, sp, so1, sf1⟩ : PState) =
                  ⟨removeL tnid sd1, sp, so1, sf1⟩ := by
                rw [removeSt, hsp_rm, hso_rm]
              rw [hrm] at hstep
              dsimp only [freshOf, bumpFresh, pushPool] at hstep
              have hlen' : (sp ++ [appendEndnoteClass
                  (Node.elem sf1 "div" [] [Node.elem tnid ttg ta tcs])]).length
                  = (proc ++ [strTail href]).length := by
                rw [List.length_append, List.length_append, hlen]
                rfl
              have hnil'' : proc ++ [strTail href] = [] →
                  (⟨removeL tnid sd1, sp ++ [appendEndnoteClass
                    (Node.elem sf1 "div" [] [Node.elem tnid ttg ta tcs])], so1,
                    sf1 + 1⟩ : PState) = initPState d :=
                fun habs => absurd habs (by simp)
              obtain ⟨sd2, sp2, so2, sf2, proc2, hfold, hproc, hlen2, hB2, hnil2⟩ :=
                ih hsub' (removeL tnid sd1)
                  (sp ++ [appendEndnoteClass
                    (Node.elem sf1 "div" [] [Node.elem tnid ttg ta tcs])]) so1 (sf1 + 1)
                  (proc ++ [strTail href]) q1 q2 q3 q4 q5 hlen' hnil''
              refine ⟨sd2, sp2, so2, sf2, proc2,
                foldl_congr_init _ suf' _ _ _ hstep hfold, ?_, hlen2, hB2, hnil2⟩
              rw [List.filterMap_cons, hq]
              show proc2 = proc ++ firstDedupGo proc (strTail href ::
                List.filterMap (staticQualify (idPairsL d) d) suf')
              rw [firstDedupGo, if_neg hin, hproc,
                firstDedupGo_seen_congr _ (proc ++ [strTail href]) (strTail href :: proc)
                  (fun x => by simp [List.mem_append, List.mem_cons, or_comm]),
                List.append_assoc]
              rfl


set_option maxHeartbeats 1000000 in
/-- C3: on documents obeying the separation discipline (no anchor carries an
id or nests another anchor or id-bearing element, no id-bearing element nests
an anchor or another id-bearing element) and with distinct element
identities, footnote consolidation succeeds, processes exactly the
statically qualifying references, appends a "Notes" container iff at least
one reference qualifies, and the container holds exactly one consolidated
entry per distinct qualifying target id, in first-reference order.  (The
unrestricted claim is refuted by `C3_counterexample`: a qualifying reference
sitting inside another footnote's content is destroyed by the back-link
cleanup before the loop reaches it, and its target id is silently dropped.) -/
theorem C3_notes_container_counts (d : List Node)
    (hnd : (elemNidsL d).Nodup) (hsep : sepOkL d = true) :
    ∃ st', process_endnotes (initPState d) =
        .ok (st', firstDedup (qualifyingIds d)) ∧
      (firstDedup (qualifyingIds d) = [] → docOf st' = d) ∧
      (firstDedup (qualifyingIds d) ≠ [] →
        ∃ j a h items, lookupL j (docOf st') = some (.elem j "div" a (h :: items)) ∧
          hasClassIn ["endnotes"] a = true ∧
          items.length = (firstDedup (qualifyingIds d)).length) := by
  obtain ⟨sd2, sp2, so2, sf2, proc2, hfold, hproc, hlen2, hB2, hnil2⟩ :=
    endnote_loop d hnd hsep (anchorsWithHref d) (List.Sublist.refl _)
      d [] [] (maxNidF d + 1) []
      (fun m _ => rfl) (fun tid tnid _ _ => rfl) hnd
      (fun x hx => by rcases hx with h | h <;> exact absurd h (List.not_mem_nil x))
      (fun x hx => by
        rcases hx with h | h | h
        · exact maxNidF_bound d x h
        · exact absurd h (List.not_mem_nil x)
        · exact absurd h (List.not_mem_nil x))
      rfl (fun _ => rfl)
  have hproc2 : proc2 = firstDedup (qualifyingIds d) := by
    rw [hproc, List.nil_append]
    rfl
  have hpe : process_endnotes (initPState d) =
      .ok (appendEndnotesContainer ⟨sd2, sp2, so2, sf2⟩, proc2) := by
    rw [initPState, process_endnotes]
    rw [hfold]
  refine ⟨appendEndnotesContainer ⟨sd2, sp2, so2, sf2⟩, by rw [hpe, hproc2], ?_, ?_⟩
  · intro hfd
    have hp2 : proc2 = [] := by rw [hproc2]; exact hfd
    have hst := hnil2 hp2
    rw [initPState] at hst
    injection hst with e1 e2 e3 e4
    subst e1; subst e2; subst e3; subst e4
    rfl
  · intro hfd
    have hp2 : proc2 ≠ [] := by rw [hproc2]; exact hfd
    have hsp2 : sp2 ≠ [] := by
      intro hc
      rw [hc] at hlen2
      exact hp2 (List.length_eq_zero.mp hlen2.symm)
    have hf2notin : sf2 ∉ elemNidsL sd2 := fun hc =>
      absurd (hB2 sf2 (Or.inl hc)) (Nat.lt_irrefl sf2)
    refine ⟨sf2, [("class", "endnotes")],
      .elem (sf2 + 1) "h3" [] [.txt "Notes"], sp2, ?_, by decide,
      by rw [hlen2, hproc2]⟩
    rw [appendEndnotesContainer,
      if_neg (fun hc => hsp2 (List.isEmpty_iff.mp hc))]
    dsimp only
    cases hbody : findTagL "body" sd2 with
    | some b =>
      dsimp only [docOf]
      exact appendChild_lookupL (nidOf b) sf2 _ sd2 (by rw [lookupN, if_pos rfl])
        (findTagL_mem "body" b sd2 hbody) hf2notin
    | none =>
      dsimp only [docOf]
      rw [lookupL_append, lookupL_none_of_not_mem sf2 sd2 hf2notin]
      dsimp only
      rw [lookupL]
      rw [show lookupN sf2 (Node.elem sf2 "div" [("class", "endnotes")]
        (Node.elem (sf2 + 1) "h3" [] [.txt "Notes"] :: sp2)) =
        some (Node.elem sf2 "div" [("class", "endnotes")]
        (Node.elem (sf2 + 1) "h3" [] [.txt "Notes"] :: sp2)) from by
          rw [lookupN, if_pos rfl]]

/-- C3, counterexample to the unrestricted claim: in `exC3` the only
reference to `fn2` is the short back-link inside `fn1`'s content; the
back-link cleanup destroys it while consolidating `fn1`, so only one entry is
collected although two distinct qualifying target ids exist. -/
theorem C3_counterexample :
    (match process_endnotes (initPState exC3) with
      | .ok (_, ids) => ids
      | .error _ => []) = ["fn1"] ∧
    firstDedup (qualifyingIds exC3) = ["fn1", "fn2"] := ⟨rfl, rfl⟩

/-- C3, witness: the amended theorem applied to the concrete separated
two-footnote document `exC3w`, with both hypotheses discharged by
computation. -/
theorem C3_witness :
    (elemNidsL exC3w).Nodup ∧ sepOkL exC3w = true ∧
    (∃ st', process_endnotes (initPState exC3w) =
        .ok (st', firstDedup (qualifyingIds exC3w)) ∧
      (firstDedup (qualifyingIds exC3w) = [] → docOf st' = exC3w) ∧
      (firstDedup (qualifyingIds exC3w) ≠ [] →
        ∃ j a h items, lookupL j (docOf st') = some (.elem j "div" a (h :: items)) ∧
          hasClassIn ["endnotes"] a = true ∧
          items.length = (firstDedup (qualifyingIds exC3w)).length)) :=
  ⟨by decide, by decide, C3_notes_container_counts exC3w (by decide) (by decide)⟩
